import Mathlib

/-! MultAlpha_Fast_File: streaming renormalised matrix-chain evaluation.

A shallow embedding of `src/MultAlpha_Fast_File.cpp`.

* C arrays are total maps from an index to a value (`Nat → α`); a store is `Function.update`.
  Storage that the program never initialises is an explicit parameter (`Uninit`).
* `int` / `long` scalars are `Int` (no overflow is modelled); array indices, which the program
  only forms from non-negative loop counters, are converted with `Int.toNat`. The conversions of
  a `round` result to `int` or `long` are `castInt` and `castLong`; the loader stores the result
  itself, which is the converted value whenever the target type holds it (`fitsInt`,
  `fitsLong`).
* `double` is an arbitrary linearly ordered field `α` together with the libm routines the program
  calls (`Libm`); the exact-real reading used by the theorems is `realMath`.
* `for (i = 0; i < n; i++)` is `forLoop n`.
* Allocation never runs out of memory; an array `new` with a negative length ends the run with
  an uncaught exception. Releasing the buffers (lines 394-411) writes nothing and is left out.
* A text line is the list of characters `getline` delivers. `char` is the signed 8-bit type of
  g++ on x86-64: a character below 128 has its code as value, a byte from `0x80` on has a
  negative value (`charVal`).
-/

namespace MultAlpha

/-! ## Arithmetic environment -/

/-- The libm routines called by `main`: `sqrt`, `log`, `exp` and `round`. -/
structure Libm (α : Type) where
  sqrt : α → α
  log : α → α
  exp : α → α
  round : α → Int

/-- C `round` over the reals: nearest integer, halfway cases away from zero. -/
noncomputable def cround (x : ℝ) : Int :=
  if 0 ≤ x then ⌊x + 1 / 2⌋ else ⌈x - 1 / 2⌉

/-- Exact real arithmetic reading of libm. -/
noncomputable def realMath : Libm ℝ where
  sqrt := Real.sqrt
  log := Real.log
  exp := Real.exp
  round := cround

/-- Source value of `LINES_PER_BLOCK` (line 50). -/
def LINES_PER_BLOCK : Nat := 3

/-- The loop `for (i = 0; i < n; i++) s = body i s`. -/
def forLoop {σ : Type} : Nat → (Nat → σ → σ) → σ → σ
  | 0, _, s => s
  | n + 1, body, s => body n (forLoop n body s)

/-! ## Data -/

/-- The variables filled by the header and matrix reads (lines 93-201). -/
structure Model (α : Type) where
  k_sym : Int
  di_vals : Nat → Int
  hk : Int
  delta : α
  p_and_s : Int
  nbrows : Int
  mxsz_vals : Nat → Int
  max_mxsz : Int
  MiP : Nat → Nat → α

/-- The variables of the multiplication routine (lines 252-285). -/
structure MulState (α : Type) where
  v_0 : Nat → Nat → α
  v_tmp : Nat → α
  log_vec_norm : Nat → α
  bad_char : Bool

/-- Indeterminate initial content of storage that is declared or allocated without a value. -/
structure Uninit (α : Type) where
  di_vals : Nat → Int
  mxsz_vals : Nat → Int
  MiP : Nat → Nat → α
  v_0 : Nat → Nat → α
  v_tmp : Nat → α
  log_vec_norm : Nat → α
  max_br_nrm : α
  log_en_nrm : α

section Core

variable {α : Type} [LinearOrderedField α]

/-! ## Multiplication routine (lines 288-349) -/

/-- Lines 289-292: the body of the initialisation loop, for block row `ii`. -/
def initBody (m : Model α) (ii : Nat) (st : MulState α) : MulState α :=
  { st with
    v_0 := Function.update st.v_0 ii
      (forLoop (m.mxsz_vals ii).toNat (fun c_1 row => Function.update row c_1 1) (st.v_0 ii))
    log_vec_norm := Function.update st.log_vec_norm ii 0 }

/-- Lines 285-293: `bad_char = false`, every `v_0[ii]` is set to all ones and
`log_vec_norm[ii]` to zero. -/
def initState (m : Model α) (u : Uninit α) : MulState α :=
  forLoop m.nbrows.toNat (initBody m)
    { v_0 := u.v_0, v_tmp := u.v_tmp, log_vec_norm := u.log_vec_norm, bad_char := false }

/-- Lines 326-331: `v_tmp = v_0[mm] * M`, the matrix `M` stored row-major with row length `size`. -/
def vecMatLoop (n : Nat) (size : Int) (row : Nat → α) (M : Nat → α) (v_tmp : Nat → α) : Nat → α :=
  forLoop n
    (fun c_1 vt =>
      forLoop n
        (fun r_1 vt =>
          Function.update vt c_1 (vt c_1 + row r_1 * M (size * (r_1 : Int) + (c_1 : Int)).toNat))
        (Function.update vt c_1 0))
    v_tmp

/-- Lines 333-337: Euclidean norm of the first `n` entries of `v_tmp`. -/
def normLoop (L : Libm α) (n : Nat) (v_tmp : Nat → α) : α :=
  L.sqrt (forLoop n (fun c_1 acc => acc + v_tmp c_1 * v_tmp c_1) 0)

/-- Lines 338-340: `v_0[mm][c_1] = v_tmp[c_1] / norm_v_0`. -/
def divLoop (n : Nat) (v_tmp : Nat → α) (norm_v_0 : α) (row : Nat → α) : Nat → α :=
  forLoop n (fun c_1 row => Function.update row c_1 (v_tmp c_1 / norm_v_0)) row

/-- Lines 326-342: the update of block row `mm` for the symbol `sym_val`. -/
def blockRowStep (L : Libm α) (m : Model α) (sym_val : Int) (mm : Nat) (st : MulState α) :
    MulState α :=
  let n := (m.mxsz_vals mm).toNat
  let v_tmp := vecMatLoop n (m.mxsz_vals mm) (st.v_0 mm)
    (m.MiP ((mm : Int) * m.k_sym + sym_val).toNat) st.v_tmp
  let norm_v_0 := normLoop L n v_tmp
  { st with
    v_0 := Function.update st.v_0 mm (divLoop n v_tmp norm_v_0 (st.v_0 mm))
    v_tmp := v_tmp
    log_vec_norm := Function.update st.log_vec_norm mm (st.log_vec_norm mm + L.log norm_v_0) }

/-- Lines 324-344: all block rows are updated for one accepted symbol. -/
def symbolStep (L : Libm α) (m : Model α) (sym_val : Int) (st : MulState α) : MulState α :=
  forLoop m.nbrows.toNat (fun mm st => blockRowStep L m sym_val mm st) st

/-- The byte under which a character of a line first reaches the loop of line 314. A character
below 256 is the byte of that value. A character from 256 on does not fit one `char`: the loop
meets the lead byte of its UTF-8 encoding, a byte from `0xC4` on. -/
def leadByte (ch : Char) : Nat :=
  if ch.toNat < 256 then ch.toNat
  else if ch.toNat < 2048 then 192 + ch.toNat / 64
  else if ch.toNat < 65536 then 224 + ch.toNat / 4096
  else 240 + ch.toNat / 262144

/-- The value of `line_block[kk]`: `char` is a signed 8-bit integer (g++ on x86-64), so a byte
from `0x80` on is read as the byte minus 256. -/
def charVal (ch : Char) : Int :=
  if leadByte ch < 128 then (leadByte ch : Int) else (leadByte ch : Int) - 256

/-- Line 316: `sym_val = line_block[kk] - '1'`, the operands promoted to `int`. -/
def symVal (ch : Char) : Int := charVal ch - charVal '1'

/-- Lines 314-347: the loop over the characters of one `line_block`; an out-of-range character
sets `bad_char` and leaves this loop. -/
def processBlock (L : Libm α) (m : Model α) : List Char → MulState α → MulState α
  | [], st => st
  | ch :: rest, st =>
    if symVal ch < 0 ∨ symVal ch ≥ m.k_sym then { st with bad_char := true }
    else processBlock L m rest (symbolStep L m (symVal ch) st)

/-- Lines 302-310: up to `lpb` successful `getline` calls are appended to `line_block`; the first
failing call sets `file_done`. The result is `(line_block, unread lines, file_done)`. -/
def readBlock : Nat → List (List Char) → List Char × List (List Char) × Bool
  | 0, lines => ([], lines, false)
  | _ + 1, [] => ([], [], true)
  | jj + 1, file_line :: lines =>
    let r := readBlock jj lines
    (file_line ++ r.1, r.2.1, r.2.2)

/-- Lines 300-349: `while (!file_done)`. The loop may run forever (when `lpb = 0`), hence the
iteration budget; `none` means the budget ran out. -/
def streamLoop (L : Libm α) (m : Model α) (lpb : Nat) :
    Nat → List (List Char) → MulState α → Option (MulState α)
  | 0, _, _ => none
  | fuel + 1, lines, st =>
    let r := readBlock lpb lines
    let st1 := processBlock L m r.1 st
    if r.2.2 then some st1 else streamLoop L m lpb fuel r.2.1 st1

/-! ## Sum over block rows (lines 358-384) -/

/-- Lines 366-377: the body of the finalisation loop, for block row `mm`; the state is
`(log_vec_norm, max_br_nrm)`. -/
def finalizeBody (L : Libm α) (m : Model α) (st : MulState α) (mm : Nat) (acc : (Nat → α) × α) :
    (Nat → α) × α :=
  let tmp_sum := forLoop (m.mxsz_vals mm).toNat (fun c_1 s => s + st.v_0 mm c_1) 0
  let lvn := Function.update acc.1 mm (acc.1 mm + L.log tmp_sum)
  (lvn, if mm = 0 then lvn 0 else if lvn mm > acc.2 then lvn mm else acc.2)

/-- Lines 365-378: the projection is folded into `log_vec_norm[mm]` and the running maximum
`max_br_nrm` is tracked. The result is `(log_vec_norm, max_br_nrm)`. -/
def finalizeLoop (L : Libm α) (m : Model α) (st : MulState α) (max0 : α) : (Nat → α) × α :=
  forLoop m.nbrows.toNat (finalizeBody L m st) (st.log_vec_norm, max0)

/-- Lines 379-383: `log_en_nrm = max_br_nrm + log(sum_mm exp(log_vec_norm[mm] - max_br_nrm))`. -/
def combine (L : Libm α) (m : Model α) (lvn : Nat → α) (max_br_nrm : α) : α :=
  max_br_nrm + L.log (forLoop m.nbrows.toNat (fun mm s => s + L.exp (lvn mm - max_br_nrm)) 0)

/-! ## Reading the matrix data file (lines 84-203) -/

/-- How the reading phase can stop early: a short `fread` (message and `return 1`), or an array
`new` with a negative length (an exception nobody catches). -/
inductive LoadFail
  | readFail
  | badAlloc
  deriving DecidableEq, Repr

/-- A `for` loop whose body may leave `main`. -/
def forLoopM {σ : Type} : Nat → (Nat → σ → Option σ) → σ → Option σ
  | 0, _, s => some s
  | n + 1, body, s => (forLoopM n body s).bind (body n)

/-- An integer that an `int` holds (32 bits). -/
def fitsInt (z : Int) : Prop := -2147483648 ≤ z ∧ z ≤ 2147483647

/-- An integer that a `long` holds (64 bits). -/
def fitsLong (z : Int) : Prop := -9223372036854775808 ≤ z ∧ z ≤ 9223372036854775807

/-- The conversion `(int)` of lines 100 and 142, applied to the integer `round` returns: the
integer itself when an `int` holds it. C++ leaves the conversion of any other value undefined;
the x86-64 instruction delivers the most negative `int`. -/
def castInt (z : Int) : Int := if -2147483648 ≤ z ∧ z ≤ 2147483647 then z else -2147483648

/-- The conversion `(long)` of lines 114, 124, 151 and 166: the integer itself when a `long`
holds it, otherwise (undefined in C++) what the x86-64 instruction delivers, the most negative
`long`. -/
def castLong (z : Int) : Int :=
  if -9223372036854775808 ≤ z ∧ z ≤ 9223372036854775807 then z else -9223372036854775808

/-- Lines 108-115: `di_vals[ii] = (long)round(tmp)` for each of the next `n` values. The
conversion is taken on a value a `long` holds, where it changes nothing (`castLong`). -/
def readShifts (L : Libm α) (n : Nat) (s : (Nat → Int) × List α) : Option ((Nat → Int) × List α) :=
  forLoopM n
    (fun ii s =>
      match s.2 with
      | [] => none
      | tmp :: rest => some (Function.update s.1 ii (L.round tmp), rest))
    s

/-- Lines 159-170: the block sizes are read and `max_mxsz` is tracked. The state is
`(mxsz_vals, max_mxsz, unread values)`. The conversion `(long)` is taken on a value a `long`
holds. -/
def readSizes (L : Libm α) (n : Nat) (s : (Nat → Int) × Int × List α) :
    Option ((Nat → Int) × Int × List α) :=
  forLoopM n
    (fun ii s =>
      match s.2.2 with
      | [] => none
      | tmp :: rest =>
        let mxsz_vals := Function.update s.1 ii (L.round tmp)
        some (mxsz_vals, if mxsz_vals ii > s.2.1 then mxsz_vals ii else s.2.1, rest))
    s

/-- Lines 194-199: the entries of one matrix, `MiP[idx][kk]` for `kk < count`. -/
def readMatrix (idx count : Nat) (s : (Nat → Nat → α) × List α) :
    Option ((Nat → Nat → α) × List α) :=
  forLoopM count
    (fun kk s =>
      match s.2 with
      | [] => none
      | x :: rest => some (Function.update s.1 idx (Function.update (s.1 idx) kk x), rest))
    s

/-- Lines 192-201: all matrices, block row by block row and symbol by symbol. -/
def readMatrices (k_sym nbrows : Int) (mxsz_vals : Nat → Int) (s : (Nat → Nat → α) × List α) :
    Option ((Nat → Nat → α) × List α) :=
  forLoopM nbrows.toNat
    (fun ii s =>
      forLoopM k_sym.toNat
        (fun jj s =>
          readMatrix ((ii : Int) * k_sym + (jj : Int)).toNat
            (mxsz_vals ii * mxsz_vals ii).toNat s)
        s)
    s

/-- Lines 93-201: the header and the matrices are read from the values of the data file. Every
`round` result is stored as it is: the conversions `(int)` and `(long)` of lines 100-166 are
taken on values the target type holds, where `castInt` and `castLong` change nothing, and the
products of lines 174, 180 and 194 are taken without overflow. Statements about the stored
header values of a file carry these range conditions as hypotheses. -/
def loadModel (L : Libm α) (u : Uninit α) (file : List α) : Except LoadFail (Model α) :=
  match file with
  | [] => .error .readFail
  | tmp :: file =>
    let k_sym := L.round tmp
    if k_sym < 0 then .error .badAlloc
    else
      match readShifts L k_sym.toNat (u.di_vals, file) with
      | none => .error .readFail
      | some (_, []) => .error .readFail
      | some (_, [_]) => .error .readFail
      | some (_, [_, _]) => .error .readFail
      | some (_, [_, _, _]) => .error .readFail
      | some (di_vals, tmp_hk :: delta :: tmp_ps :: tmp_nb :: file) =>
        let nbrows := L.round tmp_nb
        if nbrows < 0 then .error .badAlloc
        else
          match readSizes L nbrows.toNat (u.mxsz_vals, 0, file) with
          | none => .error .readFail
          | some (mxsz_vals, max_mxsz, file) =>
            if nbrows * k_sym < 0 then .error .badAlloc
            else
              match readMatrices k_sym nbrows mxsz_vals (u.MiP, file) with
              | none => .error .readFail
              | some (MiP, _) =>
                .ok
                  { k_sym := k_sym
                    di_vals := di_vals
                    hk := L.round tmp_hk
                    delta := delta
                    p_and_s := L.round tmp_ps
                    nbrows := nbrows
                    mxsz_vals := mxsz_vals
                    max_mxsz := max_mxsz
                    MiP := MiP }

/-! ## The run (`main`, for an invocation with two file arguments) -/

/-- What `main` writes to standard output. -/
inductive Out (α : Type)
  /-- Line 86: "Unable to open file." -/
  | unableToOpen
  /-- Lines 96, 110, ...: "Unable to read from opened file." -/
  | unableToRead
  /-- Lines 211-227: the echo of the header. -/
  | header (k_sym hk : Int) (delta : α) (p_and_s nbrows : Int) (shifts : List Int)
  /-- Line 362: "symbol out of range in input string; multiplication failed". -/
  | badSymbol
  /-- Line 386: the value of `log_en_nrm`, printed with `%.14f`. -/
  | number (x : α)

/-- How `main` ends: `return status`, or an uncaught exception. -/
inductive Exit
  | returned (status : Int)
  | aborted
  deriving DecidableEq, Repr

/-- Standard output and the way the run ended. -/
structure Run (α : Type) where
  stdout : List (Out α)
  exit : Exit

/-- Lines 211-227. -/
def headerOf (m : Model α) : Out α :=
  .header m.k_sym m.hk m.delta m.p_and_s m.nbrows ((List.range m.k_sym.toNat).map m.di_vals)

/-- Lines 257-262: `new double[mxsz_vals[ii]]` needs a non-negative length for every block row. -/
def vectorsAllocate (m : Model α) : Bool :=
  (List.range m.nbrows.toNat).all (fun ii => decide (0 ≤ m.mxsz_vals ii))

/-- Lines 365-378 for block row `i`: the finalised `log_vec_norm[i]`. -/
def finalLogNorm (L : Libm α) (m : Model α) (st : MulState α) (max0 : α) (i : Nat) : α :=
  (finalizeLoop L m st max0).1 i

/-- Lines 365-383: the value assigned to `log_en_nrm` when no bad character was seen. -/
def resultOf (L : Libm α) (m : Model α) (st : MulState α) (max0 : α) : α :=
  combine L m (finalizeLoop L m st max0).1 (finalizeLoop L m st max0).2

/-- Lines 358-417: the sum over block rows, the printed line(s) and the exit status. On the
`bad_char` path `log_en_nrm` is printed without ever having been assigned. -/
def report (L : Libm α) (m : Model α) (u : Uninit α) (st : MulState α) : Run α :=
  if st.bad_char then
    { stdout := [headerOf m, .badSymbol, .number u.log_en_nrm], exit := .returned 1 }
  else
    { stdout := [headerOf m, .number (resultOf L m st u.max_br_nrm)], exit := .returned 0 }

/-- Lines 84-417 with `LINES_PER_BLOCK = lpb`. `modelFile` is `none` when `fopen` fails, else the
doubles stored in the file; `symbolFile` is `none` when the stream cannot be opened (every
`getline` then fails), else the lines `getline` delivers. `none` as a result means that the
iteration budget `fuel` of the `while` loop ran out. -/
def mainWith (L : Libm α) (u : Uninit α) (lpb fuel : Nat) (modelFile : Option (List α))
    (symbolFile : Option (List (List Char))) : Option (Run α) :=
  match modelFile with
  | none => some { stdout := [.unableToOpen], exit := .returned 1 }
  | some file =>
    match loadModel L u file with
    | .error .readFail => some { stdout := [.unableToRead], exit := .returned 1 }
    | .error .badAlloc => some { stdout := [], exit := .aborted }
    | .ok m =>
      if vectorsAllocate m then
        (streamLoop L m lpb fuel (symbolFile.getD []) (initState m u)).map (report L m u)
      else some { stdout := [headerOf m], exit := .aborted }

/-- The program as compiled: `LINES_PER_BLOCK` is 3. -/
def main (L : Libm α) (u : Uninit α) (fuel : Nat) (modelFile : Option (List α))
    (symbolFile : Option (List (List Char))) : Option (Run α) :=
  mainWith L u LINES_PER_BLOCK fuel modelFile symbolFile

end Core

/-! ## Views used to state properties -/

section Views

variable {α : Type} [LinearOrderedField α]

/-- Number of rows and columns of the matrices of block row `i`, as a loop bound. -/
abbrev rowSize (m : Model α) (i : Nat) : Nat := (m.mxsz_vals i).toNat

/-- Matrix of block row `i` for the symbol `s`: entry `(r, c)` is
`MiP[i*k_sym + s][mxsz_vals[i]*r + c]`, the addressing of line 329. -/
def matOf (m : Model α) (i : Nat) (s : Int) : Matrix (Fin (rowSize m i)) (Fin (rowSize m i)) α :=
  Matrix.of fun r c =>
    m.MiP ((i : Int) * m.k_sym + s).toNat (m.mxsz_vals i * ((r : Nat) : Int) + ((c : Nat) : Int)).toNat

/-- The weight vector `v_0[i]` of block row `i`, restricted to its `mxsz_vals[i]` entries. -/
def weightVec (m : Model α) (st : MulState α) (i : Nat) : Fin (rowSize m i) → α :=
  fun c => st.v_0 i c

/-- The projection of lines 366-369: the sum of the entries of the weight vector of block row
`i`. -/
def projection (m : Model α) (st : MulState α) (i : Nat) : α :=
  ∑ c, weightVec m st i c

/-- The accepted symbols are processed one after the other, in order (lines 314-347 without the
range check). -/
def feedSymbols (L : Libm α) (m : Model α) (syms : List Int) (st : MulState α) : MulState α :=
  syms.foldl (fun st s => symbolStep L m s st) st

/-- A character is a valid symbol when line 318 accepts it. -/
def validChar (m : Model α) (ch : Char) : Prop := 0 ≤ symVal ch ∧ symVal ch < m.k_sym

/-- The unnormalised row vector `ones * M[i][s1] * ... * M[i][st]`. -/
def chainVec (m : Model α) (i : Nat) (syms : List Int) : Fin (rowSize m i) → α :=
  syms.foldl (fun w s => Matrix.vecMul w (matOf m i s)) (fun _ => 1)

/-- The value `norm_v_0` takes at line 337 for block row `i` when the symbol `s` is processed
from the state `st`: block rows `0 .. i-1` have been updated before. -/
def normAt (L : Libm α) (m : Model α) (s : Int) (i : Nat) (st : MulState α) : α :=
  let st1 := forLoop i (fun mm st => blockRowStep L m s mm st) st
  normLoop L (m.mxsz_vals i).toNat
    (vecMatLoop (m.mxsz_vals i).toNat (m.mxsz_vals i) (st1.v_0 i)
      (m.MiP ((i : Int) * m.k_sym + s).toNat) st1.v_tmp)

/-- Every renormalisation norm of block row `i` is non-zero while the symbols `syms` are
processed from the state `st`, so that no division by zero and no `log(0)` occurs. -/
def normsNonzero (L : Libm α) (m : Model α) (i : Nat) : List Int → MulState α → Prop
  | [], _ => True
  | s :: rest, st => normAt L m s i st ≠ 0 ∧ normsNonzero L m i rest (symbolStep L m s st)

/-- The model in which every entry of every matrix of block row `i` (the table entries
`MiP[i*k_sym] .. MiP[i*k_sym + k_sym - 1]`) is replaced by `c` times that entry. -/
def scaleRow (m : Model α) (i : Nat) (c : α) : Model α :=
  { m with
    MiP := fun idx e =>
      if (i : Int) * m.k_sym ≤ (idx : Int) ∧ (idx : Int) < ((i : Int) + 1) * m.k_sym then
        c * m.MiP idx e
      else m.MiP idx e }

/-- The run over the accepted symbols `syms` from the state `st` is defined for block row `i`:
no renormalisation norm is zero and the final projection is positive, so that every division
and every logarithm of lines 337-342 and 370 has a value. -/
def runDefined (L : Libm α) (m : Model α) (i : Nat) (syms : List Int) (st : MulState α) : Prop :=
  normsNonzero L m i syms st ∧ 0 < projection m (feedSymbols L m syms st) i

/-- Two states agree on block row `i`: the first `n` entries of `v_0[i]` and `log_vec_norm[i]`
are the same. -/
def rowAgree (n i : Nat) (st1 st2 : MulState α) : Prop :=
  (∀ c, c < n → st1.v_0 i c = st2.v_0 i c) ∧ st1.log_vec_norm i = st2.log_vec_norm i

/-- Length asked for the table `MiP` (line 174). -/
def tableLen (m : Model α) : Int := m.nbrows * m.k_sym

/-- Length asked for each matrix `MiP[ii*k_sym + jj]` of block row `ii` (line 180). -/
def matrixLen (m : Model α) (ii : Nat) : Int := m.mxsz_vals ii * m.mxsz_vals ii

/-- Length asked for the vector `v_0[ii]` (line 258). -/
def vectorLen (m : Model α) (ii : Nat) : Int := m.mxsz_vals ii

/-- Length asked for the scratch vector `v_tmp` (line 265). -/
def scratchLen (m : Model α) : Int := m.max_mxsz

end Views

/-- Euclidean norm of a vector, as lines 333-337 compute it in exact arithmetic. -/
noncomputable def enorm {n : Nat} (w : Fin n → ℝ) : ℝ := Real.sqrt (∑ c, w c * w c)

/-- One renormalised update of a weight vector `w` and its cumulative log-norm `l` by the
matrix `M` (section 4.3, steps 1-4), in exact real arithmetic. -/
noncomputable def rowStep {n : Nat} (M : Matrix (Fin n) (Fin n) ℝ) (p : (Fin n → ℝ) × ℝ) :
    (Fin n → ℝ) × ℝ :=
  ((enorm (Matrix.vecMul p.1 M))⁻¹ • Matrix.vecMul p.1 M,
    p.2 + Real.log (enorm (Matrix.vecMul p.1 M)))

/-- Row-level form of `normsNonzero`: every norm met by the renormalised updates with the
matrices `Ms` from the pair `p` is non-zero. -/
def rowNormsNonzero {n : Nat} : List (Matrix (Fin n) (Fin n) ℝ) → (Fin n → ℝ) × ℝ → Prop
  | [], _ => True
  | M :: rest, p => enorm (Matrix.vecMul p.1 M) ≠ 0 ∧ rowNormsNonzero rest (rowStep M p)

/-- The pair (weight vector, cumulative log-norm) of block row `i` in a state. -/
def rowState (m : Model ℝ) (st : MulState ℝ) (i : Nat) : (Fin (rowSize m i) → ℝ) × ℝ :=
  (weightVec m st i, st.log_vec_norm i)

/-! ## Concrete inputs -/

/-- A model with two symbols and one block row of size 2: the matrix of symbol `1` has all
entries 1, the matrix of symbol `2` is `[[1, 2], [3, 4]]`. -/
noncomputable def modelAB : Model ℝ where
  k_sym := 2
  di_vals := fun _ => 1
  hk := 2
  delta := 1 / 2
  p_and_s := 0
  nbrows := 1
  mxsz_vals := fun _ => 2
  max_mxsz := 2
  MiP := fun idx e => if idx = 0 then 1 else (e : ℝ) + 1

/-- Storage whose indeterminate content happens to be zero everywhere. -/
noncomputable def uninit0 : Uninit ℝ where
  di_vals := fun _ => 0
  mxsz_vals := fun _ => 0
  MiP := fun _ _ => 0
  v_0 := fun _ _ => 0
  v_tmp := fun _ => 0
  log_vec_norm := fun _ => 0
  max_br_nrm := 0
  log_en_nrm := 0

/-- A model with two symbols and one block row of size 3 in which every matrix is the
identity. -/
noncomputable def idModel3 : Model ℝ where
  k_sym := 2
  di_vals := fun _ => 1
  hk := 3
  delta := 0
  p_and_s := 0
  nbrows := 1
  mxsz_vals := fun _ => 3
  max_mxsz := 3
  MiP := fun _ e => if e / 3 = e % 3 then 1 else 0

/-- The values of a data file for `modelAB`: `k_sym = 2`, shifts `1, 1`, `hk = 2`,
`delta = 1/2`, `p_and_s = 0`, `nbrows = 1`, `mxsz_vals = [2]`, then the two matrices in
row-major order. -/
noncomputable def fileAB : List ℝ :=
  [2, 1, 1, 2, 1 / 2, 0, 1, 2, 1, 1, 1, 1, 1, 2, 3, 4]

/-- The values of a data file with one symbol and one block row of size 1 whose only matrix
entry is 0: `k_sym = 1`, shift `0`, `hk = 1`, `delta = 0`, `p_and_s = 0`, `nbrows = 1`,
`mxsz_vals = [1]`, matrix `[0]`. -/
noncomputable def fileZero : List ℝ := [1, 0, 1, 0, 0, 1, 1, 0]

/-- A model with two symbols and two block rows: block row 0 is that of `modelAB`, block row 1
has size 3 and matrices with all entries 5. -/
noncomputable def modelAB2 : Model ℝ where
  k_sym := 2
  di_vals := fun _ => 1
  hk := 2
  delta := 1 / 2
  p_and_s := 0
  nbrows := 2
  mxsz_vals := fun j => if j = 0 then 2 else 3
  max_mxsz := 3
  MiP := fun idx e => if idx = 0 then 1 else if idx = 1 then (e : ℝ) + 1 else 5

/-- Storage whose indeterminate content happens to be 7 everywhere. -/
noncomputable def uninit7 : Uninit ℝ where
  di_vals := fun _ => 7
  mxsz_vals := fun _ => 7
  MiP := fun _ _ => 7
  v_0 := fun _ _ => 7
  v_tmp := fun _ => 7
  log_vec_norm := fun _ => 7
  max_br_nrm := 7
  log_en_nrm := 7

end MultAlpha

/-! # Verification -/

namespace MultAlpha

section LoopLemmas

variable {α : Type} [LinearOrderedField α]

theorem forLoop_add_eq_sum (f : Nat → α) (n : Nat) (a : α) :
    forLoop n (fun i acc => acc + f i) a = a + ∑ i in Finset.range n, f i := by
  induction n with
  | zero => simp [forLoop]
  | succ n ih => simp [forLoop, ih, Finset.sum_range_succ, add_assoc]

theorem forLoop_update_apply {β : Type} (g : Nat → β) (n : Nat) (row : Nat → β) (j : Nat) :
    forLoop n (fun c r => Function.update r c (g c)) row j = if j < n then g j else row j := by
  induction n with
  | zero => simp [forLoop]
  | succ n ih =>
    simp only [forLoop]
    by_cases hj : j = n
    · subst hj; simp
    · rw [Function.update_noteq hj, ih]
      have : j < n + 1 ↔ j < n := by omega
      simp [this]

theorem forLoop_accumulate (t : Nat → α) (c k : Nat) (vt : Nat → α) :
    forLoop k (fun r v => Function.update v c (v c + t r)) vt
      = Function.update vt c (vt c + ∑ r in Finset.range k, t r) := by
  induction k with
  | zero => simp [forLoop]
  | succ k ih =>
    simp only [forLoop, ih, Function.update_same, Function.update_idem, Finset.sum_range_succ,
      add_assoc]

theorem vecMatLoop_aux (p n : Nat) (size : Int) (row M vt : Nat → α) (j : Nat) :
    forLoop p
        (fun c_1 vt =>
          forLoop n
            (fun r_1 vt =>
              Function.update vt c_1
                (vt c_1 + row r_1 * M (size * (r_1 : Int) + (c_1 : Int)).toNat))
            (Function.update vt c_1 0))
        vt j
      = if j < p then ∑ r in Finset.range n, row r * M (size * (r : Int) + (j : Int)).toNat
        else vt j := by
  induction p with
  | zero => simp [forLoop]
  | succ p ih =>
    simp only [forLoop]
    rw [forLoop_accumulate]
    by_cases hj : j = p
    · subst hj; simp
    · rw [Function.update_noteq hj, Function.update_noteq hj, ih]
      have : j < p + 1 ↔ j < p := by omega
      simp [this]

theorem vecMatLoop_apply (n : Nat) (size : Int) (row M vt : Nat → α) (j : Nat) :
    vecMatLoop n size row M vt j
      = if j < n then ∑ r in Finset.range n, row r * M (size * (r : Int) + (j : Int)).toNat
        else vt j :=
  vecMatLoop_aux n n size row M vt j

end LoopLemmas

section RowLemmas

theorem vecMatLoop_fin (m : Model ℝ) (s : Int) (mm : Nat) (st : MulState ℝ)
    (c : Fin (rowSize m mm)) :
    vecMatLoop (rowSize m mm) (m.mxsz_vals mm) (st.v_0 mm)
        (m.MiP ((mm : Int) * m.k_sym + s).toNat) st.v_tmp c
      = Matrix.vecMul (weightVec m st mm) (matOf m mm s) c := by
  rw [vecMatLoop_apply, if_pos c.isLt, Finset.sum_range]
  simp [Matrix.vecMul, Matrix.dotProduct, weightVec, matOf]

theorem blockRowStep_norm (m : Model ℝ) (s : Int) (mm : Nat) (st : MulState ℝ) :
    normLoop realMath (rowSize m mm)
        (vecMatLoop (rowSize m mm) (m.mxsz_vals mm) (st.v_0 mm)
          (m.MiP ((mm : Int) * m.k_sym + s).toNat) st.v_tmp)
      = enorm (Matrix.vecMul (weightVec m st mm) (matOf m mm s)) := by
  unfold normLoop enorm
  rw [forLoop_add_eq_sum, Finset.sum_range]
  simp only [vecMatLoop_fin, zero_add]
  rfl

theorem blockRowStep_weightVec (m : Model ℝ) (s : Int) (mm : Nat) (st : MulState ℝ) :
    weightVec m (blockRowStep realMath m s mm st) mm
      = (enorm (Matrix.vecMul (weightVec m st mm) (matOf m mm s)))⁻¹ •
          Matrix.vecMul (weightVec m st mm) (matOf m mm s) := by
  funext c
  simp only [weightVec, blockRowStep, Function.update_same, divLoop, forLoop_update_apply,
    if_pos c.isLt, Pi.smul_apply, smul_eq_mul]
  rw [blockRowStep_norm, vecMatLoop_fin, div_eq_inv_mul]

theorem blockRowStep_log (m : Model ℝ) (s : Int) (mm : Nat) (st : MulState ℝ) :
    (blockRowStep realMath m s mm st).log_vec_norm mm
      = st.log_vec_norm mm
        + Real.log (enorm (Matrix.vecMul (weightVec m st mm) (matOf m mm s))) := by
  simp only [blockRowStep, Function.update_same]
  rw [blockRowStep_norm]
  rfl

theorem blockRowStep_other {α : Type} [LinearOrderedField α] (L : Libm α) (m : Model α)
    (s : Int) (mm j : Nat) (st : MulState α) (h : j ≠ mm) :
    (blockRowStep L m s mm st).v_0 j = st.v_0 j
      ∧ (blockRowStep L m s mm st).log_vec_norm j = st.log_vec_norm j := by
  simp [blockRowStep, Function.update_noteq h]

theorem blockRowStep_bad_char {α : Type} [LinearOrderedField α] (L : Libm α) (m : Model α)
    (s : Int) (mm : Nat) (st : MulState α) :
    (blockRowStep L m s mm st).bad_char = st.bad_char := rfl

end RowLemmas

section SymbolLemmas

theorem blockRowStep_rowState (m : Model ℝ) (s : Int) (mm : Nat) (st : MulState ℝ) :
    rowState m (blockRowStep realMath m s mm st) mm = rowStep (matOf m mm s) (rowState m st mm) := by
  simp only [rowState, rowStep, blockRowStep_weightVec, blockRowStep_log]

theorem rowState_congr (m : Model ℝ) (st st2 : MulState ℝ) (j : Nat)
    (h : st.v_0 j = st2.v_0 j ∧ st.log_vec_norm j = st2.log_vec_norm j) :
    rowState m st j = rowState m st2 j := by
  unfold rowState weightVec
  rw [h.1, h.2]

theorem symbolLoop_spec (m : Model ℝ) (s : Int) (st : MulState ℝ) (b : Nat) :
    (∀ j, b ≤ j →
        (forLoop b (fun mm st => blockRowStep realMath m s mm st) st).v_0 j = st.v_0 j
        ∧ (forLoop b (fun mm st => blockRowStep realMath m s mm st) st).log_vec_norm j
            = st.log_vec_norm j)
      ∧ (∀ j, j < b →
          rowState m (forLoop b (fun mm st => blockRowStep realMath m s mm st) st) j
            = rowStep (matOf m j s) (rowState m st j))
      ∧ (forLoop b (fun mm st => blockRowStep realMath m s mm st) st).bad_char = st.bad_char := by
  induction b with
  | zero => simp [forLoop]
  | succ b ih =>
    obtain ⟨ih1, ih2, ih3⟩ := ih
    simp only [forLoop]
    refine ⟨?_, ?_, ?_⟩
    · intro j hj
      have hne : j ≠ b := by omega
      have h1 := blockRowStep_other realMath m s b j
        (forLoop b (fun mm st => blockRowStep realMath m s mm st) st) hne
      have h2 := ih1 j (by omega)
      exact ⟨h1.1.trans h2.1, h1.2.trans h2.2⟩
    · intro j hj
      by_cases hjb : j = b
      · subst hjb
        rw [blockRowStep_rowState, rowState_congr m _ st j (ih1 j le_rfl)]
      · rw [rowState_congr m _ _ j (blockRowStep_other realMath m s b j _ hjb)]
        exact ih2 j (by omega)
    · rw [blockRowStep_bad_char]; exact ih3

theorem symbolStep_rowState (m : Model ℝ) (s : Int) (st : MulState ℝ) (i : Nat)
    (hi : (i : Int) < m.nbrows) :
    rowState m (symbolStep realMath m s st) i = rowStep (matOf m i s) (rowState m st i) :=
  (symbolLoop_spec m s st m.nbrows.toNat).2.1 i (by omega)

theorem symbolStep_bad_char (m : Model ℝ) (s : Int) (st : MulState ℝ) :
    (symbolStep realMath m s st).bad_char = st.bad_char :=
  (symbolLoop_spec m s st m.nbrows.toNat).2.2

theorem feedSymbols_rowState (m : Model ℝ) (syms : List Int) (st : MulState ℝ) (i : Nat)
    (hi : (i : Int) < m.nbrows) :
    rowState m (feedSymbols realMath m syms st) i
      = syms.foldl (fun p s => rowStep (matOf m i s) p) (rowState m st i) := by
  induction syms generalizing st with
  | nil => rfl
  | cons s rest ih =>
    simp only [feedSymbols, List.foldl_cons] at ih ⊢
    rw [ih, symbolStep_rowState m s st i hi]

theorem feedSymbols_bad_char (m : Model ℝ) (syms : List Int) (st : MulState ℝ) :
    (feedSymbols realMath m syms st).bad_char = st.bad_char := by
  induction syms generalizing st with
  | nil => rfl
  | cons s rest ih =>
    simp only [feedSymbols, List.foldl_cons] at ih ⊢
    rw [ih, symbolStep_bad_char]

end SymbolLemmas

section StreamLemmas

variable {α : Type} [LinearOrderedField α]

theorem feedSymbols_append (L : Libm α) (m : Model α) (a b : List Int) (st : MulState α) :
    feedSymbols L m (a ++ b) st = feedSymbols L m b (feedSymbols L m a st) := by
  simp [feedSymbols, List.foldl_append]

theorem processBlock_valid (L : Libm α) (m : Model α) (blk : List Char) (st : MulState α)
    (h : ∀ ch ∈ blk, validChar m ch) :
    processBlock L m blk st = feedSymbols L m (blk.map symVal) st := by
  induction blk generalizing st with
  | nil => rfl
  | cons ch rest ih =>
    have hch : validChar m ch := h ch (List.mem_cons_self _ _)
    have hno : ¬ (symVal ch < 0 ∨ symVal ch ≥ m.k_sym) := by
      rcases hch with ⟨h0, h1⟩
      omega
    simp only [processBlock, if_neg hno, List.map_cons]
    rw [ih _ (fun c hc => h c (List.mem_cons_of_mem _ hc))]
    rfl

theorem readBlock_flatten (lpb : Nat) (lines : List (List Char)) :
    (readBlock lpb lines).1 ++ (readBlock lpb lines).2.1.flatten = lines.flatten := by
  induction lpb generalizing lines with
  | zero => simp [readBlock]
  | succ jj ih =>
    cases lines with
    | nil => simp [readBlock]
    | cons l ls => simp [readBlock, List.append_assoc, ih ls]

theorem readBlock_done (lpb : Nat) (lines : List (List Char))
    (h : (readBlock lpb lines).2.2 = true) : (readBlock lpb lines).2.1 = [] := by
  induction lpb generalizing lines with
  | zero => simp [readBlock] at h
  | succ jj ih =>
    cases lines with
    | nil => simp [readBlock]
    | cons l ls =>
      simp only [readBlock] at h ⊢
      exact ih ls h

theorem readBlock_not_done (lpb : Nat) (lines : List (List Char))
    (h : (readBlock lpb lines).2.2 = false) :
    (readBlock lpb lines).2.1.length + lpb = lines.length := by
  induction lpb generalizing lines with
  | zero => simp [readBlock]
  | succ jj ih =>
    cases lines with
    | nil => simp [readBlock] at h
    | cons l ls =>
      simp only [readBlock] at h ⊢
      have := ih ls h
      simp only [List.length_cons]
      omega

theorem streamLoop_valid (L : Libm α) (m : Model α) (lpb : Nat) (hl : 1 ≤ lpb) (fuel : Nat)
    (lines : List (List Char)) (st : MulState α) (hf : lines.length < fuel)
    (h : ∀ ch ∈ lines.flatten, validChar m ch) :
    streamLoop L m lpb fuel lines st
      = some (feedSymbols L m (lines.flatten.map symVal) st) := by
  induction fuel generalizing lines st with
  | zero => omega
  | succ fuel ih =>
    have hj := readBlock_flatten lpb lines
    have hblk : ∀ ch ∈ (readBlock lpb lines).1, validChar m ch := by
      intro ch hc
      apply h
      rw [← hj]
      exact List.mem_append_left _ hc
    have hrest : ∀ ch ∈ (readBlock lpb lines).2.1.flatten, validChar m ch := by
      intro ch hc
      apply h
      rw [← hj]
      exact List.mem_append_right _ hc
    simp only [streamLoop]
    rw [processBlock_valid L m _ st hblk]
    cases hd : (readBlock lpb lines).2.2 with
    | true =>
      have hnil := readBlock_done lpb lines hd
      rw [hnil] at hj
      simp only [List.flatten_nil, List.append_nil] at hj
      simp [hj]
    | false =>
      have hlen := readBlock_not_done lpb lines hd
      simp only [Bool.false_eq_true, if_false]
      rw [ih _ _ (by omega) hrest, ← feedSymbols_append, ← List.map_append, hj]

end StreamLemmas

section NormLemmas

theorem enorm_nonneg {n : Nat} (w : Fin n → ℝ) : 0 ≤ enorm w := Real.sqrt_nonneg _

theorem enorm_pos {n : Nat} (w : Fin n → ℝ) (h : w ≠ 0) : 0 < enorm w := by
  unfold enorm
  rw [Real.sqrt_pos]
  obtain ⟨c, hc⟩ : ∃ c, w c ≠ 0 := by
    by_contra hcon
    push_neg at hcon
    exact h (funext hcon)
  exact Finset.sum_pos' (fun i _ => mul_self_nonneg (w i))
    ⟨c, Finset.mem_univ c, mul_self_pos.mpr hc⟩

theorem enorm_smul {n : Nat} (a : ℝ) (ha : 0 ≤ a) (w : Fin n → ℝ) :
    enorm (a • w) = a * enorm w := by
  unfold enorm
  have h : ∑ c, (a • w) c * (a • w) c = a * a * ∑ c, w c * w c := by
    rw [Finset.mul_sum]
    apply Finset.sum_congr rfl
    intro c _
    simp only [Pi.smul_apply, smul_eq_mul]
    ring
  rw [h, Real.sqrt_mul (mul_self_nonneg a), Real.sqrt_mul_self ha]

theorem foldl_vecMul_zero {n : Nat} (Ms : List (Matrix (Fin n) (Fin n) ℝ)) :
    Ms.foldl (fun w M => Matrix.vecMul w M) 0 = 0 := by
  induction Ms with
  | nil => rfl
  | cons M rest ih => simp only [List.foldl_cons, Matrix.zero_vecMul, ih]

/-- Scale tracking along a run of renormalised updates: as long as the unnormalised vector does
not vanish, the weight vector times `exp` of the cumulative log-norm is the unnormalised
vector. -/
theorem rowRun_invariant {n : Nat} (Ms : List (Matrix (Fin n) (Fin n) ℝ)) (p : (Fin n → ℝ) × ℝ)
    (κ : ℝ) (hκ : 0 < κ) (hl : p.2 = Real.log κ)
    (hne : Ms.foldl (fun w M => Matrix.vecMul w M) (κ • p.1) ≠ 0) :
    ∃ κ2 : ℝ, 0 < κ2 ∧ (Ms.foldl (fun q M => rowStep M q) p).2 = Real.log κ2
      ∧ κ2 • (Ms.foldl (fun q M => rowStep M q) p).1
          = Ms.foldl (fun w M => Matrix.vecMul w M) (κ • p.1) := by
  induction Ms generalizing p κ with
  | nil => exact ⟨κ, hκ, hl, rfl⟩
  | cons M rest ih =>
    simp only [List.foldl_cons] at hne ⊢
    have hw : Matrix.vecMul p.1 M ≠ 0 := by
      intro h0
      apply hne
      rw [Matrix.vecMul_smul, h0, smul_zero, foldl_vecMul_zero]
    have hpos := enorm_pos _ hw
    have hstep : (κ * enorm (Matrix.vecMul p.1 M)) • (rowStep M p).1
        = Matrix.vecMul (κ • p.1) M := by
      simp only [rowStep, Matrix.vecMul_smul, smul_smul]
      rw [mul_assoc, mul_inv_cancel₀ hpos.ne', mul_one]
    have hlog : (rowStep M p).2 = Real.log (κ * enorm (Matrix.vecMul p.1 M)) := by
      simp only [rowStep]
      rw [hl, Real.log_mul hκ.ne' hpos.ne']
    have := ih (rowStep M p) (κ * enorm (Matrix.vecMul p.1 M)) (mul_pos hκ hpos) hlog
      (by rw [hstep]; exact hne)
    rw [hstep] at this
    exact this

theorem foldl_vecMul_eq_prod {n : Nat} (Ms : List (Matrix (Fin n) (Fin n) ℝ)) (w : Fin n → ℝ) :
    Ms.foldl (fun w M => Matrix.vecMul w M) w = Matrix.vecMul w Ms.prod := by
  induction Ms generalizing w with
  | nil => simp
  | cons M rest ih => simp only [List.foldl_cons, List.prod_cons, ih, Matrix.vecMul_vecMul]

theorem foldr_mulVec_eq_prod {n : Nat} (Ms : List (Matrix (Fin n) (Fin n) ℝ)) (w : Fin n → ℝ) :
    Ms.foldr (fun M w => Matrix.mulVec M w) w = Matrix.mulVec Ms.prod w := by
  induction Ms with
  | nil => simp
  | cons M rest ih => simp only [List.foldr_cons, List.prod_cons, ih, Matrix.mulVec_mulVec]

theorem sum_ones_vecMul {n : Nat} (P : Matrix (Fin n) (Fin n) ℝ) :
    ∑ c, Matrix.vecMul (fun _ => (1 : ℝ)) P c = ∑ r, ∑ c, P r c := by
  simp only [Matrix.vecMul, Matrix.dotProduct, one_mul]
  exact Finset.sum_comm

theorem sum_mulVec_ones {n : Nat} (P : Matrix (Fin n) (Fin n) ℝ) :
    ∑ r, Matrix.mulVec P (fun _ => (1 : ℝ)) r = ∑ r, ∑ c, P r c := by
  simp only [Matrix.mulVec, Matrix.dotProduct, mul_one]

end NormLemmas

section FinalizeLemmas

variable {α : Type} [LinearOrderedField α]

theorem initLoop_spec (m : Model α) (s0 : MulState α) (b : Nat) :
    (∀ j, (forLoop b (initBody m) s0).v_0 j
        = if j < b then (fun c => if c < (m.mxsz_vals j).toNat then 1 else s0.v_0 j c)
          else s0.v_0 j)
      ∧ (∀ j, (forLoop b (initBody m) s0).log_vec_norm j
        = if j < b then 0 else s0.log_vec_norm j)
      ∧ (forLoop b (initBody m) s0).bad_char = s0.bad_char := by
  induction b with
  | zero => simp [forLoop]
  | succ b ih =>
    obtain ⟨ih1, ih2, ih3⟩ := ih
    simp only [forLoop, initBody]
    refine ⟨?_, ?_, ih3⟩
    · intro j
      by_cases hj : j = b
      · subst hj
        simp only [Function.update_same, lt_add_one, if_true]
        funext c
        rw [forLoop_update_apply, ih1 j]
        simp
      · rw [Function.update_noteq hj, ih1 j]
        have : j < b + 1 ↔ j < b := by omega
        simp [this]
    · intro j
      by_cases hj : j = b
      · subst hj; simp
      · rw [Function.update_noteq hj, ih2 j]
        have : j < b + 1 ↔ j < b := by omega
        simp [this]

theorem initState_v_0 (m : Model α) (u : Uninit α) (i c : Nat) (hi : (i : Int) < m.nbrows)
    (hc : c < rowSize m i) : (initState m u).v_0 i c = 1 := by
  have hi2 : i < m.nbrows.toNat := by omega
  have h := (initLoop_spec m
    { v_0 := u.v_0, v_tmp := u.v_tmp, log_vec_norm := u.log_vec_norm, bad_char := false }
    m.nbrows.toNat).1 i
  unfold initState
  rw [h, if_pos hi2]
  simp only [rowSize] at hc
  simp [hc]

theorem initState_log (m : Model α) (u : Uninit α) (i : Nat) (hi : (i : Int) < m.nbrows) :
    (initState m u).log_vec_norm i = 0 := by
  have hi2 : i < m.nbrows.toNat := by omega
  have h := (initLoop_spec m
    { v_0 := u.v_0, v_tmp := u.v_tmp, log_vec_norm := u.log_vec_norm, bad_char := false }
    m.nbrows.toNat).2.1 i
  unfold initState
  rw [h, if_pos hi2]

theorem initState_bad_char (m : Model α) (u : Uninit α) : (initState m u).bad_char = false :=
  (initLoop_spec m
    { v_0 := u.v_0, v_tmp := u.v_tmp, log_vec_norm := u.log_vec_norm, bad_char := false }
    m.nbrows.toNat).2.2

theorem initState_weightVec (m : Model α) (u : Uninit α) (i : Nat) (hi : (i : Int) < m.nbrows) :
    weightVec m (initState m u) i = fun _ => 1 := by
  funext c
  exact initState_v_0 m u i c hi c.isLt

theorem tmp_sum_eq_projection (m : Model α) (st : MulState α) (mm : Nat) :
    forLoop (m.mxsz_vals mm).toNat (fun c_1 s => s + st.v_0 mm c_1) 0 = projection m st mm := by
  rw [forLoop_add_eq_sum, zero_add, Finset.sum_range]
  rfl

theorem finalizeBody_fst (L : Libm α) (m : Model α) (st : MulState α) (mm : Nat)
    (acc : (Nat → α) × α) :
    (finalizeBody L m st mm acc).1
      = Function.update acc.1 mm (acc.1 mm + L.log (projection m st mm)) := by
  simp only [finalizeBody, tmp_sum_eq_projection]

theorem finalizeBody_snd (L : Libm α) (m : Model α) (st : MulState α) (mm : Nat)
    (acc : (Nat → α) × α) :
    (finalizeBody L m st mm acc).2
      = if mm = 0 then acc.1 0 + L.log (projection m st 0)
        else if acc.1 mm + L.log (projection m st mm) > acc.2 then
          acc.1 mm + L.log (projection m st mm)
        else acc.2 := by
  simp only [finalizeBody, tmp_sum_eq_projection, Function.update_same]
  by_cases h : mm = 0
  · subst h; simp
  · simp [h]

theorem finalizeLoop_fst_aux (L : Libm α) (m : Model α) (st : MulState α) (max0 : α)
    (b j : Nat) :
    (forLoop b (finalizeBody L m st) (st.log_vec_norm, max0)).1 j
      = if j < b then st.log_vec_norm j + L.log (projection m st j) else st.log_vec_norm j := by
  induction b generalizing j with
  | zero => simp [forLoop]
  | succ b ih =>
    simp only [forLoop, finalizeBody_fst]
    by_cases hj : j = b
    · subst hj
      have hjj : (forLoop j (finalizeBody L m st) (st.log_vec_norm, max0)).1 j
          = st.log_vec_norm j := by
        have := ih j
        simpa using this
      simp [hjj]
    · rw [Function.update_noteq hj, ih]
      have : j < b + 1 ↔ j < b := by omega
      simp [this]

theorem finalizeLoop_snd_aux (L : Libm α) (m : Model α) (st : MulState α) (max0 : α) (b : Nat) :
    (∀ j, j < b + 1 → st.log_vec_norm j + L.log (projection m st j)
        ≤ (forLoop (b + 1) (finalizeBody L m st) (st.log_vec_norm, max0)).2)
      ∧ ∃ j, j < b + 1 ∧ (forLoop (b + 1) (finalizeBody L m st) (st.log_vec_norm, max0)).2
          = st.log_vec_norm j + L.log (projection m st j) := by
  induction b with
  | zero =>
    simp only [forLoop, finalizeBody_snd, if_true]
    refine ⟨?_, 0, by omega, rfl⟩
    intro j hj
    have : j = 0 := by omega
    subst this
    exact le_rfl
  | succ b ih =>
    obtain ⟨hle, jm, hjm, hmax⟩ := ih
    have hb : (forLoop (b + 1) (finalizeBody L m st) (st.log_vec_norm, max0)).1 (b + 1)
        = st.log_vec_norm (b + 1) := by
      rw [finalizeLoop_fst_aux]; simp
    have hstep : (forLoop (b + 1 + 1) (finalizeBody L m st) (st.log_vec_norm, max0)).2
        = if st.log_vec_norm (b + 1) + L.log (projection m st (b + 1))
              > (forLoop (b + 1) (finalizeBody L m st) (st.log_vec_norm, max0)).2 then
            st.log_vec_norm (b + 1) + L.log (projection m st (b + 1))
          else (forLoop (b + 1) (finalizeBody L m st) (st.log_vec_norm, max0)).2 := by
      conv_lhs => rw [forLoop]
      rw [finalizeBody_snd, if_neg (Nat.succ_ne_zero b), hb]
    rw [hstep]
    by_cases hgt : st.log_vec_norm (b + 1) + L.log (projection m st (b + 1))
        > (forLoop (b + 1) (finalizeBody L m st) (st.log_vec_norm, max0)).2
    · rw [if_pos hgt]
      refine ⟨?_, b + 1, by omega, rfl⟩
      intro j hj
      by_cases hjb : j = b + 1
      · subst hjb; exact le_rfl
      · exact le_trans (hle j (by omega)) (le_of_lt hgt)
    · rw [if_neg hgt]
      refine ⟨?_, jm, by omega, hmax⟩
      intro j hj
      by_cases hjb : j = b + 1
      · subst hjb; exact not_lt.mp hgt
      · exact hle j (by omega)

theorem finalLogNorm_eq (L : Libm α) (m : Model α) (st : MulState α) (max0 : α) (i : Nat)
    (hi : (i : Int) < m.nbrows) :
    finalLogNorm L m st max0 i = st.log_vec_norm i + L.log (projection m st i) := by
  unfold finalLogNorm finalizeLoop
  rw [finalizeLoop_fst_aux, if_pos (by omega)]

end FinalizeLemmas

section ChainLemmas

theorem chainVec_eq_foldl (m : Model ℝ) (i : Nat) (syms : List Int) :
    chainVec m i syms
      = (syms.map (matOf m i)).foldl (fun w M => Matrix.vecMul w M) (fun _ => 1) := by
  unfold chainVec
  rw [List.foldl_map]

theorem chainVec_eq_prod (m : Model ℝ) (i : Nat) (syms : List Int) :
    chainVec m i syms = Matrix.vecMul (fun _ => 1) (syms.map (matOf m i)).prod := by
  rw [chainVec_eq_foldl, foldl_vecMul_eq_prod]

theorem sum_chainVec (m : Model ℝ) (i : Nat) (syms : List Int) :
    ∑ c, chainVec m i syms c = ∑ r, ∑ c, (syms.map (matOf m i)).prod r c := by
  rw [chainVec_eq_prod, sum_ones_vecMul]

theorem sum_fin_zero {n : Nat} (hn : n = 0) (f : Fin n → ℝ) : ∑ c, f c = 0 := by
  subst hn
  simp

theorem enorm_fin_zero {n : Nat} (hn : n = 0) (w : Fin n → ℝ) : enorm w = 0 := by
  unfold enorm
  rw [sum_fin_zero hn, Real.sqrt_zero]

theorem rowRun_snd_fin_zero {n : Nat} (hn : n = 0) (Ms : List (Matrix (Fin n) (Fin n) ℝ))
    (p : (Fin n → ℝ) × ℝ) : (Ms.foldl (fun q M => rowStep M q) p).2 = p.2 := by
  induction Ms generalizing p with
  | nil => rfl
  | cons M rest ih =>
    simp only [List.foldl_cons]
    rw [ih]
    simp [rowStep, enorm_fin_zero hn]

theorem foldl_vecMul_pos {n : Nat} (hn : 0 < n) (Ms : List (Matrix (Fin n) (Fin n) ℝ))
    (hM : ∀ M ∈ Ms, ∀ r c, 0 < M r c) (w : Fin n → ℝ) (hw : ∀ c, 0 < w c) :
    ∀ c, 0 < Ms.foldl (fun w M => Matrix.vecMul w M) w c := by
  induction Ms generalizing w with
  | nil => exact hw
  | cons M rest ih =>
    simp only [List.foldl_cons]
    apply ih (fun N hN => hM N (List.mem_cons_of_mem _ hN))
    intro c
    simp only [Matrix.vecMul, Matrix.dotProduct]
    apply Finset.sum_pos
    · intro r _
      exact mul_pos (hw r) (hM M (List.mem_cons_self _ _) r c)
    · exact ⟨⟨0, hn⟩, Finset.mem_univ _⟩

theorem feed_rowState_eq (m : Model ℝ) (u : Uninit ℝ) (syms : List Int) (i : Nat)
    (hi : (i : Int) < m.nbrows) :
    rowState m (feedSymbols realMath m syms (initState m u)) i
      = (syms.map (matOf m i)).foldl (fun q M => rowStep M q) (fun _ => 1, 0) := by
  rw [feedSymbols_rowState m syms _ i hi, List.foldl_map]
  unfold rowState
  rw [initState_weightVec m u i hi, initState_log m u i hi]

/-- The finalised log-norm of a block row is the logarithm of the sum of the entries of the
unnormalised chain vector, provided that sum does not vanish. -/
theorem finalLogNorm_feed (m : Model ℝ) (u : Uninit ℝ) (syms : List Int) (i : Nat) (max0 : ℝ)
    (hi : (i : Int) < m.nbrows) (hsum : ∑ c, chainVec m i syms c ≠ 0) :
    finalLogNorm realMath m (feedSymbols realMath m syms (initState m u)) max0 i
      = Real.log (∑ c, chainVec m i syms c) := by
  have hne : (syms.map (matOf m i)).foldl (fun w M => Matrix.vecMul w M)
      ((1 : ℝ) • (fun _ => (1 : ℝ))) ≠ 0 := by
    rw [one_smul, ← chainVec_eq_foldl]
    intro h0
    apply hsum
    rw [h0]
    simp
  obtain ⟨κ, hκ, hlog, hvec⟩ := rowRun_invariant (syms.map (matOf m i))
    ((fun _ => (1 : ℝ)), (0 : ℝ)) 1 one_pos (by simp) hne
  rw [one_smul, ← chainVec_eq_foldl, ← feed_rowState_eq m u syms i hi] at hvec
  rw [← feed_rowState_eq m u syms i hi] at hlog
  rw [finalLogNorm_eq realMath m _ max0 i hi]
  have hl : (feedSymbols realMath m syms (initState m u)).log_vec_norm i = Real.log κ := hlog
  have hproj : κ * projection m (feedSymbols realMath m syms (initState m u)) i
      = ∑ c, chainVec m i syms c := by
    unfold projection
    rw [Finset.mul_sum, ← hvec]
    rfl
  have hpne : projection m (feedSymbols realMath m syms (initState m u)) i ≠ 0 := by
    intro h0
    apply hsum
    rw [← hproj, h0, mul_zero]
  rw [hl, ← hproj, Real.log_mul hκ.ne' hpne]
  rfl

theorem finalLogNorm_feed_size_zero (m : Model ℝ) (u : Uninit ℝ) (syms : List Int) (i : Nat)
    (max0 : ℝ) (hi : (i : Int) < m.nbrows) (hn : rowSize m i = 0) :
    finalLogNorm realMath m (feedSymbols realMath m syms (initState m u)) max0 i = 0 := by
  rw [finalLogNorm_eq realMath m _ max0 i hi]
  have h := congrArg Prod.snd (feed_rowState_eq m u syms i hi)
  rw [rowRun_snd_fin_zero hn] at h
  have hl : (feedSymbols realMath m syms (initState m u)).log_vec_norm i = 0 := h
  have hp : projection m (feedSymbols realMath m syms (initState m u)) i = 0 :=
    sum_fin_zero hn _
  rw [hl, hp]
  simp [realMath]

end ChainLemmas


section CombineLemmas

theorem combine_eq (m : Model ℝ) (lvn : Nat → ℝ) (mx : ℝ) :
    combine realMath m lvn mx
      = mx + Real.log (∑ mm in Finset.range m.nbrows.toNat, Real.exp (lvn mm - mx)) := by
  unfold combine
  rw [forLoop_add_eq_sum, zero_add]
  rfl

theorem log_sum_exp_shift (b : Nat) (hb : 0 < b) (f : Nat → ℝ) (mx : ℝ) :
    mx + Real.log (∑ i in Finset.range b, Real.exp (f i - mx))
      = Real.log (∑ i in Finset.range b, Real.exp (f i)) := by
  have hpos : 0 < ∑ i in Finset.range b, Real.exp (f i - mx) :=
    Finset.sum_pos (fun i _ => Real.exp_pos _) ⟨0, Finset.mem_range.mpr hb⟩
  have h : ∑ i in Finset.range b, Real.exp (f i)
      = Real.exp mx * ∑ i in Finset.range b, Real.exp (f i - mx) := by
    rw [Finset.mul_sum]
    apply Finset.sum_congr rfl
    intro i _
    rw [← Real.exp_add]
    congr 1
    ring
  rw [h, Real.log_mul (Real.exp_pos mx).ne' hpos.ne', Real.log_exp]

theorem resultOf_single_of {α : Type} [LinearOrderedField α] (L : Libm α) (hexp : L.exp 0 = 1)
    (hlog : L.log 1 = 0) (m : Model α) (st : MulState α) (max0 : α) (hB : m.nbrows = 1) :
    resultOf L m st max0 = finalLogNorm L m st max0 0 := by
  unfold resultOf finalLogNorm combine
  have h1 : m.nbrows.toNat = 1 := by rw [hB]; rfl
  unfold finalizeLoop
  rw [h1]
  simp only [forLoop, finalizeBody_fst, finalizeBody_snd, if_true, Function.update_same,
    sub_self, hexp, zero_add, hlog, add_zero]

theorem resultOf_single (m : Model ℝ) (st : MulState ℝ) (max0 : ℝ) (hB : m.nbrows = 1) :
    resultOf realMath m st max0 = finalLogNorm realMath m st max0 0 :=
  resultOf_single_of realMath Real.exp_zero Real.log_one m st max0 hB

end CombineLemmas


section IdentityLemmas

theorem enorm_ones {n : Nat} : enorm (fun _ : Fin n => (1 : ℝ)) = Real.sqrt n := by
  unfold enorm
  simp

theorem rowRun_identity_stable {n : Nat} (Ms : List (Matrix (Fin n) (Fin n) ℝ))
    (hM : ∀ M ∈ Ms, M = 1) (p : (Fin n → ℝ) × ℝ) (hp : enorm p.1 = 1) :
    Ms.foldl (fun q M => rowStep M q) p = p := by
  induction Ms with
  | nil => rfl
  | cons M rest ih =>
    have hM1 : M = 1 := hM M (List.mem_cons_self _ _)
    have hstep : rowStep M p = p := by
      subst hM1
      simp only [rowStep, Matrix.vecMul_one, hp, inv_one, one_smul, Real.log_one, add_zero]
    simp only [List.foldl_cons, hstep]
    exact ih (fun N hN => hM N (List.mem_cons_of_mem _ hN))

theorem rowRun_identity {n : Nat} (hn : 0 < n) (Ms : List (Matrix (Fin n) (Fin n) ℝ))
    (hM : ∀ M ∈ Ms, M = 1) (hne : Ms ≠ []) :
    Ms.foldl (fun q M => rowStep M q) (fun _ => 1, 0)
      = ((Real.sqrt n)⁻¹ • (fun _ => (1 : ℝ)), Real.log (Real.sqrt n)) := by
  cases Ms with
  | nil => exact absurd rfl hne
  | cons M rest =>
    have hM1 : M = 1 := hM M (List.mem_cons_self _ _)
    have hsq : 0 < Real.sqrt n := Real.sqrt_pos.mpr (by exact_mod_cast hn)
    have hstep : rowStep M ((fun _ => (1 : ℝ)), (0 : ℝ))
        = ((Real.sqrt n)⁻¹ • (fun _ => (1 : ℝ)), Real.log (Real.sqrt n)) := by
      subst hM1
      simp only [rowStep, Matrix.vecMul_one, enorm_ones, zero_add]
    simp only [List.foldl_cons, hstep]
    apply rowRun_identity_stable rest (fun N hN => hM N (List.mem_cons_of_mem _ hN))
    show enorm ((Real.sqrt n)⁻¹ • (fun _ : Fin n => (1 : ℝ))) = 1
    rw [enorm_smul _ (inv_nonneg.mpr hsq.le), enorm_ones, inv_mul_cancel₀ hsq.ne']

/-- The identity chain: after at least one valid symbol the cumulative log-norm of the single
block row is `ln(sqrt n)` and the value assigned to `log_en_nrm` is `ln n`. -/
theorem identity_run (m : Model ℝ) (u : Uninit ℝ) (lines : List (List Char))
    (hB : m.nbrows = 1) (hn : 0 < rowSize m 0)
    (hid : ∀ s : Int, 0 ≤ s → s < m.k_sym → matOf m 0 s = 1)
    (hvalid : ∀ ch ∈ lines.flatten, validChar m ch) (hne : lines.flatten ≠ []) :
    ∃ st, streamLoop realMath m LINES_PER_BLOCK (lines.length + 1) lines (initState m u) = some st
      ∧ st.bad_char = false
      ∧ st.log_vec_norm 0 = Real.log (Real.sqrt (rowSize m 0))
      ∧ resultOf realMath m st u.max_br_nrm = Real.log (rowSize m 0) := by
  have hi : ((0 : Nat) : Int) < m.nbrows := by rw [hB]; decide
  have hrow := feed_rowState_eq m u (lines.flatten.map symVal) 0 hi
  have hMs : ∀ M ∈ (lines.flatten.map symVal).map (matOf m 0), M = 1 := by
    intro M hM
    obtain ⟨s, hs, rfl⟩ := List.mem_map.mp hM
    obtain ⟨ch, hch, rfl⟩ := List.mem_map.mp hs
    exact hid _ (hvalid ch hch).1 (hvalid ch hch).2
  rw [rowRun_identity hn _ hMs (by simpa using hne)] at hrow
  have hsq : 0 < Real.sqrt (rowSize m 0) := Real.sqrt_pos.mpr (by exact_mod_cast hn)
  have hw : weightVec m (feedSymbols realMath m (lines.flatten.map symVal) (initState m u)) 0
      = (Real.sqrt (rowSize m 0))⁻¹ • (fun _ => (1 : ℝ)) := congrArg Prod.fst hrow
  have hl : (feedSymbols realMath m (lines.flatten.map symVal) (initState m u)).log_vec_norm 0
      = Real.log (Real.sqrt (rowSize m 0)) := congrArg Prod.snd hrow
  refine ⟨feedSymbols realMath m (lines.flatten.map symVal) (initState m u), ?_, ?_, hl, ?_⟩
  · exact streamLoop_valid realMath m LINES_PER_BLOCK (by decide) _ lines _ (by omega) hvalid
  · rw [feedSymbols_bad_char, initState_bad_char]
  · rw [resultOf_single m _ _ hB, finalLogNorm_eq realMath m _ _ 0 hi, hl]
    have hproj : projection m
        (feedSymbols realMath m (lines.flatten.map symVal) (initState m u)) 0
          = Real.sqrt (rowSize m 0) := by
      unfold projection
      rw [hw]
      simp only [Pi.smul_apply, smul_eq_mul, mul_one, Finset.sum_const, Finset.card_univ,
        Fintype.card_fin, nsmul_eq_mul]
      field_simp
    rw [hproj]
    show Real.log (Real.sqrt (rowSize m 0)) + Real.log (Real.sqrt (rowSize m 0)) = _
    rw [← Real.log_mul hsq.ne' hsq.ne', Real.mul_self_sqrt (Nat.cast_nonneg _)]

theorem idModel3_matOf (s : Int) : matOf idModel3 0 s = 1 := by
  ext r c
  obtain ⟨r, hr⟩ := r
  obtain ⟨c, hc⟩ := c
  have hr3 : r < 3 := hr
  have hc3 : c < 3 := hc
  simp only [matOf, idModel3, Matrix.of_apply, Matrix.one_apply, Fin.mk.injEq]
  have hidx : ((3 : Int) * (r : Int) + (c : Int)).toNat = 3 * r + c := by omega
  rw [hidx]
  have h1 : (3 * r + c) / 3 = r := by omega
  have h2 : (3 * r + c) % 3 = c := by omega
  rw [h1, h2]

theorem idModel3_valid_1 : ∀ ch ∈ [['1']].flatten, validChar idModel3 ch := by
  intro ch hch
  simp only [List.flatten_cons, List.flatten_nil, List.append_nil, List.mem_singleton] at hch
  subst hch
  unfold validChar symVal idModel3
  decide

end IdentityLemmas


section ScaleLemmas

theorem normAt_eq (m : Model ℝ) (s : Int) (i : Nat) (st : MulState ℝ) :
    normAt realMath m s i st = enorm (Matrix.vecMul (weightVec m st i) (matOf m i s)) := by
  unfold normAt
  simp only []
  rw [blockRowStep_norm]
  have h := (symbolLoop_spec m s st i).1 i le_rfl
  have hw : weightVec m (forLoop i (fun mm st => blockRowStep realMath m s mm st) st) i
      = weightVec m st i := by
    unfold weightVec
    rw [h.1]
  rw [hw]

theorem normsNonzero_iff (m : Model ℝ) (i : Nat) (hi : (i : Int) < m.nbrows) (syms : List Int)
    (st : MulState ℝ) :
    normsNonzero realMath m i syms st
      ↔ rowNormsNonzero (syms.map (matOf m i)) (rowState m st i) := by
  induction syms generalizing st with
  | nil => simp [normsNonzero, rowNormsNonzero]
  | cons s rest ih =>
    simp only [normsNonzero, List.map_cons, rowNormsNonzero, normAt_eq, ih,
      symbolStep_rowState m s st i hi]
    rfl

theorem vecMul_smul_matrix {n : Nat} (v : Fin n → ℝ) (c : ℝ) (M : Matrix (Fin n) (Fin n) ℝ) :
    Matrix.vecMul v (c • M) = c • Matrix.vecMul v M := by
  funext j
  simp only [Matrix.vecMul, Matrix.dotProduct, Matrix.smul_apply, Pi.smul_apply, smul_eq_mul,
    Finset.mul_sum]
  apply Finset.sum_congr rfl
  intro r _
  ring

theorem rowStep_scale {n : Nat} (c : ℝ) (hc : 0 < c) (M : Matrix (Fin n) (Fin n) ℝ)
    (p : (Fin n → ℝ) × ℝ) (a : ℝ) (h : enorm (Matrix.vecMul p.1 M) ≠ 0) :
    rowStep (c • M) (p.1, p.2 + a) = ((rowStep M p).1, (rowStep M p).2 + (a + Real.log c)) := by
  simp only [rowStep, vecMul_smul_matrix, enorm_smul c hc.le]
  refine Prod.ext ?_ ?_
  · simp only [smul_smul]
    congr 1
    field_simp
  · simp only []
    rw [Real.log_mul hc.ne' h]
    ring

theorem rowRun_scale {n : Nat} (c : ℝ) (hc : 0 < c) (Ms : List (Matrix (Fin n) (Fin n) ℝ))
    (p : (Fin n → ℝ) × ℝ) (a : ℝ) (h : rowNormsNonzero Ms p) :
    (Ms.map (fun M => c • M)).foldl (fun q M => rowStep M q) (p.1, p.2 + a)
      = ((Ms.foldl (fun q M => rowStep M q) p).1,
          (Ms.foldl (fun q M => rowStep M q) p).2 + (a + Ms.length * Real.log c)) := by
  induction Ms generalizing p a with
  | nil => simp
  | cons M rest ih =>
    obtain ⟨h1, h2⟩ := h
    simp only [List.map_cons, List.foldl_cons, List.length_cons]
    rw [rowStep_scale c hc M p a h1, ih (rowStep M p) (a + Real.log c) h2]
    refine Prod.ext rfl ?_
    simp only []
    push_cast
    ring

theorem rowNormsNonzero_of_pos {n : Nat} (hn : 0 < n) (Ms : List (Matrix (Fin n) (Fin n) ℝ))
    (hM : ∀ M ∈ Ms, ∀ r c, 0 < M r c) (p : (Fin n → ℝ) × ℝ) (hp : ∀ c, 0 < p.1 c) :
    rowNormsNonzero Ms p := by
  induction Ms generalizing p with
  | nil => trivial
  | cons M rest ih =>
    have hx : ∀ c, 0 < Matrix.vecMul p.1 M c := by
      intro c
      simp only [Matrix.vecMul, Matrix.dotProduct]
      apply Finset.sum_pos
      · intro r _
        exact mul_pos (hp r) (hM M (List.mem_cons_self _ _) r c)
      · exact ⟨⟨0, hn⟩, Finset.mem_univ _⟩
    have hne : Matrix.vecMul p.1 M ≠ 0 := by
      intro h0
      have := hx ⟨0, hn⟩
      rw [h0] at this
      exact lt_irrefl _ this
    have hpos := enorm_pos _ hne
    refine ⟨hpos.ne', ih (fun N hN => hM N (List.mem_cons_of_mem _ hN)) _ ?_⟩
    intro c
    simp only [rowStep, Pi.smul_apply, smul_eq_mul]
    exact mul_pos (inv_pos.mpr hpos) (hx c)

theorem matOf_scaleRow_same (m : Model ℝ) (i : Nat) (c : ℝ) (s : Int) (h0 : 0 ≤ s)
    (h1 : s < m.k_sym) : matOf (scaleRow m i c) i s = c • matOf m i s := by
  ext r e
  have hik : (0 : Int) ≤ (i : Int) * m.k_sym := mul_nonneg (Int.ofNat_nonneg i) (by omega)
  have hidx : ((((i : Int) * m.k_sym + s).toNat : Nat) : Int) = (i : Int) * m.k_sym + s :=
    Int.toNat_of_nonneg (by omega)
  have hcond : (i : Int) * m.k_sym ≤ ((((i : Int) * m.k_sym + s).toNat : Nat) : Int)
      ∧ ((((i : Int) * m.k_sym + s).toNat : Nat) : Int) < ((i : Int) + 1) * m.k_sym := by
    rw [hidx]
    constructor
    · omega
    · have : ((i : Int) + 1) * m.k_sym = (i : Int) * m.k_sym + m.k_sym := by ring
      omega
  simp only [matOf, scaleRow, Matrix.of_apply, Matrix.smul_apply, smul_eq_mul, if_pos hcond]

theorem matOf_scaleRow_other (m : Model ℝ) (i j : Nat) (hij : j ≠ i) (c : ℝ) (s : Int)
    (h0 : 0 ≤ s) (h1 : s < m.k_sym) : matOf (scaleRow m i c) j s = matOf m j s := by
  ext r e
  have hk : (0 : Int) ≤ m.k_sym := by omega
  have hjk : (0 : Int) ≤ (j : Int) * m.k_sym := mul_nonneg (Int.ofNat_nonneg j) hk
  have hidx : ((((j : Int) * m.k_sym + s).toNat : Nat) : Int) = (j : Int) * m.k_sym + s :=
    Int.toNat_of_nonneg (by omega)
  have hcond : ¬ ((i : Int) * m.k_sym ≤ ((((j : Int) * m.k_sym + s).toNat : Nat) : Int)
      ∧ ((((j : Int) * m.k_sym + s).toNat : Nat) : Int) < ((i : Int) + 1) * m.k_sym) := by
    rw [hidx]
    rintro ⟨ha, hb⟩
    rcases Nat.lt_or_gt_of_ne hij with hlt | hgt
    · have h2 : ((j : Int) + 1) * m.k_sym ≤ (i : Int) * m.k_sym :=
        mul_le_mul_of_nonneg_right (by omega) hk
      have h3 : ((j : Int) + 1) * m.k_sym = (j : Int) * m.k_sym + m.k_sym := by ring
      omega
    · have h2 : ((i : Int) + 1) * m.k_sym ≤ (j : Int) * m.k_sym :=
        mul_le_mul_of_nonneg_right (by omega) hk
      omega
  simp only [matOf, scaleRow, Matrix.of_apply, if_neg hcond]

end ScaleLemmas


section ResultLemmas

theorem resultOf_log_sum_exp (m : Model ℝ) (st : MulState ℝ) (max0 : ℝ) (hB : 1 ≤ m.nbrows) :
    resultOf realMath m st max0
      = Real.log (∑ i in Finset.range m.nbrows.toNat,
          Real.exp (finalLogNorm realMath m st max0 i)) := by
  have hres : resultOf realMath m st max0
      = (finalizeLoop realMath m st max0).2
        + Real.log (∑ i in Finset.range m.nbrows.toNat,
            Real.exp (finalLogNorm realMath m st max0 i - (finalizeLoop realMath m st max0).2)) := by
    unfold resultOf
    rw [combine_eq]
    rfl
  rw [hres]
  exact log_sum_exp_shift _ (by omega) _ _

/-- Effect of scaling block row `i` by `c > 0` on a run over accepted symbols whose norms in
block row `i` are all non-zero: weight vectors and the other cumulative log-norms are unchanged,
the cumulative log-norm of block row `i` grows by `ln c` per symbol. -/
theorem scale_run (m : Model ℝ) (u : Uninit ℝ) (syms : List Int) (i : Nat) (c : ℝ)
    (hi : (i : Int) < m.nbrows) (hc : 0 < c) (hsyms : ∀ s ∈ syms, 0 ≤ s ∧ s < m.k_sym)
    (hdef : normsNonzero realMath m i syms (initState m u)) :
    (∀ j : Nat, (j : Int) < m.nbrows →
        weightVec m (feedSymbols realMath (scaleRow m i c) syms (initState (scaleRow m i c) u)) j
          = weightVec m (feedSymbols realMath m syms (initState m u)) j)
      ∧ (∀ j : Nat, (j : Int) < m.nbrows → j ≠ i →
          (feedSymbols realMath (scaleRow m i c) syms
              (initState (scaleRow m i c) u)).log_vec_norm j
            = (feedSymbols realMath m syms (initState m u)).log_vec_norm j)
      ∧ (feedSymbols realMath (scaleRow m i c) syms (initState (scaleRow m i c) u)).log_vec_norm i
          = (feedSymbols realMath m syms (initState m u)).log_vec_norm i
            + syms.length * Real.log c := by
  have hrow : ∀ j : Nat, (j : Int) < m.nbrows →
      rowState m (feedSymbols realMath (scaleRow m i c) syms (initState (scaleRow m i c) u)) j
        = (syms.map (fun s => (matOf (scaleRow m i c) j s :
            Matrix (Fin (rowSize m j)) (Fin (rowSize m j)) ℝ))).foldl
              (fun q M => rowStep M q) (fun _ => 1, 0) :=
    fun j hj => feed_rowState_eq (scaleRow m i c) u syms j hj
  have hother : ∀ j : Nat, (j : Int) < m.nbrows → j ≠ i →
      rowState m (feedSymbols realMath (scaleRow m i c) syms (initState (scaleRow m i c) u)) j
        = rowState m (feedSymbols realMath m syms (initState m u)) j := by
    intro j hj hji
    rw [hrow j hj, feed_rowState_eq m u syms j hj]
    congr 1
    apply List.map_congr_left
    intro s hs
    exact matOf_scaleRow_other m i j hji c s (hsyms s hs).1 (hsyms s hs).2
  have hsame :
      rowState m (feedSymbols realMath (scaleRow m i c) syms (initState (scaleRow m i c) u)) i
        = ((rowState m (feedSymbols realMath m syms (initState m u)) i).1,
            (rowState m (feedSymbols realMath m syms (initState m u)) i).2
              + syms.length * Real.log c) := by
    have hmap : syms.map (fun s => (matOf (scaleRow m i c) i s :
          Matrix (Fin (rowSize m i)) (Fin (rowSize m i)) ℝ))
        = (syms.map (matOf m i)).map (fun M => c • M) := by
      rw [List.map_map]
      apply List.map_congr_left
      intro s hs
      exact matOf_scaleRow_same m i c s (hsyms s hs).1 (hsyms s hs).2
    have hnz : rowNormsNonzero (syms.map (matOf m i)) ((fun _ => (1 : ℝ)), (0 : ℝ)) := by
      have := (normsNonzero_iff m i hi syms (initState m u)).mp hdef
      unfold rowState at this
      rw [initState_weightVec m u i hi, initState_log m u i hi] at this
      exact this
    have hscale := rowRun_scale c hc (syms.map (matOf m i)) ((fun _ => (1 : ℝ)), (0 : ℝ)) 0 hnz
    simp only [add_zero, zero_add, List.length_map] at hscale
    rw [hrow i hi, hmap]
    refine Eq.trans hscale ?_
    rw [feed_rowState_eq m u syms i hi]
  refine ⟨?_, ?_, ?_⟩
  · intro j hj
    by_cases hji : j = i
    · subst hji
      exact congrArg Prod.fst hsame
    · exact congrArg Prod.fst (hother j hj hji)
  · intro j hj hji
    exact congrArg Prod.snd (hother j hj hji)
  · exact congrArg Prod.snd hsame

end ResultLemmas


section ScaleRunLemmas

theorem normsNonzero_of_pos (m : Model ℝ) (u : Uninit ℝ) (syms : List Int) (i : Nat)
    (hi : (i : Int) < m.nbrows) (hn : 0 < rowSize m i)
    (hpos : ∀ s ∈ syms, ∀ r c, 0 < matOf m i s r c) :
    normsNonzero realMath m i syms (initState m u) := by
  rw [normsNonzero_iff m i hi]
  apply rowNormsNonzero_of_pos hn
  · intro M hM r c
    obtain ⟨s, hs, rfl⟩ := List.mem_map.mp hM
    exact hpos s hs r c
  · intro c
    unfold rowState
    rw [initState_weightVec m u i hi]
    exact one_pos

theorem validChar_symVal {α : Type} [LinearOrderedField α] (m : Model α) (chars : List Char)
    (h : ∀ ch ∈ chars, validChar m ch) : ∀ s ∈ chars.map symVal, 0 ≤ s ∧ s < m.k_sym := by
  intro s hs
  obtain ⟨ch, hch, rfl⟩ := List.mem_map.mp hs
  exact h ch hch

/-- Effect of scaling block row `i` by `c > 0` on the finalised log-norms and on the value
assigned to `log_en_nrm`. -/
theorem scale_final (m : Model ℝ) (u : Uninit ℝ) (lines : List (List Char)) (i : Nat) (c : ℝ)
    (hi : (i : Int) < m.nbrows) (hc : 0 < c) (hvalid : ∀ ch ∈ lines.flatten, validChar m ch)
    (hdef : normsNonzero realMath m i (lines.flatten.map symVal) (initState m u)) :
    ∃ st st2,
      streamLoop realMath m LINES_PER_BLOCK (lines.length + 1) lines (initState m u) = some st
      ∧ streamLoop realMath (scaleRow m i c) LINES_PER_BLOCK (lines.length + 1) lines
          (initState (scaleRow m i c) u) = some st2
      ∧ (∀ j : Nat, (j : Int) < m.nbrows → weightVec m st2 j = weightVec m st j)
      ∧ (∀ j : Nat, (j : Int) < m.nbrows →
          finalLogNorm realMath (scaleRow m i c) st2 u.max_br_nrm j
            = finalLogNorm realMath m st u.max_br_nrm j
              + if j = i then (lines.flatten.length : ℝ) * Real.log c else 0)
      ∧ resultOf realMath (scaleRow m i c) st2 u.max_br_nrm
          = Real.log (∑ j in Finset.range m.nbrows.toNat,
              Real.exp (finalLogNorm realMath m st u.max_br_nrm j
                + if j = i then (lines.flatten.length : ℝ) * Real.log c else 0)) := by
  obtain ⟨hw, hlo, hli⟩ := scale_run m u (lines.flatten.map symVal) i c hi hc
    (validChar_symVal m _ hvalid) hdef
  rw [List.length_map] at hli
  have hfin : ∀ j : Nat, (j : Int) < m.nbrows →
      finalLogNorm realMath (scaleRow m i c)
          (feedSymbols realMath (scaleRow m i c) (lines.flatten.map symVal)
            (initState (scaleRow m i c) u)) u.max_br_nrm j
        = finalLogNorm realMath m
            (feedSymbols realMath m (lines.flatten.map symVal) (initState m u)) u.max_br_nrm j
          + if j = i then (lines.flatten.length : ℝ) * Real.log c else 0 := by
    intro j hj
    rw [finalLogNorm_eq realMath (scaleRow m i c) _ _ j hj, finalLogNorm_eq realMath m _ _ j hj]
    have hp : projection (scaleRow m i c)
        (feedSymbols realMath (scaleRow m i c) (lines.flatten.map symVal)
          (initState (scaleRow m i c) u)) j
        = projection m (feedSymbols realMath m (lines.flatten.map symVal) (initState m u)) j := by
      show ∑ c', weightVec m _ j c' = ∑ c', weightVec m _ j c'
      rw [hw j hj]
    rw [hp]
    by_cases hji : j = i
    · subst hji
      rw [hli, if_pos rfl]
      ring
    · rw [hlo j hj hji, if_neg hji, add_zero]
  refine ⟨feedSymbols realMath m (lines.flatten.map symVal) (initState m u),
    feedSymbols realMath (scaleRow m i c) (lines.flatten.map symVal)
      (initState (scaleRow m i c) u), ?_, ?_, hw, hfin, ?_⟩
  · exact streamLoop_valid realMath m LINES_PER_BLOCK (by decide) _ lines _ (by omega) hvalid
  · exact streamLoop_valid realMath (scaleRow m i c) LINES_PER_BLOCK (by decide) _ lines _
      (by omega) hvalid
  · rw [resultOf_log_sum_exp (scaleRow m i c) _ _ (show (1 : Int) ≤ m.nbrows by omega)]
    show Real.log (∑ j in Finset.range m.nbrows.toNat, _) = _
    congr 1
    apply Finset.sum_congr rfl
    intro j hj
    rw [hfin j (by have := Finset.mem_range.mp hj; omega)]

end ScaleRunLemmas


section DefinedLemmas

theorem rowRun_invariant_of_norms {n : Nat} (Ms : List (Matrix (Fin n) (Fin n) ℝ))
    (p : (Fin n → ℝ) × ℝ) (κ : ℝ) (hκ : 0 < κ) (hl : p.2 = Real.log κ)
    (h : rowNormsNonzero Ms p) :
    ∃ κ2 : ℝ, 0 < κ2 ∧ (Ms.foldl (fun q M => rowStep M q) p).2 = Real.log κ2
      ∧ κ2 • (Ms.foldl (fun q M => rowStep M q) p).1
          = Ms.foldl (fun w M => Matrix.vecMul w M) (κ • p.1) := by
  induction Ms generalizing p κ with
  | nil => exact ⟨κ, hκ, hl, rfl⟩
  | cons M rest ih =>
    obtain ⟨h1, h2⟩ := h
    simp only [List.foldl_cons]
    have hpos : 0 < enorm (Matrix.vecMul p.1 M) := lt_of_le_of_ne (enorm_nonneg _) (Ne.symm h1)
    have hstep : (κ * enorm (Matrix.vecMul p.1 M)) • (rowStep M p).1
        = Matrix.vecMul (κ • p.1) M := by
      simp only [rowStep, Matrix.vecMul_smul, smul_smul]
      rw [mul_assoc, mul_inv_cancel₀ hpos.ne', mul_one]
    have hlog : (rowStep M p).2 = Real.log (κ * enorm (Matrix.vecMul p.1 M)) := by
      simp only [rowStep]
      rw [hl, Real.log_mul hκ.ne' hpos.ne']
    have := ih (rowStep M p) (κ * enorm (Matrix.vecMul p.1 M)) (mul_pos hκ hpos) hlog h2
    rw [hstep] at this
    exact this

/-- A defined run has a positive entry sum of the unnormalised chain vector. -/
theorem sum_chainVec_pos_of_defined (m : Model ℝ) (u : Uninit ℝ) (syms : List Int) (i : Nat)
    (hi : (i : Int) < m.nbrows) (hdef : runDefined realMath m i syms (initState m u)) :
    0 < ∑ c, chainVec m i syms c := by
  obtain ⟨hnz, hproj⟩ := hdef
  have hnz2 : rowNormsNonzero (syms.map (matOf m i)) ((fun _ => (1 : ℝ)), (0 : ℝ)) := by
    have := (normsNonzero_iff m i hi syms (initState m u)).mp hnz
    unfold rowState at this
    rw [initState_weightVec m u i hi, initState_log m u i hi] at this
    exact this
  obtain ⟨κ, hκ, _, hvec⟩ := rowRun_invariant_of_norms (syms.map (matOf m i))
    ((fun _ => (1 : ℝ)), (0 : ℝ)) 1 one_pos (by simp) hnz2
  rw [one_smul, ← chainVec_eq_foldl, ← feed_rowState_eq m u syms i hi] at hvec
  have hsum : ∑ c, chainVec m i syms c
      = κ * projection m (feedSymbols realMath m syms (initState m u)) i := by
    unfold projection
    rw [Finset.mul_sum, ← hvec]
    rfl
  rw [hsum]
  exact mul_pos hκ hproj

theorem runDefined_of_pos (m : Model ℝ) (u : Uninit ℝ) (syms : List Int) (i : Nat)
    (hi : (i : Int) < m.nbrows) (hn : 0 < rowSize m i)
    (hpos : ∀ s ∈ syms, ∀ r c, 0 < matOf m i s r c) :
    runDefined realMath m i syms (initState m u) := by
  have hnz := normsNonzero_of_pos m u syms i hi hn hpos
  refine ⟨hnz, ?_⟩
  have hnz2 : rowNormsNonzero (syms.map (matOf m i)) ((fun _ => (1 : ℝ)), (0 : ℝ)) := by
    have := (normsNonzero_iff m i hi syms (initState m u)).mp hnz
    unfold rowState at this
    rw [initState_weightVec m u i hi, initState_log m u i hi] at this
    exact this
  obtain ⟨κ, hκ, _, hvec⟩ := rowRun_invariant_of_norms (syms.map (matOf m i))
    ((fun _ => (1 : ℝ)), (0 : ℝ)) 1 one_pos (by simp) hnz2
  rw [one_smul, ← feed_rowState_eq m u syms i hi] at hvec
  have hchain : ∀ c, 0 < (syms.map (matOf m i)).foldl (fun w M => Matrix.vecMul w M)
      (fun _ => (1 : ℝ)) c := by
    apply foldl_vecMul_pos hn _ _ _ (fun _ => one_pos)
    intro M hM r c
    obtain ⟨s, hs, rfl⟩ := List.mem_map.mp hM
    exact hpos s hs r c
  unfold projection
  apply Finset.sum_pos
  · intro c _
    have h1 := congrFun hvec c
    have h2 := hchain c
    rw [← h1] at h2
    simp only [rowState, Pi.smul_apply, smul_eq_mul] at h2
    exact (pos_iff_pos_of_mul_pos h2).mp hκ
  · exact ⟨⟨0, hn⟩, Finset.mem_univ _⟩

/-- The value assigned to `log_en_nrm` for a single block row and a defined run over valid
symbols is the logarithm of the entry sum of the product of the selected matrices. -/
theorem single_row_result (m : Model ℝ) (u : Uninit ℝ) (lines : List (List Char))
    (hB : m.nbrows = 1) (hvalid : ∀ ch ∈ lines.flatten, validChar m ch)
    (hdef : runDefined realMath m 0 (lines.flatten.map symVal) (initState m u)) :
    ∃ st, streamLoop realMath m LINES_PER_BLOCK (lines.length + 1) lines (initState m u) = some st
      ∧ resultOf realMath m st u.max_br_nrm
          = Real.log (∑ r, ∑ c, ((lines.flatten.map symVal).map (matOf m 0)).prod r c)
      ∧ 0 < ∑ r, ∑ c, ((lines.flatten.map symVal).map (matOf m 0)).prod r c := by
  have hi : ((0 : Nat) : Int) < m.nbrows := by rw [hB]; decide
  have hpos := sum_chainVec_pos_of_defined m u _ 0 hi hdef
  refine ⟨feedSymbols realMath m (lines.flatten.map symVal) (initState m u), ?_, ?_, ?_⟩
  · exact streamLoop_valid realMath m LINES_PER_BLOCK (by decide) _ lines _ (by omega) hvalid
  · rw [resultOf_single m _ _ hB, finalLogNorm_feed m u _ 0 _ hi hpos.ne', sum_chainVec]
  · rw [← sum_chainVec]; exact hpos

end DefinedLemmas


section ModelABLemmas

theorem modelAB_valid_12 : ∀ ch ∈ [['1', '2']].flatten, validChar modelAB ch := by
  intro ch hch
  simp only [List.flatten_cons, List.flatten_nil, List.append_nil, List.mem_cons,
    List.mem_singleton, List.not_mem_nil, or_false] at hch
  rcases hch with rfl | rfl <;> (unfold validChar symVal modelAB; decide)

theorem modelAB_pos (s : Int) (r c : Fin (rowSize modelAB 0)) : 0 < matOf modelAB 0 s r c := by
  simp only [matOf, modelAB, Matrix.of_apply]
  split
  · exact one_pos
  · positivity

theorem sum_fin_two {n : Nat} (h : n = 2) (f : Fin n → ℝ) :
    ∑ r, f r = f ⟨0, by omega⟩ + f ⟨1, by omega⟩ := by
  subst h
  exact Fin.sum_univ_two f

theorem modelAB_entry_A (r c : Fin (rowSize modelAB 0)) : matOf modelAB 0 0 r c = 1 := by
  simp [matOf, modelAB]

theorem modelAB_entry_B (r c : Fin (rowSize modelAB 0)) :
    matOf modelAB 0 1 r c = 2 * ((r : Nat) : ℝ) + ((c : Nat) : ℝ) + 1 := by
  have hidx : ((2 : Int) * ((r : Nat) : Int) + ((c : Nat) : Int)).toNat = 2 * (r : Nat) + c := by
    omega
  simp only [matOf, modelAB, Matrix.of_apply, hidx]
  norm_num

theorem modelAB_valid (lines : List (List Char))
    (h : ∀ ch ∈ lines.flatten, ch = '1' ∨ ch = '2') :
    ∀ ch ∈ lines.flatten, validChar modelAB ch := by
  intro ch hch
  rcases h ch hch with rfl | rfl <;> (unfold validChar symVal modelAB; decide)

theorem modelAB_defined (syms : List Int) :
    runDefined realMath modelAB 0 syms (initState modelAB uninit0) :=
  runDefined_of_pos modelAB uninit0 syms 0 (by decide) (by decide)
    (fun s _ r c => modelAB_pos s r c)

theorem modelAB_sum_AB :
    ∑ r, ∑ c, (matOf modelAB 0 0 * matOf modelAB 0 1) r c = 20 := by
  simp only [Matrix.mul_apply, sum_fin_two (show rowSize modelAB 0 = 2 from rfl),
    modelAB_entry_A, modelAB_entry_B]
  norm_num

theorem modelAB_sum_BA :
    ∑ r, ∑ c, (matOf modelAB 0 1 * matOf modelAB 0 0) r c = 20 := by
  simp only [Matrix.mul_apply, sum_fin_two (show rowSize modelAB 0 = 2 from rfl),
    modelAB_entry_A, modelAB_entry_B]
  norm_num

theorem modelAB_not_commute :
    matOf modelAB 0 0 * matOf modelAB 0 1 ≠ matOf modelAB 0 1 * matOf modelAB 0 0 := by
  intro h
  have h00 := congrFun (congrFun h ⟨0, by decide⟩) ⟨0, by decide⟩
  simp only [Matrix.mul_apply, sum_fin_two (show rowSize modelAB 0 = 2 from rfl),
    modelAB_entry_A, modelAB_entry_B] at h00
  norm_num at h00

end ModelABLemmas


section OrderLemmas

/-- The results for the sources "12" and "21" of a two-symbol, single-block-row model, when
both runs are defined. -/
theorem order_results (m : Model ℝ) (u : Uninit ℝ) (hB : m.nbrows = 1) (hk : m.k_sym = 2)
    (h12 : runDefined realMath m 0 [0, 1] (initState m u))
    (h21 : runDefined realMath m 0 [1, 0] (initState m u)) :
    ∃ st12 st21,
      streamLoop realMath m LINES_PER_BLOCK 2 [['1', '2']] (initState m u) = some st12
      ∧ streamLoop realMath m LINES_PER_BLOCK 2 [['2', '1']] (initState m u) = some st21
      ∧ resultOf realMath m st12 u.max_br_nrm
          = Real.log (∑ r, ∑ c, (matOf m 0 0 * matOf m 0 1) r c)
      ∧ resultOf realMath m st21 u.max_br_nrm
          = Real.log (∑ r, ∑ c, (matOf m 0 1 * matOf m 0 0) r c)
      ∧ 0 < ∑ r, ∑ c, (matOf m 0 0 * matOf m 0 1) r c
      ∧ 0 < ∑ r, ∑ c, (matOf m 0 1 * matOf m 0 0) r c := by
  have hv12 : ∀ ch ∈ [['1', '2']].flatten, validChar m ch := by
    intro ch hch
    simp only [List.flatten_cons, List.flatten_nil, List.append_nil, List.mem_cons,
      List.mem_singleton, List.not_mem_nil, or_false] at hch
    rcases hch with rfl | rfl <;> (unfold validChar symVal; rw [hk]; decide)
  have hv21 : ∀ ch ∈ [['2', '1']].flatten, validChar m ch := by
    intro ch hch
    simp only [List.flatten_cons, List.flatten_nil, List.append_nil, List.mem_cons,
      List.mem_singleton, List.not_mem_nil, or_false] at hch
    rcases hch with rfl | rfl <;> (unfold validChar symVal; rw [hk]; decide)
  obtain ⟨st12, ha, hb, hc⟩ := single_row_result m u [['1', '2']] hB hv12 h12
  obtain ⟨st21, ha2, hb2, hc2⟩ := single_row_result m u [['2', '1']] hB hv21 h21
  have e12 : (([['1', '2']].flatten.map symVal).map (matOf m 0)).prod
      = matOf m 0 0 * matOf m 0 1 := by
    show (matOf m 0 0 * (matOf m 0 1 * 1)) = _
    rw [mul_one]
  have e21 : (([['2', '1']].flatten.map symVal).map (matOf m 0)).prod
      = matOf m 0 1 * matOf m 0 0 := by
    show (matOf m 0 1 * (matOf m 0 0 * 1)) = _
    rw [mul_one]
  rw [e12] at hb hc
  rw [e21] at hb2 hc2
  exact ⟨st12, st21, ha, ha2, hb, hb2, hc, hc2⟩

end OrderLemmas


section LoaderLemmas

theorem drop_eq_getD_cons {α : Type} [LinearOrderedField α] (l : List α) (n : Nat) (h : n < l.length) :
    l.drop n = l.getD n 0 :: l.drop (n + 1) := by
  rw [List.drop_eq_getElem_cons h, List.getD_eq_getElem l 0 h]

theorem getD_drop {α : Type} [LinearOrderedField α] (l : List α) (n b : Nat) : (l.drop n).getD b 0 = l.getD (n + b) 0 := by
  simp [List.getD_eq_getElem?_getD, List.getElem?_drop]

theorem readShifts_succ {α : Type} (L : Libm α) (n : Nat) (s : (Nat → Int) × List α) :
    readShifts L (n + 1) s
      = (readShifts L n s).bind
          (fun s =>
            match s.2 with
            | [] => none
            | tmp :: rest => some (Function.update s.1 n (L.round tmp), rest)) := rfl

theorem readShifts_spec {α : Type} [LinearOrderedField α] (L : Libm α) (n : Nat) (arr : Nat → Int) (file : List α)
    (h : n ≤ file.length) :
    readShifts L n (arr, file)
      = some (fun i => if i < n then L.round (file.getD i 0) else arr i, file.drop n) := by
  induction n with
  | zero => simp [readShifts, forLoopM]
  | succ n ih =>
    rw [readShifts_succ, ih (by omega)]
    simp only [Option.some_bind]
    rw [drop_eq_getD_cons file n (by omega)]
    simp only [Option.some.injEq, Prod.mk.injEq, and_true]
    funext i
    by_cases hi : i = n
    · subst hi; simp
    · rw [Function.update_noteq hi]
      have : i < n + 1 ↔ i < n := by omega
      simp [this]

theorem readSizes_succ {α : Type} (L : Libm α) (n : Nat) (s : (Nat → Int) × Int × List α) :
    readSizes L (n + 1) s
      = (readSizes L n s).bind
          (fun s =>
            match s.2.2 with
            | [] => none
            | tmp :: rest =>
              let mxsz_vals := Function.update s.1 n (L.round tmp)
              some (mxsz_vals, if mxsz_vals n > s.2.1 then mxsz_vals n else s.2.1, rest)) := rfl

/-- The running maximum of lines 159-170 over the first `n` sizes. -/
theorem readSizes_spec {α : Type} [LinearOrderedField α] (L : Libm α) (n : Nat) (arr : Nat → Int) (max0 : Int) (file : List α)
    (h : n ≤ file.length) :
    ∃ mx : Int,
      readSizes L n (arr, max0, file)
        = some (fun i => if i < n then L.round (file.getD i 0) else arr i, mx, file.drop n)
      ∧ max0 ≤ mx
      ∧ (∀ j, j < n → L.round (file.getD j 0) ≤ mx)
      ∧ (mx = max0 ∨ ∃ j, j < n ∧ mx = L.round (file.getD j 0)) := by
  induction n with
  | zero =>
    refine ⟨max0, ?_, le_rfl, ?_, Or.inl rfl⟩
    · simp [readSizes, forLoopM]
    · intro j hj; omega
  | succ n ih =>
    obtain ⟨mx, hread, hge, hall, hex⟩ := ih (by omega)
    rw [readSizes_succ, hread]
    simp only [Option.some_bind]
    rw [drop_eq_getD_cons file n (by omega)]
    simp only [Function.update_same]
    refine ⟨if L.round (file.getD n 0) > mx then L.round (file.getD n 0) else mx, ?_, ?_, ?_, ?_⟩
    · simp only [Option.some.injEq, Prod.mk.injEq, and_true]
      funext i
      by_cases hi : i = n
      · subst hi; simp
      · rw [Function.update_noteq hi]
        have : i < n + 1 ↔ i < n := by omega
        simp [this]
    · split <;> omega
    · intro j hj
      by_cases hjn : j = n
      · subst hjn
        split <;> omega
      · have := hall j (by omega)
        split <;> omega
    · by_cases hgt : L.round (file.getD n 0) > mx
      · rw [if_pos hgt]
        exact Or.inr ⟨n, by omega, rfl⟩
      · rw [if_neg hgt]
        rcases hex with h0 | ⟨j, hj, hjm⟩
        · exact Or.inl h0
        · exact Or.inr ⟨j, by omega, hjm⟩

theorem readMatrix_succ {α : Type} (idx count : Nat) (s : (Nat → Nat → α) × List α) :
    readMatrix idx (count + 1) s
      = (readMatrix idx count s).bind
          (fun s =>
            match s.2 with
            | [] => none
            | x :: rest =>
              some (Function.update s.1 idx (Function.update (s.1 idx) count x), rest)) := rfl

theorem readMatrix_spec {α : Type} [LinearOrderedField α] (idx count : Nat) (MiP : Nat → Nat → α) (file : List α)
    (h : count ≤ file.length) :
    readMatrix idx count (MiP, file)
      = some (fun a b => if a = idx ∧ b < count then file.getD b 0 else MiP a b,
          file.drop count) := by
  induction count with
  | zero => simp [readMatrix, forLoopM]
  | succ n ih =>
    rw [readMatrix_succ, ih (by omega)]
    simp only [Option.some_bind]
    rw [drop_eq_getD_cons file n (by omega)]
    simp only [Option.some.injEq, Prod.mk.injEq, and_true]
    funext a b
    by_cases ha : a = idx
    · subst ha
      simp only [Function.update_same, true_and]
      by_cases hb : b = n
      · subst hb; simp
      · rw [Function.update_noteq hb]
        have : b < n + 1 ↔ b < n := by omega
        simp [this]
    · rw [Function.update_noteq ha]
      simp [ha]

theorem toNat_idx (a b c : Nat) : ((a : Int) * (b : Int) + (c : Int)).toNat = a * b + c := by
  have h : ((a : Int) * (b : Int) + (c : Int)) = ((a * b + c : Nat) : Int) := by
    push_cast
    ring
  rw [h, Int.toNat_natCast]

theorem toNat_sq (a : Nat) : ((a : Int) * (a : Int)).toNat = a * a := by
  have h : ((a : Int) * (a : Int)) = ((a * a : Nat) : Int) := by push_cast; ring
  rw [h, Int.toNat_natCast]

/-- The matrices of one block row (the loop over `jj` of lines 193-200). -/
theorem readRow_spec {α : Type} [LinearOrderedField α] (k N ii p : Nat)
    (MiP : Nat → Nat → α) (file : List α) (h : p * N ≤ file.length) :
    forLoopM p (fun jj s => readMatrix (ii * k + jj) N s) (MiP, file)
      = some (fun a b =>
            if ii * k ≤ a ∧ a < ii * k + p ∧ b < N then file.getD ((a - ii * k) * N + b) 0
            else MiP a b,
          file.drop (p * N)) := by
  induction p with
  | zero =>
    simp only [forLoopM, Nat.zero_mul, List.drop_zero, Option.some.injEq, Prod.mk.injEq,
      and_true]
    funext a b
    have : ¬ (ii * k ≤ a ∧ a < ii * k + 0 ∧ b < N) := by omega
    rw [if_neg this]
  | succ p ih =>
    have hmul : (p + 1) * N = p * N + N := by ring
    simp only [forLoopM]
    rw [ih (by omega)]
    simp only [Option.some_bind]
    rw [readMatrix_spec _ _ _ _ (by rw [List.length_drop]; omega), List.drop_drop, hmul]
    simp only [Option.some.injEq, Prod.mk.injEq, and_true]
    funext a b
    by_cases ha : a = ii * k + p
    · subst ha
      by_cases hb : b < N
      · have h1 : ii * k ≤ ii * k + p ∧ ii * k + p < ii * k + (p + 1) ∧ b < N := by omega
        rw [if_pos ⟨rfl, hb⟩, if_pos h1, getD_drop]
        congr 2
        have : ii * k + p - ii * k = p := by omega
        rw [this]
      · have h1 : ¬ (ii * k ≤ ii * k + p ∧ ii * k + p < ii * k + (p + 1) ∧ b < N) := by omega
        have h2 : ¬ (ii * k ≤ ii * k + p ∧ ii * k + p < ii * k + p ∧ b < N) := by omega
        have h3 : ¬ (ii * k + p = ii * k + p ∧ b < N) := by omega
        rw [if_neg h3, if_neg h1, if_neg h2]
    · have h3 : ¬ (a = ii * k + p ∧ b < N) := by omega
      rw [if_neg h3]
      by_cases hc : ii * k ≤ a ∧ a < ii * k + p ∧ b < N
      · have h1 : ii * k ≤ a ∧ a < ii * k + (p + 1) ∧ b < N := by omega
        rw [if_pos hc, if_pos h1]
      · have h1 : ¬ (ii * k ≤ a ∧ a < ii * k + (p + 1) ∧ b < N) := by omega
        rw [if_neg hc, if_neg h1]

/-- All matrices (lines 192-201): the table entry of block row `i` and symbol `s` holds the
`sz i * sz i` values found after the `k * sum_{j<i} sz j * sz j + s * (sz i * sz i)` values that
precede it. -/
theorem readMatrices_spec {α : Type} [LinearOrderedField α] (k B : Nat) (sz : Nat → Nat)
    (mxsz : Nat → Int) (hsz : ∀ j, j < B → mxsz j = (sz j : Int)) (MiP : Nat → Nat → α)
    (file : List α) (q : Nat) (hq : q ≤ B)
    (h : k * (∑ j in Finset.range q, sz j * sz j) ≤ file.length) :
    ∃ MiP2 : Nat → Nat → α,
      forLoopM q
          (fun ii s =>
            forLoopM ((k : Int)).toNat
              (fun jj s =>
                readMatrix ((ii : Int) * (k : Int) + (jj : Int)).toNat
                  (mxsz ii * mxsz ii).toNat s)
              s)
          (MiP, file)
        = some (MiP2, file.drop (k * (∑ j in Finset.range q, sz j * sz j)))
      ∧ ∀ i s b, i < q → s < k → b < sz i * sz i →
          MiP2 (i * k + s) b
            = file.getD (k * (∑ j in Finset.range i, sz j * sz j) + s * (sz i * sz i) + b) 0 := by
  induction q with
  | zero =>
    refine ⟨MiP, ?_, ?_⟩
    · simp [forLoopM]
    · intro i s b hi; omega
  | succ q ih =>
    rw [Finset.sum_range_succ, Nat.mul_add] at h
    obtain ⟨MiPq, hread, hval⟩ := ih (by omega) (by omega)
    have hbody : (fun (jj : Nat) (s : (Nat → Nat → α) × List α) =>
          readMatrix ((q : Int) * (k : Int) + (jj : Int)).toNat (mxsz q * mxsz q).toNat s)
        = (fun (jj : Nat) (s : (Nat → Nat → α) × List α) =>
            readMatrix (q * k + jj) (sz q * sz q) s) := by
      funext jj s
      rw [toNat_idx, hsz q (by omega), toNat_sq]
    simp only [forLoopM]
    rw [hread]
    simp only [Option.some_bind, Int.toNat_natCast]
    rw [hbody, readRow_spec k (sz q * sz q) q k MiPq _ (by rw [List.length_drop]; omega),
      List.drop_drop, Finset.sum_range_succ, Nat.mul_add]
    refine ⟨_, rfl, ?_⟩
    intro i s b hi hs hb
    by_cases hiq : i = q
    · subst hiq
      have h1 : i * k ≤ i * k + s ∧ i * k + s < i * k + k ∧ b < sz i * sz i := by omega
      simp only [if_pos h1, getD_drop]
      congr 1
      have : i * k + s - i * k = s := by omega
      rw [this]
      ring
    · have hlt : i < q := by omega
      have hmul : (i + 1) * k ≤ q * k := Nat.mul_le_mul_right k (by omega)
      have hexp : (i + 1) * k = i * k + k := by ring
      have h1 : ¬ (q * k ≤ i * k + s ∧ i * k + s < q * k + k ∧ b < sz q * sz q) := by omega
      simp only [if_neg h1]
      exact hval i s b hlt hs hb

/-- The reading phase on a long enough value sequence: it succeeds and every variable holds the
value found at its place of the layout `k_sym, di_vals, hk, delta, p_and_s, nbrows, mxsz_vals,
MiP`. -/
theorem loadModel_spec {α : Type} [LinearOrderedField α] (L : Libm α) (u : Uninit α)
    (file : List α) (k B : Nat) (sz : Nat → Nat)
    (hk : L.round (file.getD 0 0) = (k : Int))
    (hB : L.round (file.getD (k + 4) 0) = (B : Int))
    (hsz : ∀ j, j < B → L.round (file.getD (k + 5 + j) 0) = (sz j : Int))
    (hlen : 5 + k + B + k * (∑ j in Finset.range B, sz j * sz j) ≤ file.length) :
    ∃ m : Model α, loadModel L u file = .ok m
      ∧ m.k_sym = (k : Int)
      ∧ (∀ i, i < k → m.di_vals i = L.round (file.getD (1 + i) 0))
      ∧ m.hk = L.round (file.getD (k + 1) 0)
      ∧ m.delta = file.getD (k + 2) 0
      ∧ m.p_and_s = L.round (file.getD (k + 3) 0)
      ∧ m.nbrows = (B : Int)
      ∧ (∀ j, j < B → m.mxsz_vals j = (sz j : Int))
      ∧ (∀ j, j < B → m.mxsz_vals j ≤ m.max_mxsz)
      ∧ (m.max_mxsz = 0 ∨ ∃ j, j < B ∧ m.max_mxsz = m.mxsz_vals j)
      ∧ ∀ i s b, i < B → s < k → b < sz i * sz i →
          m.MiP (i * k + s) b
            = file.getD (5 + k + B + k * (∑ j in Finset.range i, sz j * sz j)
                + s * (sz i * sz i) + b) 0 := by
  obtain ⟨x0, rest, rfl⟩ : ∃ x0 rest, file = x0 :: rest := by
    cases file with
    | nil => simp at hlen
    | cons x0 rest => exact ⟨x0, rest, rfl⟩
  simp only [List.length_cons] at hlen
  have hg : ∀ n, (x0 :: rest).getD (n + 1) 0 = rest.getD n 0 := fun n => rfl
  have hk0 : L.round x0 = (k : Int) := hk
  have hdrop : rest.drop k
      = rest.getD k 0 :: rest.getD (k + 1) 0 :: rest.getD (k + 2) 0 :: rest.getD (k + 3) 0
          :: rest.drop (k + 4) := by
    rw [drop_eq_getD_cons rest k (by omega), drop_eq_getD_cons rest (k + 1) (by omega),
      drop_eq_getD_cons rest (k + 2) (by omega), drop_eq_getD_cons rest (k + 3) (by omega)]
  have hB0 : L.round (rest.getD (k + 3) 0) = (B : Int) := by
    rw [← hg (k + 3)]; exact hB
  obtain ⟨mx, hsizes, _, hmxall, hmxex⟩ := readSizes_spec L B u.mxsz_vals 0 (rest.drop (k + 4))
    (by rw [List.length_drop]; omega)
  have hszv : ∀ j, j < B →
      (fun i => if i < B then L.round ((rest.drop (k + 4)).getD i 0) else u.mxsz_vals i) j
        = (sz j : Int) := by
    intro j hj
    simp only [if_pos hj, getD_drop]
    rw [← hg (k + 4 + j)]
    have : k + 4 + j + 1 = k + 5 + j := by omega
    rw [this]
    exact hsz j hj
  obtain ⟨MiP2, hmat, hval⟩ := readMatrices_spec k B sz
    (fun i => if i < B then L.round ((rest.drop (k + 4)).getD i 0) else u.mxsz_vals i) hszv
    u.MiP ((rest.drop (k + 4)).drop B) B le_rfl
    (by rw [List.length_drop, List.length_drop]; omega)
  have hnk : ¬ ((k : Int) < 0) := by omega
  have hnB : ¬ ((B : Int) < 0) := by omega
  have hnBk : ¬ ((B : Int) * (k : Int) < 0) := by
    have : (0 : Int) ≤ (B : Int) * (k : Int) := mul_nonneg (by omega) (by omega)
    omega
  refine ⟨{ k_sym := (k : Int)
            di_vals := fun i => if i < k then L.round (rest.getD i 0) else u.di_vals i
            hk := L.round (rest.getD k 0)
            delta := rest.getD (k + 1) 0
            p_and_s := L.round (rest.getD (k + 2) 0)
            nbrows := (B : Int)
            mxsz_vals := fun i =>
              if i < B then L.round ((rest.drop (k + 4)).getD i 0) else u.mxsz_vals i
            max_mxsz := mx
            MiP := MiP2 }, ?_, rfl, ?_, ?_, ?_, ?_, rfl, hszv, ?_, ?_, ?_⟩
  · simp only [Int.toNat_natCast] at hmat
    simp only [loadModel, hk0, if_neg hnk, Int.toNat_natCast,
      readShifts_spec L k u.di_vals rest (by omega), hdrop, hB0, if_neg hnB, hsizes,
      if_neg hnBk, readMatrices, hmat]
  · intro i hi
    simp only [if_pos hi]
    rw [← hg i, Nat.add_comm]
  · show L.round (rest.getD k 0) = _
    rw [← hg k]
  · show rest.getD (k + 1) 0 = _
    rw [← hg (k + 1)]
  · show L.round (rest.getD (k + 2) 0) = _
    rw [← hg (k + 2)]
  · intro j hj
    simp only [if_pos hj]
    exact hmxall j hj
  · rcases hmxex with h0 | ⟨j, hj, hjm⟩
    · exact Or.inl h0
    · refine Or.inr ⟨j, hj, ?_⟩
      simp only [if_pos hj]
      exact hjm
  · intro i s b hi hs hb
    show MiP2 (i * k + s) b = _
    rw [hval i s b hi hs hb, getD_drop, getD_drop, ← hg]
    congr 1
    omega

end LoaderLemmas


section RoundLemmas

theorem cround_intCast (n : Int) : cround (n : ℝ) = n := by
  unfold cround
  split
  · rw [Int.floor_eq_iff]
    constructor <;> norm_num
  · rw [Int.ceil_eq_iff]
    constructor <;> norm_num

theorem cround_nearest (x : ℝ) : |x - (cround x : ℝ)| ≤ 1 / 2 := by
  unfold cround
  split
  · have h1 := Int.floor_le (x + 1 / 2)
    have h2 := Int.lt_floor_add_one (x + 1 / 2)
    rw [abs_le]
    constructor <;> linarith
  · have h1 := Int.le_ceil (x - 1 / 2)
    have h2 := Int.ceil_lt_add_one (x - 1 / 2)
    rw [abs_le]
    constructor <;> linarith

theorem fileAB_header :
    realMath.round (fileAB.getD 0 0) = ((2 : Nat) : Int)
      ∧ realMath.round (fileAB.getD (2 + 4) 0) = ((1 : Nat) : Int)
      ∧ (∀ j, j < 1 → realMath.round (fileAB.getD (2 + 5 + j) 0) = (((fun _ => 2) j : Nat) : Int))
      ∧ 5 + 2 + 1 + 2 * (∑ j in Finset.range 1, (fun _ : Nat => 2) j * (fun _ : Nat => 2) j)
          ≤ fileAB.length := by
  have h2 : cround (2 : ℝ) = 2 := by exact_mod_cast cround_intCast 2
  have h1 : cround (1 : ℝ) = 1 := by exact_mod_cast cround_intCast 1
  refine ⟨?_, ?_, ?_, ?_⟩
  · simpa [fileAB, realMath] using h2
  · simpa [fileAB, realMath] using h1
  · intro j hj
    have : j = 0 := by omega
    subst this
    simpa [fileAB, realMath] using h2
  · simp [fileAB]

end RoundLemmas

section BadSymbolLemmas

/-- A run on the data file `fileAB` and the one-line source "13": the character `3` is out of
range, the diagnostic is printed and then the never-assigned `log_en_nrm`. -/
theorem fileAB_bad_symbol_run (u : Uninit ℝ) :
    ∃ m : Model ℝ, loadModel realMath u fileAB = .ok m ∧ m.k_sym = 2
      ∧ main realMath u 2 (some fileAB) (some [['1', '3']])
          = some { stdout := [headerOf m, .badSymbol, .number u.log_en_nrm],
                   exit := .returned 1 } := by
  obtain ⟨h1, h2, h3, h4⟩ := fileAB_header
  obtain ⟨m, hload, hk, _, _, _, _, hB, hsz, _, _, _⟩ :=
    loadModel_spec realMath u fileAB 2 1 (fun _ => 2) h1 h2 h3 h4
  refine ⟨m, hload, hk, ?_⟩
  have halloc : vectorsAllocate m = true := by
    unfold vectorsAllocate
    rw [hB]
    simp [hsz 0 (by omega)]
  have hs1 : symVal '1' = 0 := by decide
  have hs3 : symVal '3' = 2 := by decide
  simp [main, mainWith, hload, halloc, LINES_PER_BLOCK, streamLoop, readBlock, processBlock,
    hs1, hs3, hk, report]

end BadSymbolLemmas

section UnitNormLemmas

theorem rowStep_unit_norm {n : Nat} (M : Matrix (Fin n) (Fin n) ℝ) (p : (Fin n → ℝ) × ℝ)
    (h : enorm (Matrix.vecMul p.1 M) ≠ 0) : enorm (rowStep M p).1 = 1 := by
  have hpos : 0 < enorm (Matrix.vecMul p.1 M) := lt_of_le_of_ne (enorm_nonneg _) (Ne.symm h)
  simp only [rowStep]
  rw [enorm_smul _ (inv_nonneg.mpr hpos.le), inv_mul_cancel₀ hpos.ne']

theorem symbolStep_unit_norm (m : Model ℝ) (s : Int) (st : MulState ℝ) (i : Nat)
    (hi : (i : Int) < m.nbrows) (h : normAt realMath m s i st ≠ 0) :
    enorm (weightVec m (symbolStep realMath m s st) i) = 1 := by
  have hrow := congrArg Prod.fst (symbolStep_rowState m s st i hi)
  rw [normAt_eq] at h
  have : weightVec m (symbolStep realMath m s st) i
      = (rowStep (matOf m i s) (rowState m st i)).1 := hrow
  rw [this]
  exact rowStep_unit_norm _ _ h

theorem initState_norm (m : Model ℝ) (u : Uninit ℝ) (i : Nat) (hi : (i : Int) < m.nbrows) :
    enorm (weightVec m (initState m u) i) = Real.sqrt (rowSize m i) := by
  rw [initState_weightVec m u i hi, enorm_ones]

/-- One update keeps the scale-tracking relation: if `exp(log_vec_norm[i]) * v_0[i]` is the
vector `w` before the update and the norm is non-zero, it is `w * M` after it. -/
theorem symbolStep_scale_tracking (m : Model ℝ) (s : Int) (st : MulState ℝ) (i : Nat)
    (hi : (i : Int) < m.nbrows) (w : Fin (rowSize m i) → ℝ)
    (h : normAt realMath m s i st ≠ 0)
    (hinv : ∀ c, Real.exp (st.log_vec_norm i) * weightVec m st i c = w c) :
    ∀ c, Real.exp ((symbolStep realMath m s st).log_vec_norm i)
        * weightVec m (symbolStep realMath m s st) i c
      = Matrix.vecMul w (matOf m i s) c := by
  rw [normAt_eq] at h
  have hpos : 0 < enorm (Matrix.vecMul (weightVec m st i) (matOf m i s)) :=
    lt_of_le_of_ne (enorm_nonneg _) (Ne.symm h)
  have hrow := symbolStep_rowState m s st i hi
  have hw : weightVec m (symbolStep realMath m s st) i
      = (rowStep (matOf m i s) (rowState m st i)).1 := congrArg Prod.fst hrow
  have hl : (symbolStep realMath m s st).log_vec_norm i
      = (rowStep (matOf m i s) (rowState m st i)).2 := congrArg Prod.snd hrow
  have hwv : w = Real.exp (st.log_vec_norm i) • weightVec m st i := by
    funext c
    rw [← hinv c]
    rfl
  intro c
  rw [hw, hl, hwv, Matrix.vecMul_smul]
  simp only [rowStep, rowState, Pi.smul_apply, smul_eq_mul]
  rw [Real.exp_add, Real.exp_log hpos]
  field_simp
  ring

/-- The scale-tracking relation along a run over accepted symbols with non-zero norms. -/
theorem feed_scale_tracking (m : Model ℝ) (u : Uninit ℝ) (syms : List Int) (i : Nat)
    (hi : (i : Int) < m.nbrows) (hnz : normsNonzero realMath m i syms (initState m u)) :
    ∀ c, Real.exp ((feedSymbols realMath m syms (initState m u)).log_vec_norm i)
        * weightVec m (feedSymbols realMath m syms (initState m u)) i c
      = chainVec m i syms c := by
  have hnz2 : rowNormsNonzero (syms.map (matOf m i)) ((fun _ => (1 : ℝ)), (0 : ℝ)) := by
    have := (normsNonzero_iff m i hi syms (initState m u)).mp hnz
    unfold rowState at this
    rw [initState_weightVec m u i hi, initState_log m u i hi] at this
    exact this
  obtain ⟨κ, hκ, hlog, hvec⟩ := rowRun_invariant_of_norms (syms.map (matOf m i))
    ((fun _ => (1 : ℝ)), (0 : ℝ)) 1 one_pos (by simp) hnz2
  rw [one_smul, ← chainVec_eq_foldl, ← feed_rowState_eq m u syms i hi] at hvec
  rw [← feed_rowState_eq m u syms i hi] at hlog
  have hl : (feedSymbols realMath m syms (initState m u)).log_vec_norm i = Real.log κ := hlog
  intro c
  rw [hl, Real.exp_log hκ, ← hvec]
  rfl

end UnitNormLemmas

section ScalingLawLemmas

theorem normsNonzero_append {α : Type} [LinearOrderedField α] (L : Libm α) (m : Model α)
    (i : Nat) (a b : List Int) (st : MulState α) :
    normsNonzero L m i (a ++ b) st
      ↔ normsNonzero L m i a st ∧ normsNonzero L m i b (feedSymbols L m a st) := by
  induction a generalizing st with
  | nil => simp [normsNonzero, feedSymbols]
  | cons s rest ih =>
    have hfeed : feedSymbols L m (s :: rest) st = feedSymbols L m rest (symbolStep L m s st) :=
      rfl
    show normAt L m s i st ≠ 0 ∧ normsNonzero L m i (rest ++ b) (symbolStep L m s st) ↔ _
    rw [ih, hfeed]
    simp only [normsNonzero, and_assoc]

theorem normsNonzero_take (m : Model ℝ) (i : Nat) (chars : List Char) (t : Nat)
    (st : MulState ℝ) (h : normsNonzero realMath m i (chars.map symVal) st) :
    normsNonzero realMath m i ((chars.take t).map symVal) st := by
  have hsplit : chars.map symVal = (chars.take t).map symVal ++ (chars.drop t).map symVal := by
    rw [← List.map_append, List.take_append_drop]
  rw [hsplit, normsNonzero_append] at h
  exact h.1

/-- The scaling law for a single block row: with every matrix entry multiplied by `c > 0`, the
weight vector after each update is unchanged and the cumulative log-norm, the finalised log-norm
and the result grow by `ln c` per symbol. -/
theorem scaling_law_run (m : Model ℝ) (u : Uninit ℝ) (lines : List (List Char)) (c : ℝ)
    (hB : m.nbrows = 1) (hc : 0 < c) (hvalid : ∀ ch ∈ lines.flatten, validChar m ch)
    (hdef : runDefined realMath m 0 (lines.flatten.map symVal) (initState m u)) :
    ∃ st st2,
      streamLoop realMath m LINES_PER_BLOCK (lines.length + 1) lines (initState m u) = some st
      ∧ streamLoop realMath (scaleRow m 0 c) LINES_PER_BLOCK (lines.length + 1) lines
          (initState (scaleRow m 0 c) u) = some st2
      ∧ (∀ t : Nat,
          weightVec m (processBlock realMath (scaleRow m 0 c) (lines.flatten.take t)
              (initState (scaleRow m 0 c) u)) 0
            = weightVec m (processBlock realMath m (lines.flatten.take t) (initState m u)) 0)
      ∧ st2.log_vec_norm 0 = st.log_vec_norm 0 + (lines.flatten.length : ℝ) * Real.log c
      ∧ finalLogNorm realMath (scaleRow m 0 c) st2 u.max_br_nrm 0
          = finalLogNorm realMath m st u.max_br_nrm 0 + (lines.flatten.length : ℝ) * Real.log c
      ∧ resultOf realMath (scaleRow m 0 c) st2 u.max_br_nrm
          = resultOf realMath m st u.max_br_nrm + (lines.flatten.length : ℝ) * Real.log c := by
  have hi : ((0 : Nat) : Int) < m.nbrows := by rw [hB]; decide
  obtain ⟨st, st2, h1, h2, _, hfin, _⟩ := scale_final m u lines 0 c hi hc hvalid hdef.1
  have hst : st = feedSymbols realMath m (lines.flatten.map symVal) (initState m u) := by
    have := streamLoop_valid realMath m LINES_PER_BLOCK (by decide) (lines.length + 1) lines
      (initState m u) (by omega) hvalid
    rw [h1] at this
    exact Option.some.inj this
  have hst2 : st2 = feedSymbols realMath (scaleRow m 0 c) (lines.flatten.map symVal)
      (initState (scaleRow m 0 c) u) := by
    have := streamLoop_valid realMath (scaleRow m 0 c) LINES_PER_BLOCK (by decide)
      (lines.length + 1) lines (initState (scaleRow m 0 c) u) (by omega) hvalid
    rw [h2] at this
    exact Option.some.inj this
  obtain ⟨_, _, hlog⟩ := scale_run m u (lines.flatten.map symVal) 0 c hi hc
    (validChar_symVal m _ hvalid) hdef.1
  rw [List.length_map] at hlog
  refine ⟨st, st2, h1, h2, ?_, ?_, ?_, ?_⟩
  · intro t
    have hvt : ∀ ch ∈ lines.flatten.take t, validChar m ch :=
      fun ch hch => hvalid ch (List.mem_of_mem_take hch)
    have hvt2 : ∀ ch ∈ lines.flatten.take t, validChar (scaleRow m 0 c) ch := hvt
    rw [processBlock_valid realMath m _ _ hvt,
      processBlock_valid realMath (scaleRow m 0 c) _ _ hvt2]
    exact (scale_run m u ((lines.flatten.take t).map symVal) 0 c hi hc
      (validChar_symVal m _ hvt) (normsNonzero_take m 0 _ t _ hdef.1)).1 0 hi
  · rw [hst, hst2]
    exact hlog
  · have := hfin 0 hi
    rw [if_pos rfl] at this
    exact this
  · rw [resultOf_single m st _ hB, resultOf_single (scaleRow m 0 c) st2 _ hB]
    have := hfin 0 hi
    rw [if_pos rfl] at this
    exact this

end ScalingLawLemmas

section MainLemmas

theorem symbolStep_bad_char_any {α : Type} [LinearOrderedField α] (L : Libm α) (m : Model α)
    (s : Int) (st : MulState α) : (symbolStep L m s st).bad_char = st.bad_char := by
  unfold symbolStep
  induction m.nbrows.toNat with
  | zero => rfl
  | succ b ih =>
    simp only [forLoop]
    rw [blockRowStep_bad_char]
    exact ih

theorem feedSymbols_bad_char_any {α : Type} [LinearOrderedField α] (L : Libm α) (m : Model α)
    (syms : List Int) (st : MulState α) :
    (feedSymbols L m syms st).bad_char = st.bad_char := by
  induction syms generalizing st with
  | nil => rfl
  | cons s rest ih =>
    simp only [feedSymbols, List.foldl_cons] at ih ⊢
    rw [ih, symbolStep_bad_char_any]

theorem mainWith_of_load {α : Type} [LinearOrderedField α] (L : Libm α) (u : Uninit α)
    (lpb fuel : Nat) (file : List α) (sf : Option (List (List Char))) (m : Model α)
    (hload : loadModel L u file = .ok m) (halloc : vectorsAllocate m = true) :
    mainWith L u lpb fuel (some file) sf
      = (streamLoop L m lpb fuel (sf.getD []) (initState m u)).map (report L m u) := by
  simp only [mainWith, hload, halloc, if_true]

/-- A run over valid symbols prints the header echo and one numeric line and returns 0,
whatever values the arithmetic produces on the way. -/
theorem main_valid_run {α : Type} [LinearOrderedField α] (L : Libm α) (u : Uninit α)
    (fuel : Nat) (file : List α) (lines : List (List Char)) (m : Model α)
    (hload : loadModel L u file = .ok m) (halloc : vectorsAllocate m = true)
    (hf : lines.length < fuel) (hvalid : ∀ ch ∈ lines.flatten, validChar m ch) :
    main L u fuel (some file) (some lines)
      = some { stdout := [headerOf m,
                 .number (resultOf L m
                   (feedSymbols L m (lines.flatten.map symVal) (initState m u)) u.max_br_nrm)],
               exit := .returned 0 } := by
  unfold main
  rw [mainWith_of_load L u _ fuel file _ m hload halloc]
  simp only [Option.getD_some]
  rw [streamLoop_valid L m LINES_PER_BLOCK (by decide) fuel lines _ hf hvalid]
  simp only [Option.map_some', report, feedSymbols_bad_char_any, initState_bad_char,
    Bool.false_eq_true, if_false]

theorem initState_finalLogNorm (m : Model ℝ) (u : Uninit ℝ) (i : Nat) (max0 : ℝ)
    (hi : (i : Int) < m.nbrows) :
    finalLogNorm realMath m (initState m u) max0 i = Real.log (rowSize m i) := by
  rw [finalLogNorm_eq realMath m _ _ i hi, initState_log m u i hi, zero_add]
  unfold projection
  rw [initState_weightVec m u i hi]
  simp only [Finset.sum_const, Finset.card_univ, Fintype.card_fin, nsmul_eq_mul, mul_one]
  rfl

theorem vectorsAllocate_of_sizes {α : Type} [LinearOrderedField α] (m : Model α)
    (h : ∀ j : Nat, j < m.nbrows.toNat → 0 ≤ m.mxsz_vals j) : vectorsAllocate m = true := by
  unfold vectorsAllocate
  rw [List.all_eq_true]
  intro j hj
  rw [List.mem_range] at hj
  exact decide_eq_true (h j hj)

/-- A run on the data file `fileAB` when the symbol source cannot be opened: it is the run on
an empty source, prints the numeric line `ln 2` and returns 0. -/
theorem fileAB_unopened_run (u : Uninit ℝ) :
    ∃ m : Model ℝ, loadModel realMath u fileAB = .ok m
      ∧ main realMath u 1 (some fileAB) none
          = some { stdout := [headerOf m, .number (Real.log 2)], exit := .returned 0 }
      ∧ main realMath u 1 (some fileAB) none = main realMath u 1 (some fileAB) (some []) := by
  obtain ⟨h1, h2, h3, h4⟩ := fileAB_header
  obtain ⟨m, hload, hk, _, _, _, _, hB, hsz, _, _, _⟩ :=
    loadModel_spec realMath u fileAB 2 1 (fun _ => 2) h1 h2 h3 h4
  have halloc : vectorsAllocate m = true := by
    apply vectorsAllocate_of_sizes
    intro j hj
    rw [hB] at hj
    rw [hsz j hj]
    decide
  have hB1 : m.nbrows = 1 := hB
  have hmain : main realMath u 1 (some fileAB) none = main realMath u 1 (some fileAB) (some []) :=
    rfl
  refine ⟨m, hload, ?_, hmain⟩
  rw [hmain, main_valid_run realMath u 1 fileAB [] m hload halloc (by decide)
    (by intro ch hch; cases hch)]
  have hres : resultOf realMath m
      (feedSymbols realMath m (([] : List (List Char)).flatten.map symVal) (initState m u))
      u.max_br_nrm = Real.log 2 := by
    show resultOf realMath m (initState m u) u.max_br_nrm = Real.log 2
    rw [resultOf_single m _ _ hB1, initState_finalLogNorm m u 0 _ (by rw [hB1]; decide)]
    have : rowSize m 0 = 2 := by
      simp only [rowSize, hsz 0 (by decide)]
      rfl
    rw [this]
    norm_num
  rw [hres]

theorem fileZero_header :
    realMath.round (fileZero.getD 0 0) = ((1 : Nat) : Int)
      ∧ realMath.round (fileZero.getD (1 + 4) 0) = ((1 : Nat) : Int)
      ∧ (∀ j, j < 1 → realMath.round (fileZero.getD (1 + 5 + j) 0) = (((fun _ => 1) j : Nat) : Int))
      ∧ 5 + 1 + 1 + 1 * (∑ j in Finset.range 1, (fun _ : Nat => 1) j * (fun _ : Nat => 1) j)
          ≤ fileZero.length := by
  have h1 : cround (1 : ℝ) = 1 := by exact_mod_cast cround_intCast 1
  refine ⟨?_, ?_, ?_, ?_⟩
  · simpa [fileZero, realMath] using h1
  · simpa [fileZero, realMath] using h1
  · intro j hj
    have : j = 0 := by omega
    subst this
    simpa [fileZero, realMath] using h1
  · simp [fileZero]

/-- A run on the data file `fileZero` and the one-line source "1": the only renormalisation
norm is zero, and yet a numeric line is printed and 0 is returned. -/
theorem fileZero_run :
    ∃ (m : Model ℝ) (x : ℝ), loadModel realMath uninit0 fileZero = .ok m
      ∧ validChar m '1'
      ∧ normAt realMath m (symVal '1') 0 (initState m uninit0) = 0
      ∧ main realMath uninit0 2 (some fileZero) (some [['1']])
          = some { stdout := [headerOf m, .number x], exit := .returned 0 } := by
  obtain ⟨h1, h2, h3, h4⟩ := fileZero_header
  obtain ⟨m, hload, hk, _, _, _, _, hB, hsz, _, _, hmat⟩ :=
    loadModel_spec realMath uninit0 fileZero 1 1 (fun _ => 1) h1 h2 h3 h4
  have halloc : vectorsAllocate m = true := by
    apply vectorsAllocate_of_sizes
    intro j hj
    rw [hB] at hj
    rw [hsz j hj]
    decide
  have hs1 : symVal '1' = 0 := by decide
  have hv : validChar m '1' := by
    unfold validChar
    rw [hs1, hk]
    decide
  have hvalid : ∀ ch ∈ [['1']].flatten, validChar m ch := by
    intro ch hch
    simp only [List.flatten_cons, List.flatten_nil, List.append_nil, List.mem_singleton] at hch
    rw [hch]
    exact hv
  have hzero : matOf m 0 0 = 0 := by
    ext r c
    have hr : (r : Nat) < 1 := by
      have := r.isLt
      simp only [rowSize, hsz 0 (by decide)] at this
      exact this
    have hc : (c : Nat) < 1 := by
      have := c.isLt
      simp only [rowSize, hsz 0 (by decide)] at this
      exact this
    have hr0 : (r : Nat) = 0 := by omega
    have hc0 : (c : Nat) = 0 := by omega
    have h00 := hmat 0 0 0 (by decide) (by decide) (by decide)
    simp only [matOf, Matrix.of_apply, hk, hsz 0 (by decide), hr0, hc0, Matrix.zero_apply]
    simp only [Nat.zero_mul, Nat.zero_add] at h00
    simp [h00, fileZero]
  refine ⟨m, _, hload, hv, ?_, main_valid_run realMath uninit0 2 fileZero [['1']] m hload halloc
    (by decide) hvalid⟩
  rw [hs1, normAt_eq, hzero, Matrix.vecMul_zero]
  simp [enorm]

end MainLemmas

section ShortReadLemmas

end ShortReadLemmas

section LaterBatchLemmas

theorem modelAB_first_step_log (st : MulState ℝ)
    (hw : weightVec modelAB st 0 = fun _ => 1) (hl : st.log_vec_norm 0 = 0) :
    (symbolStep realMath modelAB 0 st).log_vec_norm 0 = Real.log 8 / 2 := by
  have hrow := congrArg Prod.snd (symbolStep_rowState modelAB 0 st 0 (by decide))
  have hl2 : (symbolStep realMath modelAB 0 st).log_vec_norm 0
      = (rowStep (matOf modelAB 0 0) (rowState modelAB st 0)).2 := hrow
  rw [hl2]
  simp only [rowStep, rowState, hw, hl, zero_add]
  have hv : Matrix.vecMul (fun _ => (1 : ℝ)) (matOf modelAB 0 0) = fun _ => 2 := by
    funext c
    simp only [Matrix.vecMul, Matrix.dotProduct, sum_fin_two (show rowSize modelAB 0 = 2 from rfl),
      modelAB_entry_A]
    norm_num
  rw [hv]
  unfold enorm
  simp only [sum_fin_two (show rowSize modelAB 0 = 2 from rfl)]
  rw [show (2 : ℝ) * 2 + 2 * 2 = 8 by norm_num, Real.log_sqrt (by norm_num)]

/-- The streaming pass on `modelAB` and the four lines "3", "1", "1", "1": the first batch
stops at the bad character, the second batch (the fourth line) is still processed. -/
theorem modelAB_later_batch :
    ∃ st, streamLoop realMath modelAB LINES_PER_BLOCK 5 [['3'], ['1'], ['1'], ['1']]
          (initState modelAB uninit0) = some st
      ∧ st = symbolStep realMath modelAB (symVal '1')
          { initState modelAB uninit0 with bad_char := true }
      ∧ st.bad_char = true
      ∧ (initState modelAB uninit0).log_vec_norm 0 = 0
      ∧ st.log_vec_norm 0 = Real.log 8 / 2
      ∧ st.log_vec_norm 0 ≠ (initState modelAB uninit0).log_vec_norm 0 := by
  have hs1 : symVal '1' = 0 := by decide
  have hs3 : symVal '3' = 2 := by decide
  have hk : modelAB.k_sym = 2 := rfl
  have hrun : streamLoop realMath modelAB LINES_PER_BLOCK 5 [['3'], ['1'], ['1'], ['1']]
      (initState modelAB uninit0)
      = some (symbolStep realMath modelAB (symVal '1')
          { initState modelAB uninit0 with bad_char := true }) := by
    simp [LINES_PER_BLOCK, streamLoop, readBlock, processBlock, hs1, hs3, hk]
  have hinit : (initState modelAB uninit0).log_vec_norm 0 = 0 :=
    initState_log modelAB uninit0 0 (by decide)
  have hlog : (symbolStep realMath modelAB (symVal '1')
      { initState modelAB uninit0 with bad_char := true }).log_vec_norm 0 = Real.log 8 / 2 := by
    rw [hs1]
    apply modelAB_first_step_log
    · exact initState_weightVec modelAB uninit0 0 (by decide)
    · exact hinit
  have hpos : 0 < Real.log 8 := Real.log_pos (by norm_num)
  refine ⟨_, hrun, rfl, ?_, hinit, hlog, ?_⟩
  · rw [symbolStep_bad_char]
  · rw [hlog, hinit]
    linarith

end LaterBatchLemmas

section IndependenceLemmas

theorem rowAgree_symm {α : Type} (n i : Nat) (st1 st2 : MulState α)
    (h : rowAgree n i st1 st2) : rowAgree n i st2 st1 :=
  ⟨fun c hc => (h.1 c hc).symm, h.2.symm⟩

theorem rowAgree_trans {α : Type} (n i : Nat) (st1 st2 st3 : MulState α)
    (h12 : rowAgree n i st1 st2) (h23 : rowAgree n i st2 st3) : rowAgree n i st1 st3 :=
  ⟨fun c hc => (h12.1 c hc).trans (h23.1 c hc), h12.2.trans h23.2⟩

variable {α : Type} [LinearOrderedField α]

theorem normLoop_congr (L : Libm α) (n : Nat) (vt1 vt2 : Nat → α)
    (h : ∀ c, c < n → vt1 c = vt2 c) : normLoop L n vt1 = normLoop L n vt2 := by
  unfold normLoop
  rw [forLoop_add_eq_sum, forLoop_add_eq_sum]
  congr 2
  apply Finset.sum_congr rfl
  intro c hc
  rw [h c (Finset.mem_range.mp hc)]

/-- The update of block row `i` reads only the first `mxsz_vals[i]` entries of `v_0[i]`, the
entries of the selected matrix and `log_vec_norm[i]`: the scratch vector and the other block
rows have no influence. -/
theorem blockRowStep_agree (L : Libm α) (m1 m2 : Model α) (s : Int) (i : Nat)
    (st1 st2 : MulState α) (hsz : m1.mxsz_vals i = m2.mxsz_vals i)
    (hM : ∀ r c : Nat, r < rowSize m1 i → c < rowSize m1 i →
      m1.MiP ((i : Int) * m1.k_sym + s).toNat (m1.mxsz_vals i * (r : Int) + (c : Int)).toNat
        = m2.MiP ((i : Int) * m2.k_sym + s).toNat (m2.mxsz_vals i * (r : Int) + (c : Int)).toNat)
    (h : rowAgree (rowSize m1 i) i st1 st2) :
    rowAgree (rowSize m1 i) i (blockRowStep L m1 s i st1) (blockRowStep L m2 s i st2) := by
  have hvt : ∀ c, c < rowSize m1 i →
      vecMatLoop (m1.mxsz_vals i).toNat (m1.mxsz_vals i) (st1.v_0 i)
          (m1.MiP ((i : Int) * m1.k_sym + s).toNat) st1.v_tmp c
        = vecMatLoop (m2.mxsz_vals i).toNat (m2.mxsz_vals i) (st2.v_0 i)
          (m2.MiP ((i : Int) * m2.k_sym + s).toNat) st2.v_tmp c := by
    intro c hc
    rw [vecMatLoop_apply, vecMatLoop_apply, ← hsz, if_pos hc, if_pos hc]
    apply Finset.sum_congr rfl
    intro r hr
    have hr2 := Finset.mem_range.mp hr
    rw [h.1 r hr2, hM r c hr2 hc, ← hsz]
  have hnorm : normLoop L (m1.mxsz_vals i).toNat
        (vecMatLoop (m1.mxsz_vals i).toNat (m1.mxsz_vals i) (st1.v_0 i)
          (m1.MiP ((i : Int) * m1.k_sym + s).toNat) st1.v_tmp)
      = normLoop L (m2.mxsz_vals i).toNat
        (vecMatLoop (m2.mxsz_vals i).toNat (m2.mxsz_vals i) (st2.v_0 i)
          (m2.MiP ((i : Int) * m2.k_sym + s).toNat) st2.v_tmp) := by
    rw [← hsz]
    apply normLoop_congr
    intro c hc
    have := hvt c hc
    rw [← hsz] at this
    exact this
  refine ⟨?_, ?_⟩
  · intro c hc
    simp only [blockRowStep, Function.update_same, divLoop, forLoop_update_apply]
    rw [← hsz, if_pos hc, if_pos hc]
    have h1 := hvt c hc
    have h2 := hnorm
    rw [← hsz] at h1 h2
    rw [h1, h2]
  · simp only [blockRowStep, Function.update_same]
    rw [hnorm, h.2]

theorem symbolLoop_frame (L : Libm α) (m : Model α) (s : Int) (st : MulState α) (b j : Nat)
    (hj : b ≤ j) :
    (forLoop b (fun mm st => blockRowStep L m s mm st) st).v_0 j = st.v_0 j
      ∧ (forLoop b (fun mm st => blockRowStep L m s mm st) st).log_vec_norm j
          = st.log_vec_norm j := by
  induction b with
  | zero => exact ⟨rfl, rfl⟩
  | succ b ih =>
    simp only [forLoop]
    have hne : j ≠ b := by omega
    have h1 := blockRowStep_other L m s b j
      (forLoop b (fun mm st => blockRowStep L m s mm st) st) hne
    have h2 := ih (by omega)
    exact ⟨h1.1.trans h2.1, h1.2.trans h2.2⟩

theorem symbolLoop_row (L : Libm α) (m : Model α) (s : Int) (st : MulState α) (i b : Nat)
    (hb : i < b) :
    rowAgree (rowSize m i) i (forLoop b (fun mm st => blockRowStep L m s mm st) st)
      (blockRowStep L m s i st) := by
  induction b with
  | zero => omega
  | succ b ih =>
    simp only [forLoop]
    by_cases hib : i = b
    · subst hib
      apply blockRowStep_agree L m m s i _ st rfl (fun _ _ _ _ => rfl)
      have hf := symbolLoop_frame L m s st i i le_rfl
      exact ⟨fun c _ => by rw [hf.1], hf.2⟩
    · have h1 := blockRowStep_other L m s b i
        (forLoop b (fun mm st => blockRowStep L m s mm st) st) hib
      have h2 := ih (by omega)
      exact ⟨fun c hc => by rw [h1.1]; exact h2.1 c hc, by rw [h1.2]; exact h2.2⟩

theorem symbolStep_agree (L : Libm α) (m1 m2 : Model α) (s : Int) (i : Nat)
    (st1 st2 : MulState α) (hi1 : (i : Int) < m1.nbrows) (hi2 : (i : Int) < m2.nbrows)
    (hsz : m1.mxsz_vals i = m2.mxsz_vals i)
    (hM : ∀ r c : Nat, r < rowSize m1 i → c < rowSize m1 i →
      m1.MiP ((i : Int) * m1.k_sym + s).toNat (m1.mxsz_vals i * (r : Int) + (c : Int)).toNat
        = m2.MiP ((i : Int) * m2.k_sym + s).toNat (m2.mxsz_vals i * (r : Int) + (c : Int)).toNat)
    (h : rowAgree (rowSize m1 i) i st1 st2) :
    rowAgree (rowSize m1 i) i (symbolStep L m1 s st1) (symbolStep L m2 s st2) := by
  have hn : rowSize m2 i = rowSize m1 i := by simp only [rowSize, hsz]
  have h1 := symbolLoop_row L m1 s st1 i m1.nbrows.toNat (by omega)
  have h2 := symbolLoop_row L m2 s st2 i m2.nbrows.toNat (by omega)
  rw [hn] at h2
  have h3 := blockRowStep_agree L m1 m2 s i st1 st2 hsz hM h
  exact rowAgree_trans _ _ _ _ _ (rowAgree_trans _ _ _ _ _ h1 h3) (rowAgree_symm _ _ _ _ h2)

theorem feedSymbols_agree (L : Libm α) (m1 m2 : Model α) (syms : List Int) (i : Nat)
    (st1 st2 : MulState α) (hi1 : (i : Int) < m1.nbrows) (hi2 : (i : Int) < m2.nbrows)
    (hsz : m1.mxsz_vals i = m2.mxsz_vals i)
    (hM : ∀ s ∈ syms, ∀ r c : Nat, r < rowSize m1 i → c < rowSize m1 i →
      m1.MiP ((i : Int) * m1.k_sym + s).toNat (m1.mxsz_vals i * (r : Int) + (c : Int)).toNat
        = m2.MiP ((i : Int) * m2.k_sym + s).toNat (m2.mxsz_vals i * (r : Int) + (c : Int)).toNat)
    (h : rowAgree (rowSize m1 i) i st1 st2) :
    rowAgree (rowSize m1 i) i (feedSymbols L m1 syms st1) (feedSymbols L m2 syms st2) := by
  induction syms generalizing st1 st2 with
  | nil => exact h
  | cons s rest ih =>
    simp only [feedSymbols, List.foldl_cons] at ih ⊢
    exact ih _ _ (fun s2 hs2 => hM s2 (List.mem_cons_of_mem _ hs2))
      (symbolStep_agree L m1 m2 s i st1 st2 hi1 hi2 hsz (hM s (List.mem_cons_self _ _)) h)

theorem initState_agree (m1 m2 : Model α) (u1 u2 : Uninit α) (i : Nat)
    (hi1 : (i : Int) < m1.nbrows) (hi2 : (i : Int) < m2.nbrows)
    (hsz : m1.mxsz_vals i = m2.mxsz_vals i) :
    rowAgree (rowSize m1 i) i (initState m1 u1) (initState m2 u2) := by
  refine ⟨?_, ?_⟩
  · intro c hc
    rw [initState_v_0 m1 u1 i c hi1 hc,
      initState_v_0 m2 u2 i c hi2 (by simp only [rowSize, ← hsz]; exact hc)]
  · rw [initState_log m1 u1 i hi1, initState_log m2 u2 i hi2]

theorem finalLogNorm_agree (L : Libm α) (m1 m2 : Model α) (st1 st2 : MulState α)
    (max1 max2 : α) (i : Nat) (hi1 : (i : Int) < m1.nbrows) (hi2 : (i : Int) < m2.nbrows)
    (hsz : m1.mxsz_vals i = m2.mxsz_vals i) (h : rowAgree (rowSize m1 i) i st1 st2) :
    finalLogNorm L m1 st1 max1 i = finalLogNorm L m2 st2 max2 i := by
  rw [finalLogNorm_eq L m1 st1 max1 i hi1, finalLogNorm_eq L m2 st2 max2 i hi2,
    ← tmp_sum_eq_projection, ← tmp_sum_eq_projection, forLoop_add_eq_sum, forLoop_add_eq_sum,
    ← hsz, h.2]
  congr 3
  apply Finset.sum_congr rfl
  intro c hc
  exact h.1 c (Finset.mem_range.mp hc)

/-- Block-row independence of a whole run over valid symbols. -/
theorem independent_run (L : Libm α) (m1 m2 : Model α) (u1 u2 : Uninit α)
    (lines : List (List Char)) (i : Nat) (hi1 : (i : Int) < m1.nbrows)
    (hi2 : (i : Int) < m2.nbrows) (hk : m1.k_sym = m2.k_sym)
    (hsz : m1.mxsz_vals i = m2.mxsz_vals i)
    (hM : ∀ s : Int, 0 ≤ s → s < m1.k_sym → ∀ r c : Nat, r < rowSize m1 i → c < rowSize m1 i →
      m1.MiP ((i : Int) * m1.k_sym + s).toNat (m1.mxsz_vals i * (r : Int) + (c : Int)).toNat
        = m2.MiP ((i : Int) * m2.k_sym + s).toNat (m2.mxsz_vals i * (r : Int) + (c : Int)).toNat)
    (hvalid : ∀ ch ∈ lines.flatten, validChar m1 ch) :
    ∃ st1 st2,
      streamLoop L m1 LINES_PER_BLOCK (lines.length + 1) lines (initState m1 u1) = some st1
      ∧ streamLoop L m2 LINES_PER_BLOCK (lines.length + 1) lines (initState m2 u2) = some st2
      ∧ (∀ c : Nat, (c : Int) < m1.mxsz_vals i → st1.v_0 i c = st2.v_0 i c)
      ∧ st1.log_vec_norm i = st2.log_vec_norm i
      ∧ finalLogNorm L m1 st1 u1.max_br_nrm i = finalLogNorm L m2 st2 u2.max_br_nrm i := by
  have hvalid2 : ∀ ch ∈ lines.flatten, validChar m2 ch := by
    intro ch hch
    have := hvalid ch hch
    unfold validChar at this ⊢
    rw [← hk]
    exact this
  have hag := feedSymbols_agree L m1 m2 (lines.flatten.map symVal) i (initState m1 u1)
    (initState m2 u2) hi1 hi2 hsz
    (fun s hs => hM s (validChar_symVal m1 _ hvalid s hs).1 (validChar_symVal m1 _ hvalid s hs).2)
    (initState_agree m1 m2 u1 u2 i hi1 hi2 hsz)
  refine ⟨feedSymbols L m1 (lines.flatten.map symVal) (initState m1 u1),
    feedSymbols L m2 (lines.flatten.map symVal) (initState m2 u2), ?_, ?_, ?_, hag.2, ?_⟩
  · exact streamLoop_valid L m1 LINES_PER_BLOCK (by decide) _ lines _ (by omega) hvalid
  · exact streamLoop_valid L m2 LINES_PER_BLOCK (by decide) _ lines _ (by omega) hvalid2
  · intro c hc
    exact hag.1 c (by simp only [rowSize]; omega)
  · exact finalLogNorm_agree L m1 m2 _ _ _ _ i hi1 hi2 hsz hag

end IndependenceLemmas

section SharedRowLemmas

theorem modelAB_modelAB2_row0 :
    ∀ s : Int, 0 ≤ s → s < modelAB.k_sym → ∀ r c : Nat, r < rowSize modelAB 0 →
      c < rowSize modelAB 0 →
      modelAB.MiP (((0 : Nat) : Int) * modelAB.k_sym + s).toNat
          (modelAB.mxsz_vals 0 * (r : Int) + (c : Int)).toNat
        = modelAB2.MiP (((0 : Nat) : Int) * modelAB2.k_sym + s).toNat
          (modelAB2.mxsz_vals 0 * (r : Int) + (c : Int)).toNat := by
  intro s h0 h1 r c _ _
  have hk : modelAB.k_sym = 2 := rfl
  have hs : s = 0 ∨ s = 1 := by omega
  rcases hs with rfl | rfl <;> simp [modelAB, modelAB2]

end SharedRowLemmas

section BoundsLemmas

theorem readSizes_inv {α : Type} [LinearOrderedField α] (L : Libm α) (n : Nat)
    (arr : Nat → Int) (max0 : Int) (file : List α) (r : (Nat → Int) × Int × List α)
    (h : readSizes L n (arr, max0, file) = some r) :
    max0 ≤ r.2.1 ∧ (∀ j, j < n → r.1 j ≤ r.2.1) ∧ (r.2.1 = max0 ∨ ∃ j, j < n ∧ r.2.1 = r.1 j) := by
  induction n generalizing r with
  | zero =>
    simp only [readSizes, forLoopM, Option.some.injEq] at h
    subst h
    exact ⟨le_rfl, fun j hj => by omega, Or.inl rfl⟩
  | succ n ih =>
    rw [readSizes_succ] at h
    obtain ⟨r0, hr0, hbody⟩ := Option.bind_eq_some.mp h
    obtain ⟨h1, h2, h3⟩ := ih r0 hr0
    rcases hf : r0.2.2 with _ | ⟨tmp, rest⟩
    · rw [hf] at hbody
      cases hbody
    · rw [hf] at hbody
      simp only [Function.update_same, Option.some.injEq] at hbody
      subst hbody
      simp only []
      refine ⟨?_, ?_, ?_⟩
      · split <;> omega
      · intro j hj
        by_cases hjn : j = n
        · subst hjn
          rw [Function.update_same]
          split <;> omega
        · rw [Function.update_noteq hjn]
          have := h2 j (by omega)
          split <;> omega
      · by_cases hgt : L.round tmp > r0.2.1
        · rw [if_pos hgt]
          exact Or.inr ⟨n, by omega, by rw [Function.update_same]⟩
        · rw [if_neg hgt]
          rcases h3 with h0 | ⟨j, hj, hjm⟩
          · exact Or.inl h0
          · refine Or.inr ⟨j, by omega, ?_⟩
            rw [Function.update_noteq (by omega), hjm]

/-- What a successful reading phase guarantees about the counts it has read. -/
theorem loadModel_ok_inv {α : Type} [LinearOrderedField α] (L : Libm α) (u : Uninit α)
    (file : List α) (m : Model α) (h : loadModel L u file = .ok m) :
    0 ≤ m.k_sym ∧ 0 ≤ m.nbrows ∧ 0 ≤ m.max_mxsz
      ∧ (∀ j, j < m.nbrows.toNat → m.mxsz_vals j ≤ m.max_mxsz)
      ∧ (m.max_mxsz = 0 ∨ ∃ j, j < m.nbrows.toNat ∧ m.max_mxsz = m.mxsz_vals j) := by
  unfold loadModel at h
  split at h
  · cases h
  · rename_i tmp file
    simp only [] at h
    split at h
    · cases h
    · rename_i hk
      split at h
      · cases h
      · cases h
      · cases h
      · cases h
      · cases h
      · rename_i di_vals tmp_hk delta tmp_ps tmp_nb file2 hshift
        split at h
        · cases h
        · rename_i hB
          split at h
          · cases h
          · rename_i mxsz_vals max_mxsz file3 hsizes
            split at h
            · cases h
            · split at h
              · cases h
              · rename_i MiP file4 hmat
                simp only [Except.ok.injEq] at h
                subst h
                obtain ⟨h1, h2, h3⟩ := readSizes_inv L _ _ _ _ _ hsizes
                refine ⟨?_, ?_, h1, h2, h3⟩
                · show 0 ≤ L.round tmp
                  omega
                · show 0 ≤ L.round tmp_nb
                  omega

end BoundsLemmas

section IndexLemmas

/-- Every index formed by the update of block row `mm` for an accepted symbol lies inside the
length asked for when the array was allocated. -/
theorem index_bounds {α : Type} [LinearOrderedField α] (L : Libm α) (u : Uninit α)
    (file : List α) (m : Model α) (hload : loadModel L u file = .ok m) (s : Int) (hs0 : 0 ≤ s)
    (hs1 : s < m.k_sym) (mm r c : Nat) (hmm : (mm : Int) < m.nbrows)
    (hr : (r : Int) < m.mxsz_vals mm) (hc : (c : Int) < m.mxsz_vals mm) :
    0 ≤ (mm : Int) * m.k_sym + s ∧ (mm : Int) * m.k_sym + s < tableLen m
      ∧ 0 ≤ m.mxsz_vals mm * (r : Int) + (c : Int)
      ∧ m.mxsz_vals mm * (r : Int) + (c : Int) < matrixLen m mm
      ∧ (r : Int) < vectorLen m mm ∧ (c : Int) < vectorLen m mm
      ∧ (c : Int) < scratchLen m
      ∧ (∀ j : Nat, (j : Int) < m.nbrows → m.mxsz_vals j ≤ m.max_mxsz)
      ∧ ∃ j : Nat, (j : Int) < m.nbrows ∧ m.max_mxsz = m.mxsz_vals j := by
  obtain ⟨_, _, _, hall, hex⟩ := loadModel_ok_inv L u file m hload
  have hk : (0 : Int) ≤ m.k_sym := by omega
  have hsz : (0 : Int) ≤ m.mxsz_vals mm := by omega
  have hmmk : (0 : Int) ≤ (mm : Int) * m.k_sym := mul_nonneg (by omega) hk
  have hszr : (0 : Int) ≤ m.mxsz_vals mm * (r : Int) := mul_nonneg hsz (by omega)
  have h1 : ((mm : Int) + 1) * m.k_sym ≤ m.nbrows * m.k_sym :=
    mul_le_mul_of_nonneg_right (by omega) hk
  have h1e : ((mm : Int) + 1) * m.k_sym = (mm : Int) * m.k_sym + m.k_sym := by ring
  have h2 : m.mxsz_vals mm * ((r : Int) + 1) ≤ m.mxsz_vals mm * m.mxsz_vals mm :=
    mul_le_mul_of_nonneg_left (by omega) hsz
  have h2e : m.mxsz_vals mm * ((r : Int) + 1) = m.mxsz_vals mm * (r : Int) + m.mxsz_vals mm := by
    ring
  have hmax : m.mxsz_vals mm ≤ m.max_mxsz := hall mm (by omega)
  refine ⟨by omega, ?_, by omega, ?_, hr, hc, ?_, ?_, ?_⟩
  · unfold tableLen
    omega
  · unfold matrixLen
    omega
  · unfold scratchLen
    omega
  · intro j hj
    exact hall j (by omega)
  · rcases hex with h0 | ⟨j, hj, hjm⟩
    · omega
    · exact ⟨j, by omega, hjm⟩

end IndexLemmas

section CharLemmas

theorem char_toNat_lt (ch : Char) : ch.toNat < 1114112 := by
  have h := ch.valid
  unfold UInt32.isValidChar Nat.isValidChar at h
  unfold Char.toNat
  omega

theorem charVal_one : charVal '1' = 49 := by decide

theorem leadByte_lt (ch : Char) : leadByte ch < 256 := by
  have h := char_toNat_lt ch
  unfold leadByte
  split_ifs <;> omega

theorem leadByte_ascii (ch : Char) (h : ch.toNat < 128) : leadByte ch = ch.toNat := by
  unfold leadByte
  rw [if_pos (by omega)]

theorem leadByte_high (ch : Char) (h : 128 ≤ ch.toNat) : 128 ≤ leadByte ch := by
  unfold leadByte
  split_ifs <;> omega

theorem charVal_ascii (ch : Char) (h : ch.toNat < 128) : charVal ch = (ch.toNat : Int) := by
  unfold charVal
  rw [leadByte_ascii ch h, if_pos h]

theorem charVal_high (ch : Char) (h1 : 128 ≤ ch.toNat) (h2 : ch.toNat < 256) :
    charVal ch = (ch.toNat : Int) - 256 := by
  have hb : leadByte ch = ch.toNat := by
    unfold leadByte
    rw [if_pos h2]
  unfold charVal
  rw [hb, if_neg (by omega)]

theorem charVal_neg (ch : Char) (h : 128 ≤ ch.toNat) : charVal ch < 0 := by
  have h1 := leadByte_high ch h
  have h2 := leadByte_lt ch
  unfold charVal
  rw [if_neg (by omega)]
  omega

theorem charVal_range (ch : Char) : -128 ≤ charVal ch ∧ charVal ch ≤ 127 := by
  have h2 := leadByte_lt ch
  unfold charVal
  split_ifs <;> omega

theorem symVal_examples :
    symVal '1' = 0 ∧ symVal '9' = 8 ∧ symVal '0' = -1 ∧ symVal (Char.ofNat 233) = -72
      ∧ symVal (Char.ofNat 305) = -109 := by decide

end CharLemmas

section MathNormLemmas

theorem enorm_zero_vec {n : Nat} : enorm (0 : Fin n → ℝ) = 0 := by
  simp [enorm]

theorem ne_zero_of_enorm {n : Nat} (w : Fin n → ℝ) (h : enorm w ≠ 0) : w ≠ 0 := by
  intro h0
  apply h
  rw [h0, enorm_zero_vec]

/-- A run of renormalised updates whose unnormalised vector does not vanish meets only non-zero
norms. -/
theorem rowNormsNonzero_of_chain {n : Nat} (Ms : List (Matrix (Fin n) (Fin n) ℝ))
    (p : (Fin n → ℝ) × ℝ) (κ : ℝ) (hκ : 0 < κ)
    (hne : Ms.foldl (fun w M => Matrix.vecMul w M) (κ • p.1) ≠ 0) : rowNormsNonzero Ms p := by
  induction Ms generalizing p κ with
  | nil => trivial
  | cons M rest ih =>
    simp only [List.foldl_cons] at hne
    have hw : Matrix.vecMul p.1 M ≠ 0 := by
      intro h0
      apply hne
      rw [Matrix.vecMul_smul, h0, smul_zero, foldl_vecMul_zero]
    have hpos := enorm_pos _ hw
    have hstep : (κ * enorm (Matrix.vecMul p.1 M)) • (rowStep M p).1
        = Matrix.vecMul (κ • p.1) M := by
      simp only [rowStep, Matrix.vecMul_smul, smul_smul]
      rw [mul_assoc, mul_inv_cancel₀ hpos.ne', mul_one]
    exact ⟨hpos.ne', ih (rowStep M p) (κ * enorm (Matrix.vecMul p.1 M)) (mul_pos hκ hpos)
      (by rw [hstep]; exact hne)⟩

/-- When the unnormalised chain vector of block row `i` has a non-zero Euclidean norm, every
value `norm_v_0` takes for that block row during the run is non-zero. -/
theorem normsNonzero_of_chain (m : Model ℝ) (u : Uninit ℝ) (syms : List Int) (i : Nat)
    (hi : (i : Int) < m.nbrows) (h : enorm (chainVec m i syms) ≠ 0) :
    normsNonzero realMath m i syms (initState m u) := by
  rw [normsNonzero_iff m i hi]
  unfold rowState
  rw [initState_weightVec m u i hi, initState_log m u i hi]
  apply rowNormsNonzero_of_chain _ _ 1 one_pos
  rw [one_smul, ← chainVec_eq_foldl]
  exact ne_zero_of_enorm _ h

/-- The same from the norms of the unnormalised vectors after each of the updates. -/
theorem normsNonzero_of_prefix_norms (m : Model ℝ) (u : Uninit ℝ) (chars : List Char) (i : Nat)
    (hi : (i : Int) < m.nbrows)
    (h : ∀ t, 1 ≤ t → t ≤ chars.length →
      enorm (chainVec m i ((chars.take t).map symVal)) ≠ 0) :
    normsNonzero realMath m i (chars.map symVal) (initState m u) := by
  cases chars with
  | nil => trivial
  | cons ch rest =>
    have := h (ch :: rest).length (by simp) le_rfl
    rw [List.take_length] at this
    exact normsNonzero_of_chain m u _ i hi this

/-- One update of block row `i` from a state in which `v_0[i] * M` has a non-zero Euclidean norm:
`norm_v_0` is that norm and the new weight vector has norm 1. -/
theorem symbolStep_unit_norm_of_enorm (m : Model ℝ) (s : Int) (st : MulState ℝ) (i : Nat)
    (hi : (i : Int) < m.nbrows)
    (h : enorm (Matrix.vecMul (weightVec m st i) (matOf m i s)) ≠ 0) :
    normAt realMath m s i st = enorm (Matrix.vecMul (weightVec m st i) (matOf m i s))
      ∧ enorm (weightVec m (symbolStep realMath m s st) i) = 1 :=
  ⟨normAt_eq m s i st, symbolStep_unit_norm m s st i hi (by rw [normAt_eq]; exact h)⟩

/-- One update keeps the scale-tracking relation when the tracked vector `w` times the matrix
has a non-zero Euclidean norm; `norm_v_0` is then non-zero. -/
theorem symbolStep_scale_tracking_of_enorm (m : Model ℝ) (s : Int) (st : MulState ℝ) (i : Nat)
    (hi : (i : Int) < m.nbrows) (w : Fin (rowSize m i) → ℝ)
    (hinv : ∀ c, Real.exp (st.log_vec_norm i) * weightVec m st i c = w c)
    (h : enorm (Matrix.vecMul w (matOf m i s)) ≠ 0) :
    normAt realMath m s i st ≠ 0
      ∧ ∀ c, Real.exp ((symbolStep realMath m s st).log_vec_norm i)
          * weightVec m (symbolStep realMath m s st) i c
        = Matrix.vecMul w (matOf m i s) c := by
  have hwv : w = Real.exp (st.log_vec_norm i) • weightVec m st i := by
    funext c
    rw [← hinv c]
    rfl
  have hn : normAt realMath m s i st ≠ 0 := by
    rw [normAt_eq]
    intro h0
    apply h
    rw [hwv, Matrix.vecMul_smul, enorm_smul _ (Real.exp_pos _).le, h0, mul_zero]
  exact ⟨hn, symbolStep_scale_tracking m s st i hi w hn hinv⟩

/-- The scale-tracking relation along a run over valid characters whose unnormalised vectors
have non-zero norms. -/
theorem processBlock_scale_tracking (m : Model ℝ) (u : Uninit ℝ) (chars : List Char) (i : Nat)
    (hi : (i : Int) < m.nbrows) (hvalid : ∀ ch ∈ chars, validChar m ch)
    (h : ∀ t, 1 ≤ t → t ≤ chars.length →
      enorm (chainVec m i ((chars.take t).map symVal)) ≠ 0) :
    normsNonzero realMath m i (chars.map symVal) (initState m u)
      ∧ ∀ c, Real.exp ((processBlock realMath m chars (initState m u)).log_vec_norm i)
          * weightVec m (processBlock realMath m chars (initState m u)) i c
        = chainVec m i (chars.map symVal) c := by
  have hnz := normsNonzero_of_prefix_norms m u chars i hi h
  refine ⟨hnz, ?_⟩
  rw [processBlock_valid realMath m chars _ hvalid]
  exact feed_scale_tracking m u _ i hi hnz

theorem modelAB_chain_norm (syms : List Int) : enorm (chainVec modelAB 0 syms) ≠ 0 := by
  have hpos : ∀ c, 0 < chainVec modelAB 0 syms c := by
    rw [chainVec_eq_foldl]
    apply foldl_vecMul_pos (by decide) _ _ _ (fun _ => one_pos)
    intro M hM r c
    obtain ⟨s, _, rfl⟩ := List.mem_map.mp hM
    exact modelAB_pos s r c
  apply (enorm_pos _ _).ne'
  intro h0
  have := hpos ⟨0, by decide⟩
  rw [h0] at this
  exact lt_irrefl _ this

theorem modelAB_init_tracking (c : Fin (rowSize modelAB 0)) :
    Real.exp ((initState modelAB uninit0).log_vec_norm 0)
        * weightVec modelAB (initState modelAB uninit0) 0 c
      = (fun _ => (1 : ℝ)) c := by
  rw [initState_log modelAB uninit0 0 (by decide),
    initState_weightVec modelAB uninit0 0 (by decide)]
  simp

theorem modelAB_ones_norm :
    enorm (Matrix.vecMul (fun _ => (1 : ℝ)) (matOf modelAB 0 (symVal '1'))) ≠ 0 :=
  modelAB_chain_norm [symVal '1']

theorem modelAB_first_norm :
    enorm (Matrix.vecMul (weightVec modelAB (initState modelAB uninit0) 0)
      (matOf modelAB 0 (symVal '1'))) ≠ 0 := by
  rw [initState_weightVec modelAB uninit0 0 (by decide)]
  exact modelAB_ones_norm

theorem modelAB_valid_chars :
    ∀ ch ∈ ['1', '2'], validChar modelAB ch := by
  intro ch hch
  simp only [List.mem_cons, List.mem_singleton, List.not_mem_nil, or_false] at hch
  rcases hch with rfl | rfl <;> (unfold validChar symVal modelAB; decide)

/-- Conversely, a non-empty run in which every `norm_v_0` of block row `i` is non-zero has an
unnormalised chain vector of non-zero Euclidean norm: the guards on the computed norms and on
the mathematical norms say the same. -/
theorem chain_norm_of_normsNonzero (m : Model ℝ) (u : Uninit ℝ) (syms : List Int) (i : Nat)
    (hi : (i : Int) < m.nbrows) (hne : syms ≠ [])
    (hnz : normsNonzero realMath m i syms (initState m u)) :
    enorm (chainVec m i syms) ≠ 0 := by
  have htrack := feed_scale_tracking m u syms i hi hnz
  have hvec : chainVec m i syms
      = Real.exp ((feedSymbols realMath m syms (initState m u)).log_vec_norm i)
          • weightVec m (feedSymbols realMath m syms (initState m u)) i := by
    funext c
    rw [← htrack c]
    rfl
  have hunit : enorm (weightVec m (feedSymbols realMath m syms (initState m u)) i) = 1 := by
    rcases List.eq_nil_or_concat syms with h | ⟨a, s, h⟩
    · exact absurd h hne
    · rw [List.concat_eq_append] at h
      subst h
      rw [normsNonzero_append] at hnz
      rw [feedSymbols_append]
      exact symbolStep_unit_norm m s _ i hi hnz.2.1
  rw [hvec, enorm_smul _ (Real.exp_pos _).le, hunit, mul_one]
  exact (Real.exp_pos _).ne'

theorem prefix_norms_of_normsNonzero (m : Model ℝ) (u : Uninit ℝ) (chars : List Char) (i : Nat)
    (hi : (i : Int) < m.nbrows)
    (hnz : normsNonzero realMath m i (chars.map symVal) (initState m u)) :
    ∀ t, 1 ≤ t → t ≤ chars.length →
      enorm (chainVec m i ((chars.take t).map symVal)) ≠ 0 := by
  intro t h1 h2
  apply chain_norm_of_normsNonzero m u _ i hi
  · intro h0
    have hlen := congrArg List.length h0
    simp only [List.length_map, List.length_take, List.length_nil] at hlen
    omega
  · exact normsNonzero_take m i chars t _ hnz

end MathNormLemmas

section CastLemmas

theorem castInt_of_fits (z : Int) (h : fitsInt z) : castInt z = z := by
  unfold castInt
  exact if_pos h

theorem castLong_of_fits (z : Int) (h : fitsLong z) : castLong z = z := by
  unfold castLong
  exact if_pos h

theorem castInt_out_of_range (z : Int) (h : ¬ fitsInt z) : castInt z = -2147483648 := by
  unfold castInt
  exact if_neg h

theorem castLong_out_of_range (z : Int) (h : ¬ fitsLong z) :
    castLong z = -9223372036854775808 := by
  unfold castLong
  exact if_neg h

theorem fileAB_values :
    cround (fileAB.getD 1 0) = 1 ∧ cround (fileAB.getD 2 0) = 1 ∧ cround (fileAB.getD 3 0) = 2
      ∧ cround (fileAB.getD 5 0) = 0 := by
  have h2 : cround (2 : ℝ) = 2 := by exact_mod_cast cround_intCast 2
  have h1 : cround (1 : ℝ) = 1 := by exact_mod_cast cround_intCast 1
  have h0 : cround (0 : ℝ) = 0 := by exact_mod_cast cround_intCast 0
  refine ⟨?_, ?_, ?_, ?_⟩
  · simpa [fileAB] using h1
  · simpa [fileAB] using h1
  · simpa [fileAB] using h2
  · simpa [fileAB] using h0

/-- The header values of `fileAB` are held by the types the program converts them to. -/
theorem fileAB_ranges :
    fitsInt ((2 : Nat) : Int)
      ∧ (∀ i, i < 2 → fitsLong (cround (fileAB.getD (1 + i) 0)))
      ∧ fitsLong (cround (fileAB.getD (2 + 1) 0))
      ∧ fitsInt (cround (fileAB.getD (2 + 3) 0))
      ∧ fitsLong ((1 : Nat) : Int)
      ∧ (∀ j, j < 1 → fitsLong (((fun _ => 2) j : Nat) : Int)
          ∧ fitsLong ((((fun _ => 2) j : Nat) : Int) * (((fun _ => 2) j : Nat) : Int)))
      ∧ fitsLong (((1 : Nat) : Int) * ((2 : Nat) : Int)) := by
  obtain ⟨v1, v2, v3, v5⟩ := fileAB_values
  refine ⟨by unfold fitsInt; decide, ?_, ?_, ?_, by unfold fitsLong; decide, ?_,
    by unfold fitsLong; decide⟩
  · intro i hi
    have : i = 0 ∨ i = 1 := by omega
    rcases this with rfl | rfl
    · rw [show 1 + 0 = 1 from rfl, v1]; unfold fitsLong; decide
    · rw [show 1 + 1 = 2 from rfl, v2]; unfold fitsLong; decide
  · rw [show 2 + 1 = 3 from rfl, v3]; unfold fitsLong; decide
  · rw [show 2 + 3 = 5 from rfl, v5]; unfold fitsInt; decide
  · intro j _
    constructor <;> (unfold fitsLong; simp only []; decide)

end CastLemmas

/-! ## Claims -/

section Claims

/-- C1. For a model whose matrices of block row `i` have strictly positive entries and a symbol
source all of whose characters are valid symbols, the streaming pass ends without `bad_char` and
the finalised log-norm of block row `i` is the logarithm of the sum of all entries of the product
of the selected matrices in arrival order; the same value is the logarithm of the sum of the
entries of the right-to-left column-vector evaluation `M_1 (... (M_n ones))`. -/
theorem final_log_norm_eq_log_entry_sum (m : Model ℝ) (u : Uninit ℝ)
    (lines : List (List Char)) (i : Nat) (hi : (i : Int) < m.nbrows)
    (hpos : ∀ s : Int, 0 ≤ s → s < m.k_sym → ∀ r c, 0 < matOf m i s r c)
    (hvalid : ∀ ch ∈ lines.flatten, validChar m ch) :
    ∃ st, streamLoop realMath m LINES_PER_BLOCK (lines.length + 1) lines (initState m u) = some st
      ∧ st.bad_char = false
      ∧ finalLogNorm realMath m st u.max_br_nrm i
          = Real.log (∑ r, ∑ c, (lines.flatten.map (fun ch => matOf m i (symVal ch))).prod r c)
      ∧ finalLogNorm realMath m st u.max_br_nrm i
          = Real.log (∑ r, (lines.flatten.map (fun ch => matOf m i (symVal ch))).foldr
              (fun M w => Matrix.mulVec M w) (fun _ => 1) r) := by
  have hmap : lines.flatten.map (fun ch => matOf m i (symVal ch))
      = (lines.flatten.map symVal).map (matOf m i) := by
    rw [List.map_map]; rfl
  have hmain : finalLogNorm realMath m
      (feedSymbols realMath m (lines.flatten.map symVal) (initState m u)) u.max_br_nrm i
        = Real.log (∑ r, ∑ c,
            (lines.flatten.map (fun ch => matOf m i (symVal ch))).prod r c) := by
    rw [hmap, ← sum_chainVec]
    rcases Nat.eq_zero_or_pos (rowSize m i) with h0 | hn
    · rw [finalLogNorm_feed_size_zero m u _ i _ hi h0, sum_fin_zero h0, Real.log_zero]
    · apply finalLogNorm_feed m u _ i _ hi
      apply ne_of_gt
      apply Finset.sum_pos
      · intro c _
        rw [chainVec_eq_foldl]
        apply foldl_vecMul_pos hn _ _ _ (fun _ => one_pos)
        intro M hM r c
        obtain ⟨s, hs, rfl⟩ := List.mem_map.mp hM
        obtain ⟨ch, hch, rfl⟩ := List.mem_map.mp hs
        exact hpos _ (hvalid ch hch).1 (hvalid ch hch).2 r c
      · exact ⟨⟨0, hn⟩, Finset.mem_univ _⟩
  refine ⟨feedSymbols realMath m (lines.flatten.map symVal) (initState m u), ?_, ?_, hmain, ?_⟩
  · exact streamLoop_valid realMath m LINES_PER_BLOCK (by decide) _ lines _ (by omega) hvalid
  · rw [feedSymbols_bad_char, initState_bad_char]
  · rw [hmain, foldr_mulVec_eq_prod, sum_mulVec_ones]

/-- Witness for C1: the model `modelAB` and the one-line source "12". -/
theorem final_log_norm_eq_log_entry_sum_witness :
    ((0 : Nat) : Int) < modelAB.nbrows
      ∧ (∀ s : Int, 0 ≤ s → s < modelAB.k_sym → ∀ r c, 0 < matOf modelAB 0 s r c)
      ∧ (∀ ch ∈ [['1', '2']].flatten, validChar modelAB ch)
      ∧ ∃ st, streamLoop realMath modelAB LINES_PER_BLOCK ([['1', '2']].length + 1) [['1', '2']]
            (initState modelAB uninit0) = some st
          ∧ st.bad_char = false
          ∧ finalLogNorm realMath modelAB st uninit0.max_br_nrm 0
              = Real.log (∑ r, ∑ c,
                  ([['1', '2']].flatten.map (fun ch => matOf modelAB 0 (symVal ch))).prod r c)
          ∧ finalLogNorm realMath modelAB st uninit0.max_br_nrm 0
              = Real.log (∑ r, ([['1', '2']].flatten.map
                  (fun ch => matOf modelAB 0 (symVal ch))).foldr
                    (fun M w => Matrix.mulVec M w) (fun _ => 1) r) :=
  ⟨by decide, fun s _ _ r c => modelAB_pos s r c, modelAB_valid_12,
    final_log_norm_eq_log_entry_sum modelAB uninit0 [['1', '2']] 0 (by decide)
      (fun s _ _ r c => modelAB_pos s r c) modelAB_valid_12⟩

/-- C2. For a model with at least one block row and any accumulator state, the value assigned
to `log_en_nrm` is `m + ln(sum_i exp(finalLogNorm[i] - m))`, where `m = max_br_nrm` is the
largest finalised log-norm, and this equals `ln(sum_i exp(finalLogNorm[i]))`. -/
theorem result_eq_log_sum_exp (m : Model ℝ) (st : MulState ℝ) (max0 : ℝ) (hB : 1 ≤ m.nbrows) :
    (∀ i : Nat, (i : Int) < m.nbrows →
        finalLogNorm realMath m st max0 i ≤ (finalizeLoop realMath m st max0).2)
      ∧ (∃ i : Nat, (i : Int) < m.nbrows
          ∧ (finalizeLoop realMath m st max0).2 = finalLogNorm realMath m st max0 i)
      ∧ resultOf realMath m st max0
          = (finalizeLoop realMath m st max0).2
            + Real.log (∑ i in Finset.range m.nbrows.toNat,
                Real.exp (finalLogNorm realMath m st max0 i - (finalizeLoop realMath m st max0).2))
      ∧ resultOf realMath m st max0
          = Real.log (∑ i in Finset.range m.nbrows.toNat,
              Real.exp (finalLogNorm realMath m st max0 i)) := by
  obtain ⟨b, hb⟩ : ∃ b, m.nbrows.toNat = b + 1 := ⟨m.nbrows.toNat - 1, by omega⟩
  have haux := finalizeLoop_snd_aux realMath m st max0 b
  rw [← hb] at haux
  obtain ⟨hle, jm, hjm, hmax⟩ := haux
  have hres : resultOf realMath m st max0
      = (finalizeLoop realMath m st max0).2
        + Real.log (∑ i in Finset.range m.nbrows.toNat,
            Real.exp (finalLogNorm realMath m st max0 i - (finalizeLoop realMath m st max0).2)) := by
    unfold resultOf
    rw [combine_eq]
    rfl
  refine ⟨?_, ?_, hres, ?_⟩
  · intro i hi
    rw [finalLogNorm_eq realMath m st max0 i hi]
    exact hle i (by omega)
  · refine ⟨jm, by omega, ?_⟩
    rw [finalLogNorm_eq realMath m st max0 jm (by omega)]
    exact hmax
  · exact resultOf_log_sum_exp m st max0 hB

/-- Witness for C2: the model `modelAB` in its initial state. -/
theorem result_eq_log_sum_exp_witness :
    (1 : Int) ≤ modelAB.nbrows
      ∧ resultOf realMath modelAB (initState modelAB uninit0) 0
          = Real.log (∑ i in Finset.range modelAB.nbrows.toNat,
              Real.exp (finalLogNorm realMath modelAB (initState modelAB uninit0) 0 i)) :=
  ⟨by decide, (result_eq_log_sum_exp modelAB (initState modelAB uninit0) 0 (by decide)).2.2.2⟩

/-- C4. With a single block row the value assigned to `log_en_nrm` is exactly the finalised
log-norm of block row 0: the sum is `exp(0) = 1` and `log(1) = 0` is added. This holds in any
arithmetic whose `exp` and `log` satisfy `exp 0 = 1` and `log 1 = 0`, in particular over the
reals. -/
theorem single_block_row_result {α : Type} [LinearOrderedField α] (L : Libm α)
    (hexp : L.exp 0 = 1) (hlog : L.log 1 = 0) (m : Model α) (st : MulState α) (max0 : α)
    (hB : m.nbrows = 1) :
    resultOf L m st max0 = finalLogNorm L m st max0 0 :=
  resultOf_single_of L hexp hlog m st max0 hB

/-- Witness for C4: the single-block-row model `modelAB` in its initial state, over the
reals. -/
theorem single_block_row_result_witness :
    realMath.exp 0 = 1 ∧ realMath.log 1 = 0 ∧ modelAB.nbrows = 1
      ∧ resultOf realMath modelAB (initState modelAB uninit0) 0
          = finalLogNorm realMath modelAB (initState modelAB uninit0) 0 0 :=
  ⟨Real.exp_zero, Real.log_one, rfl,
    single_block_row_result realMath Real.exp_zero Real.log_one modelAB
      (initState modelAB uninit0) 0 rfl⟩

/-- C6. When the lines of the symbol source contain no character at all, the streaming pass
ends with every block row's weight vector still all ones and its cumulative log-norm still 0,
and the finalised log-norm of block row `i` is `ln(mxsz_vals[i])`. -/
theorem empty_stream_final (m : Model ℝ) (u : Uninit ℝ) (lines : List (List Char)) (i : Nat)
    (hi : (i : Int) < m.nbrows) (hsz : 0 ≤ m.mxsz_vals i) (hempty : lines.flatten = []) :
    ∃ st, streamLoop realMath m LINES_PER_BLOCK (lines.length + 1) lines (initState m u) = some st
      ∧ st.bad_char = false
      ∧ (∀ c : Nat, (c : Int) < m.mxsz_vals i → st.v_0 i c = 1)
      ∧ st.log_vec_norm i = 0
      ∧ finalLogNorm realMath m st u.max_br_nrm i = Real.log ((m.mxsz_vals i : Int) : ℝ) := by
  have hvalid : ∀ ch ∈ lines.flatten, validChar m ch := by
    rw [hempty]; intro ch hch; cases hch
  have hrun := streamLoop_valid realMath m LINES_PER_BLOCK (by decide) (lines.length + 1) lines
    (initState m u) (by omega) hvalid
  rw [hempty] at hrun
  refine ⟨initState m u, hrun, initState_bad_char m u, ?_, initState_log m u i hi, ?_⟩
  · intro c hc
    exact initState_v_0 m u i c hi (by simp only [rowSize]; omega)
  · rw [finalLogNorm_eq realMath m _ _ i hi, initState_log m u i hi, zero_add]
    unfold projection
    rw [initState_weightVec m u i hi]
    simp only [Finset.sum_const, Finset.card_univ, Fintype.card_fin, nsmul_eq_mul, mul_one]
    have : ((rowSize m i : Nat) : ℝ) = ((m.mxsz_vals i : Int) : ℝ) := by
      have h : ((rowSize m i : Nat) : Int) = m.mxsz_vals i := Int.toNat_of_nonneg hsz
      exact_mod_cast congrArg (fun z : Int => (z : ℝ)) h
    rw [this]
    rfl

/-- Witness for C6: the model `modelAB` and a source of two empty lines. -/
theorem empty_stream_final_witness :
    ((0 : Nat) : Int) < modelAB.nbrows ∧ 0 ≤ modelAB.mxsz_vals 0
      ∧ ([[], []] : List (List Char)).flatten = []
      ∧ ∃ st, streamLoop realMath modelAB LINES_PER_BLOCK
            (([[], []] : List (List Char)).length + 1) [[], []] (initState modelAB uninit0)
            = some st
          ∧ st.bad_char = false
          ∧ (∀ c : Nat, (c : Int) < modelAB.mxsz_vals 0 → st.v_0 0 c = 1)
          ∧ st.log_vec_norm 0 = 0
          ∧ finalLogNorm realMath modelAB st uninit0.max_br_nrm 0
              = Real.log ((modelAB.mxsz_vals 0 : Int) : ℝ) :=
  ⟨by decide, by decide, rfl,
    empty_stream_final modelAB uninit0 [[], []] 0 (by decide) (by decide) rfl⟩

/-- C5 (amended). For a single block row of size `n >= 1` whose matrices are all the identity
and a non-empty source of valid symbols, the cumulative log-norm after streaming is
`ln(sqrt n) = 0.5 ln n` and the value assigned to `log_en_nrm` is `ln n`. -/
theorem identity_chain_result (m : Model ℝ) (u : Uninit ℝ) (lines : List (List Char)) (n : Nat)
    (hn : 1 ≤ n) (hB : m.nbrows = 1) (hsz : m.mxsz_vals 0 = (n : Int))
    (hid : ∀ s : Int, 0 ≤ s → s < m.k_sym → matOf m 0 s = 1)
    (hvalid : ∀ ch ∈ lines.flatten, validChar m ch) (hne : lines.flatten ≠ []) :
    ∃ st, streamLoop realMath m LINES_PER_BLOCK (lines.length + 1) lines (initState m u) = some st
      ∧ st.bad_char = false
      ∧ st.log_vec_norm 0 = 1 / 2 * Real.log n
      ∧ resultOf realMath m st u.max_br_nrm = Real.log n := by
  have hrs : rowSize m 0 = n := by simp [rowSize, hsz]
  obtain ⟨st, h1, h2, h3, h4⟩ := identity_run m u lines hB (by omega) hid hvalid hne
  rw [hrs] at h3 h4
  refine ⟨st, h1, h2, ?_, h4⟩
  rw [h3, Real.log_sqrt (Nat.cast_nonneg n)]
  ring

/-- Witness for C5 (amended): the 3-by-3 identity model and the one-line source "1". -/
theorem identity_chain_result_witness :
    1 ≤ 3 ∧ idModel3.nbrows = 1 ∧ idModel3.mxsz_vals 0 = ((3 : Nat) : Int)
      ∧ (∀ s : Int, 0 ≤ s → s < idModel3.k_sym → matOf idModel3 0 s = 1)
      ∧ (∀ ch ∈ [['1']].flatten, validChar idModel3 ch) ∧ [['1']].flatten ≠ []
      ∧ ∃ st, streamLoop realMath idModel3 LINES_PER_BLOCK ([['1']].length + 1) [['1']]
            (initState idModel3 uninit0) = some st
          ∧ st.bad_char = false
          ∧ st.log_vec_norm 0 = 1 / 2 * Real.log (3 : Nat)
          ∧ resultOf realMath idModel3 st uninit0.max_br_nrm = Real.log (3 : Nat) :=
  ⟨by decide, rfl, rfl, fun s _ _ => idModel3_matOf s, idModel3_valid_1, by decide,
    identity_chain_result idModel3 uninit0 [['1']] 3 (by decide) rfl rfl
      (fun s _ _ => idModel3_matOf s) idModel3_valid_1 (by decide)⟩

/-- Counterexample to C5 as stated: for the 3-by-3 identity model and the source "1" the
cumulative log-norm after streaming is not 0 and the result is not `ln(sqrt 3)`. -/
theorem identity_chain_counterexample :
    ∃ st, streamLoop realMath idModel3 LINES_PER_BLOCK 2 [['1']] (initState idModel3 uninit0)
          = some st
        ∧ st.log_vec_norm 0 ≠ 0
        ∧ resultOf realMath idModel3 st uninit0.max_br_nrm ≠ Real.log (Real.sqrt 3) := by
  obtain ⟨st, h1, _, h3, h4⟩ := identity_run idModel3 uninit0 [['1']] rfl (by decide)
    (fun s _ _ => idModel3_matOf s) idModel3_valid_1 (by decide)
  have hrs : ((rowSize idModel3 0 : Nat) : ℝ) = 3 := by
    show (((3 : Nat) : Nat) : ℝ) = 3
    norm_num
  rw [hrs] at h3 h4
  have hlog3 : 0 < Real.log 3 := Real.log_pos (by norm_num)
  have hsqrt : Real.log (Real.sqrt 3) = Real.log 3 / 2 := Real.log_sqrt (by norm_num)
  refine ⟨st, h1, ?_, ?_⟩
  · rw [h3, hsqrt]
    linarith
  · rw [h4, hsqrt]
    linarith

/-- C7 (amended). Scaling every entry of every matrix of block row `i` by `c > 0`, for a source
of valid symbols whose renormalisation norms in block row `i` are all non-zero, leaves every
weight vector unchanged, adds `n * ln c` to the finalised log-norm of block row `i` (`n` the
number of symbols) and nothing to the others, so that the value assigned to `log_en_nrm`
becomes `ln(sum_j exp(finalLogNorm[j] + [j = i] * n * ln c))`. -/
theorem scale_block_row (m : Model ℝ) (u : Uninit ℝ) (lines : List (List Char)) (i : Nat)
    (c : ℝ) (hi : (i : Int) < m.nbrows) (hc : 0 < c)
    (hvalid : ∀ ch ∈ lines.flatten, validChar m ch)
    (hdef : normsNonzero realMath m i (lines.flatten.map symVal) (initState m u)) :
    ∃ st st2,
      streamLoop realMath m LINES_PER_BLOCK (lines.length + 1) lines (initState m u) = some st
      ∧ streamLoop realMath (scaleRow m i c) LINES_PER_BLOCK (lines.length + 1) lines
          (initState (scaleRow m i c) u) = some st2
      ∧ (∀ j : Nat, (j : Int) < m.nbrows → weightVec m st2 j = weightVec m st j)
      ∧ (∀ j : Nat, (j : Int) < m.nbrows →
          finalLogNorm realMath (scaleRow m i c) st2 u.max_br_nrm j
            = finalLogNorm realMath m st u.max_br_nrm j
              + if j = i then (lines.flatten.length : ℝ) * Real.log c else 0)
      ∧ resultOf realMath (scaleRow m i c) st2 u.max_br_nrm
          = Real.log (∑ j in Finset.range m.nbrows.toNat,
              Real.exp (finalLogNorm realMath m st u.max_br_nrm j
                + if j = i then (lines.flatten.length : ℝ) * Real.log c else 0)) :=
  scale_final m u lines i c hi hc hvalid hdef

/-- Witness for C7 (amended): block row 0 of `modelAB` scaled by 2, source "12". -/
theorem scale_block_row_witness :
    ((0 : Nat) : Int) < modelAB.nbrows ∧ (0 : ℝ) < 2
      ∧ (∀ ch ∈ [['1', '2']].flatten, validChar modelAB ch)
      ∧ normsNonzero realMath modelAB 0 ([['1', '2']].flatten.map symVal)
          (initState modelAB uninit0)
      ∧ ∃ st st2,
          streamLoop realMath modelAB LINES_PER_BLOCK ([['1', '2']].length + 1) [['1', '2']]
            (initState modelAB uninit0) = some st
          ∧ streamLoop realMath (scaleRow modelAB 0 2) LINES_PER_BLOCK ([['1', '2']].length + 1)
              [['1', '2']] (initState (scaleRow modelAB 0 2) uninit0) = some st2
          ∧ (∀ j : Nat, (j : Int) < modelAB.nbrows →
              weightVec modelAB st2 j = weightVec modelAB st j)
          ∧ (∀ j : Nat, (j : Int) < modelAB.nbrows →
              finalLogNorm realMath (scaleRow modelAB 0 2) st2 uninit0.max_br_nrm j
                = finalLogNorm realMath modelAB st uninit0.max_br_nrm j
                  + if j = 0 then ([['1', '2']].flatten.length : ℝ) * Real.log 2 else 0)
          ∧ resultOf realMath (scaleRow modelAB 0 2) st2 uninit0.max_br_nrm
              = Real.log (∑ j in Finset.range modelAB.nbrows.toNat,
                  Real.exp (finalLogNorm realMath modelAB st uninit0.max_br_nrm j
                    + if j = 0 then ([['1', '2']].flatten.length : ℝ) * Real.log 2 else 0)) :=
  ⟨by decide, by norm_num, modelAB_valid_12, (modelAB_defined _).1,
    scale_block_row modelAB uninit0 [['1', '2']] 0 2 (by decide) (by norm_num) modelAB_valid_12
      (modelAB_defined _).1⟩

/-- Counterexample to C7 as stated: for the 2-by-2 model `modelAB` and the source "1", scaling
the matrices of block row 0 by 2 changes the result (by `ln 2`). -/
theorem scale_invariance_counterexample :
    ∃ st st2,
      streamLoop realMath modelAB LINES_PER_BLOCK 2 [['1']] (initState modelAB uninit0) = some st
      ∧ streamLoop realMath (scaleRow modelAB 0 2) LINES_PER_BLOCK 2 [['1']]
          (initState (scaleRow modelAB 0 2) uninit0) = some st2
      ∧ resultOf realMath (scaleRow modelAB 0 2) st2 uninit0.max_br_nrm
          ≠ resultOf realMath modelAB st uninit0.max_br_nrm := by
  have hv : ∀ ch ∈ [['1']].flatten, validChar modelAB ch :=
    modelAB_valid _ (by intro ch hch; left; simpa using hch)
  obtain ⟨st, st2, h1, h2, _, hfin, _⟩ := scale_final modelAB uninit0 [['1']] 0 2 (by decide)
    (by norm_num) hv (modelAB_defined _).1
  refine ⟨st, st2, h1, h2, ?_⟩
  rw [resultOf_single modelAB st _ rfl, resultOf_single (scaleRow modelAB 0 2) st2 _ rfl,
    hfin 0 (by decide)]
  have hlog2 : 0 < Real.log 2 := Real.log_pos (by norm_num)
  simp only [if_true, List.flatten_cons, List.flatten_nil, List.append_nil,
    List.length_singleton, Nat.cast_one, one_mul]
  linarith

/-- C8 (amended). For a two-symbol, single-block-row model with matrices `A` (symbol 1) and `B`
(symbol 2) for which both runs are defined, the results for the sources "12" and "21" are
`ln` of the entry sums of `A * B` and of `B * A`; they differ exactly when these two entry sums
differ. -/
theorem order_sensitivity (m : Model ℝ) (u : Uninit ℝ) (hB : m.nbrows = 1) (hk : m.k_sym = 2)
    (h12 : runDefined realMath m 0 [0, 1] (initState m u))
    (h21 : runDefined realMath m 0 [1, 0] (initState m u)) :
    ∃ st12 st21,
      streamLoop realMath m LINES_PER_BLOCK 2 [['1', '2']] (initState m u) = some st12
      ∧ streamLoop realMath m LINES_PER_BLOCK 2 [['2', '1']] (initState m u) = some st21
      ∧ resultOf realMath m st12 u.max_br_nrm
          = Real.log (∑ r, ∑ c, (matOf m 0 0 * matOf m 0 1) r c)
      ∧ resultOf realMath m st21 u.max_br_nrm
          = Real.log (∑ r, ∑ c, (matOf m 0 1 * matOf m 0 0) r c)
      ∧ (resultOf realMath m st12 u.max_br_nrm ≠ resultOf realMath m st21 u.max_br_nrm
          ↔ ∑ r, ∑ c, (matOf m 0 0 * matOf m 0 1) r c
              ≠ ∑ r, ∑ c, (matOf m 0 1 * matOf m 0 0) r c) := by
  obtain ⟨st12, st21, ha, hb, hc, hd, he, hf⟩ := order_results m u hB hk h12 h21
  refine ⟨st12, st21, ha, hb, hc, hd, ?_⟩
  rw [hc, hd]
  constructor
  · intro hne heq
    exact hne (by rw [heq])
  · intro hne heq
    exact hne (Real.log_injOn_pos (Set.mem_Ioi.mpr he) (Set.mem_Ioi.mpr hf) heq)

/-- Witness for C8 (amended): the model `modelAB`. -/
theorem order_sensitivity_witness :
    modelAB.nbrows = 1 ∧ modelAB.k_sym = 2
      ∧ runDefined realMath modelAB 0 [0, 1] (initState modelAB uninit0)
      ∧ runDefined realMath modelAB 0 [1, 0] (initState modelAB uninit0)
      ∧ ∃ st12 st21,
          streamLoop realMath modelAB LINES_PER_BLOCK 2 [['1', '2']] (initState modelAB uninit0)
            = some st12
          ∧ streamLoop realMath modelAB LINES_PER_BLOCK 2 [['2', '1']]
              (initState modelAB uninit0) = some st21
          ∧ resultOf realMath modelAB st12 uninit0.max_br_nrm
              = Real.log (∑ r, ∑ c, (matOf modelAB 0 0 * matOf modelAB 0 1) r c)
          ∧ resultOf realMath modelAB st21 uninit0.max_br_nrm
              = Real.log (∑ r, ∑ c, (matOf modelAB 0 1 * matOf modelAB 0 0) r c)
          ∧ (resultOf realMath modelAB st12 uninit0.max_br_nrm
                ≠ resultOf realMath modelAB st21 uninit0.max_br_nrm
              ↔ ∑ r, ∑ c, (matOf modelAB 0 0 * matOf modelAB 0 1) r c
                  ≠ ∑ r, ∑ c, (matOf modelAB 0 1 * matOf modelAB 0 0) r c) :=
  ⟨rfl, rfl, modelAB_defined _, modelAB_defined _,
    order_sensitivity modelAB uninit0 rfl rfl (modelAB_defined _) (modelAB_defined _)⟩

/-- Counterexample to C8 as stated: the matrices of `modelAB` do not commute and both runs are
defined, yet the sources "12" and "21" give the same result (`ln 20`). -/
theorem order_sensitivity_counterexample :
    matOf modelAB 0 0 * matOf modelAB 0 1 ≠ matOf modelAB 0 1 * matOf modelAB 0 0
      ∧ runDefined realMath modelAB 0 [0, 1] (initState modelAB uninit0)
      ∧ runDefined realMath modelAB 0 [1, 0] (initState modelAB uninit0)
      ∧ ∃ st12 st21,
          streamLoop realMath modelAB LINES_PER_BLOCK 2 [['1', '2']] (initState modelAB uninit0)
            = some st12
          ∧ streamLoop realMath modelAB LINES_PER_BLOCK 2 [['2', '1']]
              (initState modelAB uninit0) = some st21
          ∧ resultOf realMath modelAB st12 uninit0.max_br_nrm
              = resultOf realMath modelAB st21 uninit0.max_br_nrm := by
  obtain ⟨st12, st21, ha, hb, hc, hd, _, _⟩ :=
    order_results modelAB uninit0 rfl rfl (modelAB_defined _) (modelAB_defined _)
  refine ⟨modelAB_not_commute, modelAB_defined _, modelAB_defined _, st12, st21, ha, hb, ?_⟩
  rw [hc, hd, modelAB_sum_AB, modelAB_sum_BA]

/-- C3 (code evaluated at the failing input). On the data file `fileAB` and the symbol source
"13" the run returns 1 and prints the diagnostic, followed by a numeric line holding the
never-assigned `log_en_nrm`. -/
theorem bad_symbol_prints_number (u : Uninit ℝ) :
    ∃ m : Model ℝ, loadModel realMath u fileAB = .ok m ∧ m.k_sym = 2
      ∧ main realMath u 2 (some fileAB) (some [['1', '3']])
          = some { stdout := [headerOf m, .badSymbol, .number u.log_en_nrm],
                   exit := .returned 1 } :=
  fileAB_bad_symbol_run u

/-- C9. For a source all of whose characters are valid symbols, a batch size `lpb >= 1` and an
iteration budget larger than the number of lines, the batched loop ends in the state reached by
processing the concatenation of all lines as one block, which is the state reached by feeding
the symbols one by one; hence state and printed output are the same for any two batch sizes. -/
theorem batching_irrelevant {α : Type} [LinearOrderedField α] (L : Libm α) (m : Model α)
    (u : Uninit α) (lines : List (List Char)) (st : MulState α) (lpb fuel lpb2 fuel2 : Nat)
    (hl : 1 ≤ lpb) (hf : lines.length < fuel) (hl2 : 1 ≤ lpb2) (hf2 : lines.length < fuel2)
    (hvalid : ∀ ch ∈ lines.flatten, validChar m ch) :
    streamLoop L m lpb fuel lines st = some (processBlock L m lines.flatten st)
      ∧ streamLoop L m lpb fuel lines st
          = some (feedSymbols L m (lines.flatten.map symVal) st)
      ∧ streamLoop L m lpb fuel lines st = streamLoop L m lpb2 fuel2 lines st
      ∧ (streamLoop L m lpb fuel lines st).map (report L m u)
          = (streamLoop L m lpb2 fuel2 lines st).map (report L m u) := by
  have h1 := streamLoop_valid L m lpb hl fuel lines st hf hvalid
  have h2 := streamLoop_valid L m lpb2 hl2 fuel2 lines st hf2 hvalid
  refine ⟨?_, h1, ?_, ?_⟩
  · rw [h1, processBlock_valid L m _ st hvalid]
  · rw [h1, h2]
  · rw [h1, h2]

/-- Witness for C9: `modelAB`, the lines "12", "", "21", batch sizes 3 and 1. -/
theorem batching_irrelevant_witness :
    1 ≤ 3 ∧ [['1', '2'], [], ['2', '1']].length < 4 ∧ 1 ≤ 1
      ∧ [['1', '2'], [], ['2', '1']].length < 5
      ∧ (∀ ch ∈ [['1', '2'], [], ['2', '1']].flatten, validChar modelAB ch)
      ∧ streamLoop realMath modelAB 3 4 [['1', '2'], [], ['2', '1']] (initState modelAB uninit0)
          = some (processBlock realMath modelAB [['1', '2'], [], ['2', '1']].flatten
              (initState modelAB uninit0))
      ∧ streamLoop realMath modelAB 3 4 [['1', '2'], [], ['2', '1']] (initState modelAB uninit0)
          = some (feedSymbols realMath modelAB
              ([['1', '2'], [], ['2', '1']].flatten.map symVal) (initState modelAB uninit0))
      ∧ streamLoop realMath modelAB 3 4 [['1', '2'], [], ['2', '1']] (initState modelAB uninit0)
          = streamLoop realMath modelAB 1 5 [['1', '2'], [], ['2', '1']]
              (initState modelAB uninit0)
      ∧ (streamLoop realMath modelAB 3 4 [['1', '2'], [], ['2', '1']]
            (initState modelAB uninit0)).map (report realMath modelAB uninit0)
          = (streamLoop realMath modelAB 1 5 [['1', '2'], [], ['2', '1']]
              (initState modelAB uninit0)).map (report realMath modelAB uninit0) :=
  ⟨by decide, by decide, by decide, by decide,
    modelAB_valid _ (by intro ch hch; simp at hch; tauto),
    batching_irrelevant realMath modelAB uninit0 [['1', '2'], [], ['2', '1']]
      (initState modelAB uninit0) 3 4 1 5 (by decide) (by decide) (by decide) (by decide)
      (modelAB_valid _ (by intro ch hch; simp at hch; tauto))⟩

/-- C10. A value sequence that holds, in the layout `k_sym, di_vals[0..k), hk, delta, p_and_s,
nbrows, mxsz_vals[0..B)` followed by the matrices block row by block row and symbol by symbol in
row-major order, at least the `5 + k + B + k * sum_i size_i^2` values its header asks for, and
whose rounded header values are held by the types they are converted to (`int` for `k_sym` and
`p_and_s`, `long` for the others, the squared sizes and `nbrows * k_sym`), is loaded
successfully: entry `(r, c)` of the matrix of block row `i` and symbol `s` is the value at
offset `5 + k + B + k * sum_{j<i} size_j^2 + s * size_i^2 + r * size_i + c`, the integer fields
are the stored values rounded to the nearest integer, which is also what the conversions
`(int)round(tmp)` and `(long)round(tmp)` give, and `delta` is the stored value itself. -/
theorem load_reproduces_model (u : Uninit ℝ) (file : List ℝ) (k B : Nat) (sz : Nat → Nat)
    (hk : cround (file.getD 0 0) = (k : Int))
    (hB : cround (file.getD (k + 4) 0) = (B : Int))
    (hsz : ∀ j, j < B → cround (file.getD (k + 5 + j) 0) = (sz j : Int))
    (hlen : 5 + k + B + k * (∑ j in Finset.range B, sz j * sz j) ≤ file.length)
    (hkr : fitsInt (k : Int))
    (hdr : ∀ i, i < k → fitsLong (cround (file.getD (1 + i) 0)))
    (hhr : fitsLong (cround (file.getD (k + 1) 0)))
    (hpr : fitsInt (cround (file.getD (k + 3) 0)))
    (hBr : fitsLong (B : Int))
    (hsr : ∀ j, j < B → fitsLong (sz j : Int) ∧ fitsLong ((sz j : Int) * (sz j : Int)))
    (htr : fitsLong ((B : Int) * (k : Int))) :
    ∃ m : Model ℝ, loadModel realMath u file = .ok m
      ∧ m.k_sym = (k : Int) ∧ m.nbrows = (B : Int)
      ∧ (∀ j, j < B → m.mxsz_vals j = (sz j : Int))
      ∧ (∀ i, i < k → m.di_vals i = cround (file.getD (1 + i) 0))
      ∧ m.hk = cround (file.getD (k + 1) 0)
      ∧ m.delta = file.getD (k + 2) 0
      ∧ m.p_and_s = cround (file.getD (k + 3) 0)
      ∧ (∀ (i s : Nat) (r c : Fin (rowSize m i)), i < B → s < k →
          matOf m i s r c
            = file.getD (5 + k + B + k * (∑ j in Finset.range i, sz j * sz j)
                + s * (sz i * sz i) + (r : Nat) * sz i + (c : Nat)) 0)
      ∧ (∀ x : ℝ, |x - (realMath.round x : ℝ)| ≤ 1 / 2)
      ∧ (m.k_sym = castInt (realMath.round (file.getD 0 0))
          ∧ (∀ i, i < k → m.di_vals i = castLong (realMath.round (file.getD (1 + i) 0)))
          ∧ m.hk = castLong (realMath.round (file.getD (k + 1) 0))
          ∧ m.p_and_s = castInt (realMath.round (file.getD (k + 3) 0))
          ∧ m.nbrows = castLong (realMath.round (file.getD (k + 4) 0))
          ∧ ∀ j, j < B → m.mxsz_vals j = castLong (realMath.round (file.getD (k + 5 + j) 0)))
      ∧ (|file.getD 0 0 - (m.k_sym : ℝ)| ≤ 1 / 2
          ∧ (∀ i, i < k → |file.getD (1 + i) 0 - (m.di_vals i : ℝ)| ≤ 1 / 2)
          ∧ |file.getD (k + 1) 0 - (m.hk : ℝ)| ≤ 1 / 2
          ∧ |file.getD (k + 3) 0 - (m.p_and_s : ℝ)| ≤ 1 / 2
          ∧ |file.getD (k + 4) 0 - (m.nbrows : ℝ)| ≤ 1 / 2
          ∧ ∀ j, j < B → |file.getD (k + 5 + j) 0 - (m.mxsz_vals j : ℝ)| ≤ 1 / 2)
      ∧ fitsLong (tableLen m) ∧ ∀ j, j < B → fitsLong (matrixLen m j) := by
  obtain ⟨m, hload, hk2, hdi, hhk, hdelta, hps, hB2, hsz2, _, _, hmat⟩ :=
    loadModel_spec realMath u file k B sz hk hB hsz hlen
  have hround : ∀ x : ℝ, realMath.round x = cround x := fun _ => rfl
  refine ⟨m, hload, hk2, hB2, hsz2, hdi, hhk, hdelta, hps, ?_, cround_nearest, ?_, ?_, ?_, ?_⟩
  · intro i s r c hi hs
    have hr : (r : Nat) < sz i := by
      have := r.isLt
      simp only [rowSize, hsz2 i hi, Int.toNat_natCast] at this
      exact this
    have hc : (c : Nat) < sz i := by
      have := c.isLt
      simp only [rowSize, hsz2 i hi, Int.toNat_natCast] at this
      exact this
    have hb : (r : Nat) * sz i + (c : Nat) < sz i * sz i := by
      have h1 : ((r : Nat) + 1) * sz i ≤ sz i * sz i := Nat.mul_le_mul_right _ (by omega)
      have h2 : ((r : Nat) + 1) * sz i = (r : Nat) * sz i + sz i := by ring
      omega
    have hidx1 : ((i : Int) * m.k_sym + (s : Int)).toNat = i * k + s := by
      rw [hk2, toNat_idx]
    have hidx2 : (m.mxsz_vals i * ((r : Nat) : Int) + ((c : Nat) : Int)).toNat
        = (r : Nat) * sz i + (c : Nat) := by
      rw [hsz2 i hi, toNat_idx, Nat.mul_comm]
    simp only [matOf, Matrix.of_apply, hidx1, hidx2]
    rw [hmat i s _ hi hs hb]
    congr 1
    omega
  · refine ⟨?_, ?_, ?_, ?_, ?_, ?_⟩
    · rw [hround, hk, castInt_of_fits _ hkr, hk2]
    · intro i hi
      rw [hround, castLong_of_fits _ (hdr i hi)]; exact hdi i hi
    · rw [hround, castLong_of_fits _ hhr]; exact hhk
    · rw [hround, castInt_of_fits _ hpr]; exact hps
    · rw [hround, hB, castLong_of_fits _ hBr, hB2]
    · intro j hj
      rw [hround, hsz j hj, castLong_of_fits _ (hsr j hj).1, hsz2 j hj]
  · refine ⟨?_, ?_, ?_, ?_, ?_, ?_⟩
    · rw [hk2, ← hk]; exact cround_nearest _
    · intro i hi
      rw [hdi i hi]; exact cround_nearest _
    · rw [hhk]; exact cround_nearest _
    · rw [hps]; exact cround_nearest _
    · rw [hB2, ← hB]; exact cround_nearest _
    · intro j hj
      rw [hsz2 j hj, ← hsz j hj]; exact cround_nearest _
  · unfold tableLen
    rw [hB2, hk2]
    exact htr
  · intro j hj
    unfold matrixLen
    rw [hsz2 j hj]
    exact (hsr j hj).2

/-- Witness for C10: the data file `fileAB` (two symbols, one block row of size 2). -/
theorem load_reproduces_model_witness :
    cround (fileAB.getD 0 0) = ((2 : Nat) : Int)
      ∧ cround (fileAB.getD (2 + 4) 0) = ((1 : Nat) : Int)
      ∧ (∀ j, j < 1 → cround (fileAB.getD (2 + 5 + j) 0) = (((fun _ => 2) j : Nat) : Int))
      ∧ 5 + 2 + 1 + 2 * (∑ j in Finset.range 1, (fun _ : Nat => 2) j * (fun _ : Nat => 2) j)
          ≤ fileAB.length
      ∧ fitsInt ((2 : Nat) : Int)
      ∧ (∀ i, i < 2 → fitsLong (cround (fileAB.getD (1 + i) 0)))
      ∧ fitsLong (cround (fileAB.getD (2 + 1) 0))
      ∧ fitsInt (cround (fileAB.getD (2 + 3) 0))
      ∧ fitsLong ((1 : Nat) : Int)
      ∧ (∀ j, j < 1 → fitsLong (((fun _ => 2) j : Nat) : Int)
          ∧ fitsLong ((((fun _ => 2) j : Nat) : Int) * (((fun _ => 2) j : Nat) : Int)))
      ∧ fitsLong (((1 : Nat) : Int) * ((2 : Nat) : Int))
      ∧ ∃ m : Model ℝ, loadModel realMath uninit0 fileAB = .ok m
          ∧ m.k_sym = ((2 : Nat) : Int) ∧ m.nbrows = ((1 : Nat) : Int)
          ∧ (∀ j, j < 1 → m.mxsz_vals j = (((fun _ => 2) j : Nat) : Int))
          ∧ (∀ i, i < 2 → m.di_vals i = cround (fileAB.getD (1 + i) 0))
          ∧ m.hk = cround (fileAB.getD (2 + 1) 0)
          ∧ m.delta = fileAB.getD (2 + 2) 0
          ∧ m.p_and_s = cround (fileAB.getD (2 + 3) 0)
          ∧ (∀ (i s : Nat) (r c : Fin (rowSize m i)), i < 1 → s < 2 →
              matOf m i s r c
                = fileAB.getD (5 + 2 + 1
                    + 2 * (∑ j in Finset.range i, (fun _ : Nat => 2) j * (fun _ : Nat => 2) j)
                    + s * ((fun _ : Nat => 2) i * (fun _ : Nat => 2) i)
                    + (r : Nat) * (fun _ : Nat => 2) i + (c : Nat)) 0)
          ∧ (∀ x : ℝ, |x - (realMath.round x : ℝ)| ≤ 1 / 2)
          ∧ (m.k_sym = castInt (realMath.round (fileAB.getD 0 0))
              ∧ (∀ i, i < 2 → m.di_vals i = castLong (realMath.round (fileAB.getD (1 + i) 0)))
              ∧ m.hk = castLong (realMath.round (fileAB.getD (2 + 1) 0))
              ∧ m.p_and_s = castInt (realMath.round (fileAB.getD (2 + 3) 0))
              ∧ m.nbrows = castLong (realMath.round (fileAB.getD (2 + 4) 0))
              ∧ ∀ j, j < 1 →
                  m.mxsz_vals j = castLong (realMath.round (fileAB.getD (2 + 5 + j) 0)))
          ∧ (|fileAB.getD 0 0 - (m.k_sym : ℝ)| ≤ 1 / 2
              ∧ (∀ i, i < 2 → |fileAB.getD (1 + i) 0 - (m.di_vals i : ℝ)| ≤ 1 / 2)
              ∧ |fileAB.getD (2 + 1) 0 - (m.hk : ℝ)| ≤ 1 / 2
              ∧ |fileAB.getD (2 + 3) 0 - (m.p_and_s : ℝ)| ≤ 1 / 2
              ∧ |fileAB.getD (2 + 4) 0 - (m.nbrows : ℝ)| ≤ 1 / 2
              ∧ ∀ j, j < 1 → |fileAB.getD (2 + 5 + j) 0 - (m.mxsz_vals j : ℝ)| ≤ 1 / 2)
          ∧ fitsLong (tableLen m) ∧ ∀ j, j < 1 → fitsLong (matrixLen m j) :=
  ⟨fileAB_header.1, fileAB_header.2.1, fileAB_header.2.2.1, fileAB_header.2.2.2,
    fileAB_ranges.1, fileAB_ranges.2.1, fileAB_ranges.2.2.1, fileAB_ranges.2.2.2.1,
    fileAB_ranges.2.2.2.2.1, fileAB_ranges.2.2.2.2.2.1, fileAB_ranges.2.2.2.2.2.2,
    load_reproduces_model uninit0 fileAB 2 1 (fun _ => 2) fileAB_header.1 fileAB_header.2.1
      fileAB_header.2.2.1 fileAB_header.2.2.2 fileAB_ranges.1 fileAB_ranges.2.1
      fileAB_ranges.2.2.1 fileAB_ranges.2.2.2.1 fileAB_ranges.2.2.2.2.1
      fileAB_ranges.2.2.2.2.2.1 fileAB_ranges.2.2.2.2.2.2⟩

/-- C12. The symbol derived from a character is its code minus the code of `'1'`, where the code
is the value of the `char`: a signed byte, equal to the character code below 128 and to the byte
minus 256 from `0x80` on. A character whose symbol lies in `[0, k_sym)` is processed as that
symbol and the loop goes on with the next character; every other character, among them every
character from 128 on, sets `bad_char` and ends the loop over the block. -/
theorem symbol_of_character {α : Type} [LinearOrderedField α] (L : Libm α) (m : Model α)
    (ch : Char) (rest : List Char) (st : MulState α) :
    (symVal ch = charVal ch - charVal '1' ∧ charVal '1' = 49)
      ∧ (-128 ≤ charVal ch ∧ charVal ch ≤ 127)
      ∧ (ch.toNat < 128 → symVal ch = (ch.toNat : Int) - 49)
      ∧ (128 ≤ ch.toNat → ch.toNat < 256 → symVal ch = (ch.toNat : Int) - 256 - 49)
      ∧ ((0 ≤ symVal ch ∧ symVal ch < m.k_sym) →
          processBlock L m (ch :: rest) st
            = processBlock L m rest (symbolStep L m (symVal ch) st))
      ∧ (¬ (0 ≤ symVal ch ∧ symVal ch < m.k_sym) →
          processBlock L m (ch :: rest) st = { st with bad_char := true })
      ∧ (128 ≤ ch.toNat →
          processBlock L m (ch :: rest) st = { st with bad_char := true }) := by
  have hsym : symVal ch = charVal ch - 49 := by
    unfold symVal
    rw [charVal_one]
  refine ⟨⟨rfl, charVal_one⟩, charVal_range ch, ?_, ?_, ?_, ?_, ?_⟩
  · intro h
    rw [hsym, charVal_ascii ch h]
  · intro h1 h2
    rw [hsym, charVal_high ch h1 h2]
  · intro h
    have hno : ¬ (symVal ch < 0 ∨ symVal ch ≥ m.k_sym) := by omega
    simp only [processBlock, if_neg hno]
  · intro h
    have hyes : symVal ch < 0 ∨ symVal ch ≥ m.k_sym := by omega
    simp only [processBlock, if_pos hyes]
  · intro h
    have hneg := charVal_neg ch h
    have hyes : symVal ch < 0 ∨ symVal ch ≥ m.k_sym := by omega
    simp only [processBlock, if_pos hyes]

/-- Witness for C12: with the two symbols of `modelAB` the character `'2'` is processed as the
symbol 1 and the character `'3'` sets `bad_char`; the byte `0xE9` has the symbol `-72` and sets
`bad_char` even for an alphabet of 200 symbols. -/
theorem symbol_of_character_witness :
    symVal '2' = 1 ∧ symVal '3' = 2 ∧ symVal (Char.ofNat 233) = -72
      ∧ processBlock realMath modelAB ['2'] (initState modelAB uninit0)
          = processBlock realMath modelAB []
              (symbolStep realMath modelAB (symVal '2') (initState modelAB uninit0))
      ∧ processBlock realMath modelAB ['3', '1'] (initState modelAB uninit0)
          = { initState modelAB uninit0 with bad_char := true }
      ∧ processBlock realMath { modelAB with k_sym := 200 } [Char.ofNat 233, '1']
            (initState { modelAB with k_sym := 200 } uninit0)
          = { initState { modelAB with k_sym := 200 } uninit0 with bad_char := true } :=
  ⟨by decide, by decide, by decide,
    (symbol_of_character realMath modelAB '2' [] (initState modelAB uninit0)).2.2.2.2.1
      (modelAB_valid_chars '2' (by simp)),
    (symbol_of_character realMath modelAB '3' ['1'] (initState modelAB uninit0)).2.2.2.2.2.1
      (by unfold modelAB; decide),
    (symbol_of_character realMath { modelAB with k_sym := 200 } (Char.ofNat 233) ['1']
      (initState { modelAB with k_sym := 200 } uninit0)).2.2.2.2.2.2 (by decide)⟩

/-- C15. Scale tracking for block row `i`: `exp(log_vec_norm[i]) * v_0[i]` is the all-ones
vector initially; one per-symbol update from a state whose tracked vector is `w`, with
`w * M` of non-zero Euclidean norm, has a non-zero `norm_v_0` and turns the tracked vector into
`w * M`; hence after valid characters for which the vectors `ones * M_1 * ... * M_t` all have
non-zero Euclidean norm, every `norm_v_0` of the run was non-zero and the tracked vector is
`ones * M_1 * ... * M_n`, componentwise. For any characters, that condition on the vectors holds
exactly when every `norm_v_0` of the run over them is non-zero. -/
theorem scale_tracking_invariant (m : Model ℝ) (u : Uninit ℝ) (i : Nat)
    (hi : (i : Int) < m.nbrows)
    (s : Int) (st : MulState ℝ) (w : Fin (rowSize m i) → ℝ)
    (hinv : ∀ c, Real.exp (st.log_vec_norm i) * weightVec m st i c = w c)
    (hstep : enorm (Matrix.vecMul w (matOf m i s)) ≠ 0)
    (chars : List Char) (hvalid : ∀ ch ∈ chars, validChar m ch)
    (hrun : ∀ t, 1 ≤ t → t ≤ chars.length →
      enorm (chainVec m i ((chars.take t).map symVal)) ≠ 0) :
    (∀ c, Real.exp ((initState m u).log_vec_norm i) * weightVec m (initState m u) i c
        = chainVec m i [] c)
      ∧ (normAt realMath m s i st ≠ 0
          ∧ ∀ c, Real.exp ((symbolStep realMath m s st).log_vec_norm i)
              * weightVec m (symbolStep realMath m s st) i c
            = Matrix.vecMul w (matOf m i s) c)
      ∧ (normsNonzero realMath m i (chars.map symVal) (initState m u)
          ∧ ∀ c, Real.exp ((processBlock realMath m chars (initState m u)).log_vec_norm i)
              * weightVec m (processBlock realMath m chars (initState m u)) i c
            = chainVec m i (chars.map symVal) c)
      ∧ (∀ cs : List Char,
          normsNonzero realMath m i (cs.map symVal) (initState m u)
            ↔ ∀ t, 1 ≤ t → t ≤ cs.length →
                enorm (chainVec m i ((cs.take t).map symVal)) ≠ 0) :=
  ⟨feed_scale_tracking m u [] i hi trivial,
    symbolStep_scale_tracking_of_enorm m s st i hi w hinv hstep,
    processBlock_scale_tracking m u chars i hi hvalid hrun,
    fun cs => ⟨prefix_norms_of_normsNonzero m u cs i hi,
      normsNonzero_of_prefix_norms m u cs i hi⟩⟩

/-- Witness for C15: block row 0 of `modelAB`, the update by the character `'1'` from the initial
state, and the run over the characters `'1'`, `'2'`. -/
theorem scale_tracking_invariant_witness :
    ((0 : Nat) : Int) < modelAB.nbrows
      ∧ (∀ c, Real.exp ((initState modelAB uninit0).log_vec_norm 0)
            * weightVec modelAB (initState modelAB uninit0) 0 c = (fun _ => (1 : ℝ)) c)
      ∧ enorm (Matrix.vecMul (fun _ => (1 : ℝ)) (matOf modelAB 0 (symVal '1'))) ≠ 0
      ∧ (∀ ch ∈ ['1', '2'], validChar modelAB ch)
      ∧ (∀ t, 1 ≤ t → t ≤ ['1', '2'].length →
          enorm (chainVec modelAB 0 ((['1', '2'].take t).map symVal)) ≠ 0)
      ∧ (∀ c, Real.exp ((initState modelAB uninit0).log_vec_norm 0)
            * weightVec modelAB (initState modelAB uninit0) 0 c = chainVec modelAB 0 [] c)
      ∧ (normAt realMath modelAB (symVal '1') 0 (initState modelAB uninit0) ≠ 0
          ∧ ∀ c, Real.exp ((symbolStep realMath modelAB (symVal '1')
                  (initState modelAB uninit0)).log_vec_norm 0)
              * weightVec modelAB (symbolStep realMath modelAB (symVal '1')
                  (initState modelAB uninit0)) 0 c
            = Matrix.vecMul (fun _ => (1 : ℝ)) (matOf modelAB 0 (symVal '1')) c)
      ∧ (normsNonzero realMath modelAB 0 (['1', '2'].map symVal) (initState modelAB uninit0)
          ∧ ∀ c, Real.exp ((processBlock realMath modelAB ['1', '2']
                  (initState modelAB uninit0)).log_vec_norm 0)
              * weightVec modelAB (processBlock realMath modelAB ['1', '2']
                  (initState modelAB uninit0)) 0 c
            = chainVec modelAB 0 (['1', '2'].map symVal) c)
      ∧ (∀ cs : List Char,
          normsNonzero realMath modelAB 0 (cs.map symVal) (initState modelAB uninit0)
            ↔ ∀ t, 1 ≤ t → t ≤ cs.length →
                enorm (chainVec modelAB 0 ((cs.take t).map symVal)) ≠ 0) :=
  ⟨by decide, modelAB_init_tracking, modelAB_ones_norm, modelAB_valid_chars,
    fun _ _ _ => modelAB_chain_norm _,
    scale_tracking_invariant modelAB uninit0 0 (by decide) (symVal '1')
      (initState modelAB uninit0) (fun _ => 1) modelAB_init_tracking modelAB_ones_norm
      ['1', '2'] modelAB_valid_chars (fun _ _ _ => modelAB_chain_norm _)⟩

/-- C16. Before the first update the weight vector of block row `i` is the all-ones vector, of
Euclidean norm `sqrt(mxsz_vals[i])`; in a per-symbol update from a state in which `v_0[i] * M`
has a non-zero Euclidean norm, `norm_v_0` is that norm and the weight vector has Euclidean norm
exactly 1 afterwards. -/
theorem unit_norm_after_update (m : Model ℝ) (u : Uninit ℝ) (i : Nat)
    (hi : (i : Int) < m.nbrows) (s : Int) (st : MulState ℝ)
    (hnorm : enorm (Matrix.vecMul (weightVec m st i) (matOf m i s)) ≠ 0) :
    (∀ c, weightVec m (initState m u) i c = 1)
      ∧ enorm (weightVec m (initState m u) i) = Real.sqrt (rowSize m i)
      ∧ normAt realMath m s i st = enorm (Matrix.vecMul (weightVec m st i) (matOf m i s))
      ∧ enorm (weightVec m (symbolStep realMath m s st) i) = 1 :=
  ⟨fun c => by rw [initState_weightVec m u i hi], initState_norm m u i hi,
    symbolStep_unit_norm_of_enorm m s st i hi hnorm⟩

/-- Witness for C16: block row 0 of `modelAB` and the update by the character `'1'` from the
initial state. -/
theorem unit_norm_after_update_witness :
    ((0 : Nat) : Int) < modelAB.nbrows
      ∧ enorm (Matrix.vecMul (weightVec modelAB (initState modelAB uninit0) 0)
          (matOf modelAB 0 (symVal '1'))) ≠ 0
      ∧ (∀ c, weightVec modelAB (initState modelAB uninit0) 0 c = 1)
      ∧ enorm (weightVec modelAB (initState modelAB uninit0) 0) = Real.sqrt (rowSize modelAB 0)
      ∧ normAt realMath modelAB (symVal '1') 0 (initState modelAB uninit0)
          = enorm (Matrix.vecMul (weightVec modelAB (initState modelAB uninit0) 0)
              (matOf modelAB 0 (symVal '1')))
      ∧ enorm (weightVec modelAB
          (symbolStep realMath modelAB (symVal '1') (initState modelAB uninit0)) 0) = 1 :=
  ⟨by decide, modelAB_first_norm,
    unit_norm_after_update modelAB uninit0 0 (by decide) (symVal '1')
      (initState modelAB uninit0) modelAB_first_norm⟩

/-- C19. Scaling law: for a single block row, a constant `c > 0` and a source of `n` valid
symbols whose run is defined (non-zero norms, positive projection), multiplying every matrix
entry by `c` leaves the weight vector after each update unchanged and adds exactly `n * ln c` to
the cumulative log-norm, to the finalised log-norm and to the result. -/
theorem scaling_law (m : Model ℝ) (u : Uninit ℝ) (lines : List (List Char)) (c : ℝ)
    (hB : m.nbrows = 1) (hc : 0 < c) (hvalid : ∀ ch ∈ lines.flatten, validChar m ch)
    (hdef : runDefined realMath m 0 (lines.flatten.map symVal) (initState m u)) :
    ∃ st st2,
      streamLoop realMath m LINES_PER_BLOCK (lines.length + 1) lines (initState m u) = some st
      ∧ streamLoop realMath (scaleRow m 0 c) LINES_PER_BLOCK (lines.length + 1) lines
          (initState (scaleRow m 0 c) u) = some st2
      ∧ (∀ t : Nat,
          weightVec m (processBlock realMath (scaleRow m 0 c) (lines.flatten.take t)
              (initState (scaleRow m 0 c) u)) 0
            = weightVec m (processBlock realMath m (lines.flatten.take t) (initState m u)) 0)
      ∧ st2.log_vec_norm 0 = st.log_vec_norm 0 + (lines.flatten.length : ℝ) * Real.log c
      ∧ finalLogNorm realMath (scaleRow m 0 c) st2 u.max_br_nrm 0
          = finalLogNorm realMath m st u.max_br_nrm 0 + (lines.flatten.length : ℝ) * Real.log c
      ∧ resultOf realMath (scaleRow m 0 c) st2 u.max_br_nrm
          = resultOf realMath m st u.max_br_nrm + (lines.flatten.length : ℝ) * Real.log c :=
  scaling_law_run m u lines c hB hc hvalid hdef

/-- Witness for C19: `modelAB` scaled by 2, source "12". -/
theorem scaling_law_witness :
    modelAB.nbrows = 1 ∧ (0 : ℝ) < 2 ∧ (∀ ch ∈ [['1', '2']].flatten, validChar modelAB ch)
      ∧ runDefined realMath modelAB 0 ([['1', '2']].flatten.map symVal)
          (initState modelAB uninit0)
      ∧ ∃ st st2,
          streamLoop realMath modelAB LINES_PER_BLOCK ([['1', '2']].length + 1) [['1', '2']]
            (initState modelAB uninit0) = some st
          ∧ streamLoop realMath (scaleRow modelAB 0 2) LINES_PER_BLOCK ([['1', '2']].length + 1)
              [['1', '2']] (initState (scaleRow modelAB 0 2) uninit0) = some st2
          ∧ (∀ t : Nat,
              weightVec modelAB (processBlock realMath (scaleRow modelAB 0 2)
                  ([['1', '2']].flatten.take t) (initState (scaleRow modelAB 0 2) uninit0)) 0
                = weightVec modelAB (processBlock realMath modelAB
                    ([['1', '2']].flatten.take t) (initState modelAB uninit0)) 0)
          ∧ st2.log_vec_norm 0
              = st.log_vec_norm 0 + ([['1', '2']].flatten.length : ℝ) * Real.log 2
          ∧ finalLogNorm realMath (scaleRow modelAB 0 2) st2 uninit0.max_br_nrm 0
              = finalLogNorm realMath modelAB st uninit0.max_br_nrm 0
                + ([['1', '2']].flatten.length : ℝ) * Real.log 2
          ∧ resultOf realMath (scaleRow modelAB 0 2) st2 uninit0.max_br_nrm
              = resultOf realMath modelAB st uninit0.max_br_nrm
                + ([['1', '2']].flatten.length : ℝ) * Real.log 2 :=
  ⟨rfl, by norm_num, modelAB_valid_12, modelAB_defined _,
    scaling_law modelAB uninit0 [['1', '2']] 2 rfl (by norm_num) modelAB_valid_12
      (modelAB_defined _)⟩

/-- C13 (code evaluated at the failing input). With the data file `fileAB` and a symbol source
that cannot be opened, the run is the run on an empty source: it prints the numeric line `ln 2`
and returns 0. -/
theorem unopened_source_prints_result (u : Uninit ℝ) :
    ∃ m : Model ℝ, loadModel realMath u fileAB = .ok m
      ∧ main realMath u 1 (some fileAB) none
          = some { stdout := [headerOf m, .number (Real.log 2)], exit := .returned 0 }
      ∧ main realMath u 1 (some fileAB) none = main realMath u 1 (some fileAB) (some []) :=
  fileAB_unopened_run u

/-- C14 (amended). For every loaded model whose vectors can be allocated and every source of
valid symbols the run returns 0 and prints, after the header echo, exactly the numeric line
holding `log_en_nrm` as the arithmetic delivers it, with no diagnostic; no hypothesis on norms
or projections is needed, so this covers a zero norm and a non-positive projection. -/
theorem degenerate_norm_not_fatal {α : Type} [LinearOrderedField α] (L : Libm α) (u : Uninit α)
    (fuel : Nat) (file : List α) (lines : List (List Char)) (m : Model α)
    (hload : loadModel L u file = .ok m) (halloc : vectorsAllocate m = true)
    (hf : lines.length < fuel) (hvalid : ∀ ch ∈ lines.flatten, validChar m ch) :
    main L u fuel (some file) (some lines)
      = some { stdout := [headerOf m,
                 .number (resultOf L m
                   (feedSymbols L m (lines.flatten.map symVal) (initState m u)) u.max_br_nrm)],
               exit := .returned 0 } :=
  main_valid_run L u fuel file lines m hload halloc hf hvalid

/-- Witness for C14 (amended): the data file `fileAB` and the source "12". -/
theorem degenerate_norm_not_fatal_witness :
    ∃ m : Model ℝ, loadModel realMath uninit0 fileAB = .ok m ∧ vectorsAllocate m = true
      ∧ [['1', '2']].length < 2 ∧ (∀ ch ∈ [['1', '2']].flatten, validChar m ch)
      ∧ main realMath uninit0 2 (some fileAB) (some [['1', '2']])
          = some { stdout := [headerOf m,
                     .number (resultOf realMath m
                       (feedSymbols realMath m ([['1', '2']].flatten.map symVal)
                         (initState m uninit0)) uninit0.max_br_nrm)],
                   exit := .returned 0 } := by
  obtain ⟨h1, h2, h3, h4⟩ := fileAB_header
  obtain ⟨m, hload, hk, _, _, _, _, hB, hsz, _, _, _⟩ :=
    loadModel_spec realMath uninit0 fileAB 2 1 (fun _ => 2) h1 h2 h3 h4
  have halloc : vectorsAllocate m = true := by
    apply vectorsAllocate_of_sizes
    intro j hj
    rw [hB] at hj
    rw [hsz j hj]
    decide
  have hvalid : ∀ ch ∈ [['1', '2']].flatten, validChar m ch := by
    intro ch hch
    simp only [List.flatten_cons, List.flatten_nil, List.append_nil, List.mem_cons,
      List.mem_singleton, List.not_mem_nil, or_false] at hch
    rcases hch with rfl | rfl <;> (unfold validChar symVal; rw [hk]; decide)
  exact ⟨m, hload, halloc, by decide, hvalid,
    degenerate_norm_not_fatal realMath uninit0 2 fileAB [['1', '2']] m hload halloc (by decide)
      hvalid⟩

/-- Counterexample to C14 as stated: on the data file `fileZero` and the source "1" the only
renormalisation norm is zero, and the run still prints a numeric line, prints no diagnostic and
returns 0. -/
theorem degenerate_norm_counterexample :
    ∃ (m : Model ℝ) (x : ℝ), loadModel realMath uninit0 fileZero = .ok m
      ∧ validChar m '1'
      ∧ normAt realMath m (symVal '1') 0 (initState m uninit0) = 0
      ∧ main realMath uninit0 2 (some fileZero) (some [['1']])
          = some { stdout := [headerOf m, .number x], exit := .returned 0 } :=
  fileZero_run

/-- C17 (code evaluated at the failing input). On `modelAB` and the four lines "3", "1", "1",
"1" the bad character `3` ends only the loop over the first batch "311"; the `while` loop goes
on, the fourth line is processed as a second batch and updates the accumulator: the cumulative
log-norm of block row 0 ends as `ln(8)/2` instead of the 0 reached after the (empty) valid
prefix. -/
theorem later_batch_updates_after_bad_char :
    ∃ st, streamLoop realMath modelAB LINES_PER_BLOCK 5 [['3'], ['1'], ['1'], ['1']]
          (initState modelAB uninit0) = some st
      ∧ st = symbolStep realMath modelAB (symVal '1')
          { initState modelAB uninit0 with bad_char := true }
      ∧ st.bad_char = true
      ∧ (initState modelAB uninit0).log_vec_norm 0 = 0
      ∧ st.log_vec_norm 0 = Real.log 8 / 2
      ∧ st.log_vec_norm 0 ≠ (initState modelAB uninit0).log_vec_norm 0 :=
  modelAB_later_batch

/-- C18. Block-row independence, in any arithmetic: two models with the same number of symbols
and, at position `i`, the same block size and the same matrix entries, whatever their other
block rows, their number of block rows and the indeterminate initial content of their storage
(scratch vector included), give on the same valid symbols the same weight vector, cumulative
log-norm and finalised log-norm for block row `i`. -/
theorem block_row_independent {α : Type} [LinearOrderedField α] (L : Libm α) (m1 m2 : Model α)
    (u1 u2 : Uninit α) (lines : List (List Char)) (i : Nat) (hi1 : (i : Int) < m1.nbrows)
    (hi2 : (i : Int) < m2.nbrows) (hk : m1.k_sym = m2.k_sym)
    (hsz : m1.mxsz_vals i = m2.mxsz_vals i)
    (hM : ∀ s : Int, 0 ≤ s → s < m1.k_sym → ∀ r c : Nat, r < rowSize m1 i → c < rowSize m1 i →
      m1.MiP ((i : Int) * m1.k_sym + s).toNat (m1.mxsz_vals i * (r : Int) + (c : Int)).toNat
        = m2.MiP ((i : Int) * m2.k_sym + s).toNat (m2.mxsz_vals i * (r : Int) + (c : Int)).toNat)
    (hvalid : ∀ ch ∈ lines.flatten, validChar m1 ch) :
    ∃ st1 st2,
      streamLoop L m1 LINES_PER_BLOCK (lines.length + 1) lines (initState m1 u1) = some st1
      ∧ streamLoop L m2 LINES_PER_BLOCK (lines.length + 1) lines (initState m2 u2) = some st2
      ∧ (∀ c : Nat, (c : Int) < m1.mxsz_vals i → st1.v_0 i c = st2.v_0 i c)
      ∧ st1.log_vec_norm i = st2.log_vec_norm i
      ∧ finalLogNorm L m1 st1 u1.max_br_nrm i = finalLogNorm L m2 st2 u2.max_br_nrm i :=
  independent_run L m1 m2 u1 u2 lines i hi1 hi2 hk hsz hM hvalid

/-- Witness for C18: `modelAB` and the two-block-row model `modelAB2`, which share block row 0,
started from different indeterminate storage, on the source "12". -/
theorem block_row_independent_witness :
    ((0 : Nat) : Int) < modelAB.nbrows ∧ ((0 : Nat) : Int) < modelAB2.nbrows
      ∧ modelAB.k_sym = modelAB2.k_sym ∧ modelAB.mxsz_vals 0 = modelAB2.mxsz_vals 0
      ∧ (∀ s : Int, 0 ≤ s → s < modelAB.k_sym → ∀ r c : Nat, r < rowSize modelAB 0 →
          c < rowSize modelAB 0 →
          modelAB.MiP (((0 : Nat) : Int) * modelAB.k_sym + s).toNat
              (modelAB.mxsz_vals 0 * (r : Int) + (c : Int)).toNat
            = modelAB2.MiP (((0 : Nat) : Int) * modelAB2.k_sym + s).toNat
              (modelAB2.mxsz_vals 0 * (r : Int) + (c : Int)).toNat)
      ∧ (∀ ch ∈ [['1', '2']].flatten, validChar modelAB ch)
      ∧ ∃ st1 st2,
          streamLoop realMath modelAB LINES_PER_BLOCK ([['1', '2']].length + 1) [['1', '2']]
            (initState modelAB uninit0) = some st1
          ∧ streamLoop realMath modelAB2 LINES_PER_BLOCK ([['1', '2']].length + 1) [['1', '2']]
              (initState modelAB2 uninit7) = some st2
          ∧ (∀ c : Nat, (c : Int) < modelAB.mxsz_vals 0 → st1.v_0 0 c = st2.v_0 0 c)
          ∧ st1.log_vec_norm 0 = st2.log_vec_norm 0
          ∧ finalLogNorm realMath modelAB st1 uninit0.max_br_nrm 0
              = finalLogNorm realMath modelAB2 st2 uninit7.max_br_nrm 0 :=
  ⟨by decide, by decide, rfl, rfl, modelAB_modelAB2_row0, modelAB_valid_12,
    block_row_independent realMath modelAB modelAB2 uninit0 uninit7 [['1', '2']] 0 (by decide)
      (by decide) rfl rfl modelAB_modelAB2_row0 modelAB_valid_12⟩

/-- C20. Index safety: for a successfully loaded model, an accepted symbol `s` in `[0, k_sym)`,
a block row `mm < nbrows` and `r, c < mxsz_vals[mm]`, every index of the per-symbol update and
of the finalisation is non-negative and below the length asked for at allocation:
`mm*k_sym + s` for the table `MiP`, `mxsz_vals[mm]*r + c` for a matrix, `r` and `c` for
`v_0[mm]`, `c` for the scratch vector `v_tmp`, whose length `max_mxsz` is the largest block
size. -/
theorem index_safety {α : Type} [LinearOrderedField α] (L : Libm α) (u : Uninit α)
    (file : List α) (m : Model α) (hload : loadModel L u file = .ok m) (s : Int) (hs0 : 0 ≤ s)
    (hs1 : s < m.k_sym) (mm r c : Nat) (hmm : (mm : Int) < m.nbrows)
    (hr : (r : Int) < m.mxsz_vals mm) (hc : (c : Int) < m.mxsz_vals mm) :
    0 ≤ (mm : Int) * m.k_sym + s ∧ (mm : Int) * m.k_sym + s < tableLen m
      ∧ 0 ≤ m.mxsz_vals mm * (r : Int) + (c : Int)
      ∧ m.mxsz_vals mm * (r : Int) + (c : Int) < matrixLen m mm
      ∧ (r : Int) < vectorLen m mm ∧ (c : Int) < vectorLen m mm
      ∧ (c : Int) < scratchLen m
      ∧ (∀ j : Nat, (j : Int) < m.nbrows → m.mxsz_vals j ≤ m.max_mxsz)
      ∧ ∃ j : Nat, (j : Int) < m.nbrows ∧ m.max_mxsz = m.mxsz_vals j :=
  index_bounds L u file m hload s hs0 hs1 mm r c hmm hr hc

/-- Witness for C20: the model loaded from `fileAB`, symbol 1, block row 0, row 1, column 1. -/
theorem index_safety_witness :
    ∃ m : Model ℝ, loadModel realMath uninit0 fileAB = .ok m
      ∧ (0 : Int) ≤ 1 ∧ (1 : Int) < m.k_sym ∧ ((0 : Nat) : Int) < m.nbrows
      ∧ ((1 : Nat) : Int) < m.mxsz_vals 0
      ∧ 0 ≤ ((0 : Nat) : Int) * m.k_sym + 1 ∧ ((0 : Nat) : Int) * m.k_sym + 1 < tableLen m
      ∧ 0 ≤ m.mxsz_vals 0 * ((1 : Nat) : Int) + ((1 : Nat) : Int)
      ∧ m.mxsz_vals 0 * ((1 : Nat) : Int) + ((1 : Nat) : Int) < matrixLen m 0
      ∧ ((1 : Nat) : Int) < vectorLen m 0 ∧ ((1 : Nat) : Int) < vectorLen m 0
      ∧ ((1 : Nat) : Int) < scratchLen m
      ∧ (∀ j : Nat, (j : Int) < m.nbrows → m.mxsz_vals j ≤ m.max_mxsz)
      ∧ ∃ j : Nat, (j : Int) < m.nbrows ∧ m.max_mxsz = m.mxsz_vals j := by
  obtain ⟨h1, h2, h3, h4⟩ := fileAB_header
  obtain ⟨m, hload, hk, _, _, _, _, hB, hsz, _, _, _⟩ :=
    loadModel_spec realMath uninit0 fileAB 2 1 (fun _ => 2) h1 h2 h3 h4
  have hk1 : (1 : Int) < m.k_sym := by rw [hk]; decide
  have hB1 : ((0 : Nat) : Int) < m.nbrows := by rw [hB]; decide
  have hs1 : ((1 : Nat) : Int) < m.mxsz_vals 0 := by rw [hsz 0 (by decide)]; decide
  exact ⟨m, hload, by decide, hk1, hB1, hs1,
    index_safety realMath uninit0 fileAB m hload 1 (by decide) hk1 0 1 1 hB1 hs1 hs1⟩

end Claims

end MultAlpha
